import Mathlib

/-!
Verification development for the block-image transfer planner
(`blockimgdiff.py`: `EmptyImage`, `DataImage`, `BlockImageDiff`).

The source manipulates `RangeSet` values from `rangelib`, which is part of
the repository but not under `src/`; following the specification (§4.1), a
`RangeSet` denotes a finite set of block indices, so it is modelled here as
`Finset ℕ`.  The `monotonic` flag of a `RangeSet` (a property of how the
set was constructed, not of the set it denotes) is supplied as a parameter
wherever the source reads it.

The source is Python 2 (`/` on ints is floor division, byte strings are
`str`).  Machine integers are unbounded in Python, so they are modelled as
`ℕ`/`ℤ`; the floating-point quantities `stash_threshold` and
`cache_size * 0.125` are modelled as exact rationals (`ℚ`), which agrees
with the source on every value used in the theorems below.  Fallible code
(Python `assert`, `raise`, `KeyError` …) is modelled with `Except PyErr`.
-/

namespace BlockImgDiff

/-- Kinds of runtime failure raised by the Python source. -/
inductive PyErr where
  | valueError
  | assertionError
  | typeError
  | keyError
  | stashLimit
  | hang
deriving DecidableEq, Repr

instance {ε α : Type} [DecidableEq ε] [DecidableEq α] :
    DecidableEq (Except ε α) := fun x y =>
  match x, y with
  | .ok a, .ok b =>
    if h : a = b then isTrue (by rw [h]) else isFalse (fun hc => h (by injection hc))
  | .error a, .error b =>
    if h : a = b then isTrue (by rw [h]) else isFalse (fun hc => h (by injection hc))
  | .ok _, .error _ => isFalse (fun hc => Except.noConfusion hc)
  | .error _, .ok _ => isFalse (fun hc => Except.noConfusion hc)

/-- Update the element at position `i` of a list (identity when out of range);
models in-place mutation of `self.transfers[i]`. -/
def updAt {α : Type} : List α → ℕ → (α → α) → List α
  | [], _, _ => []
  | x :: xs, 0, f => f x :: xs
  | x :: xs, n + 1, f => x :: updAt xs n f

/-- Position of the first occurrence of `x` in `l` (length of `l` if absent);
models the `order` field, which equals the transfer's position in the
sequence after `FindVertexSequence` / `ImproveVertexSequence` ran. -/
def posOf : List ℕ → ℕ → ℕ
  | [], _ => 0
  | a :: l, x => if a = x then 0 else posOf l x + 1

/-- Keys of an association list; models `dict.keys()` /
`OrderedDict.keys()` in insertion order. -/
def keysOf {κ α : Type} (l : List (κ × α)) : List κ := l.map Prod.fst

/-- `d[k]` / `d.get(k)` on an insertion-ordered dict. -/
def alookup {κ α : Type} [DecidableEq κ] : List (κ × α) → κ → Option α
  | [], _ => none
  | p :: l, k => if p.1 = k then some p.2 else alookup l k

/-- `d[k] = v` on an insertion-ordered dict: replace the value in place if
the key is present, else append the binding at the end. -/
def assocSet {κ α : Type} [DecidableEq κ] (l : List (κ × α)) (k : κ) (v : α) :
    List (κ × α) :=
  if (alookup l k).isSome then
    l.map (fun p => if p.1 = k then (k, v) else p)
  else
    l ++ [(k, v)]

/-- `del d[k]` on a dict whose keys are unique: drop the binding. -/
def assocDel {κ α : Type} [DecidableEq κ] (l : List (κ × α)) (k : κ) :
    List (κ × α) :=
  l.filter (fun p => p.1 ≠ k)

/-- Remove the first occurrence of an element from a list
(`list.remove(x)` in Python). -/
def eraseFirst {α : Type} [DecidableEq α] : List α → α → List α
  | [], _ => []
  | x :: l, a => if x = a then l else x :: eraseFirst l a

/-- `blocks > max_allowed` where `max_allowed = cache_size *
stash_threshold / blocksize` (`ReviseStashSize`): the comparison is
computed exactly over ℤ by cross-multiplying with the threshold's
denominator (the source uses `float` arithmetic, which is exact for the
value 1.0 and for power-of-two cache sizes used in the theorems below). -/
def overStashBudget (blocks : ℤ) (cache : ℕ) (thr : ℚ) : Bool :=
  blocks * 4096 * thr.den > cache * thr.num

/-- `max_stashed_blocks * blocksize < cache_size * stash_threshold` (the
stash-budget assertion of `WriteTransfers`), exact over ℤ as above. -/
def withinStashBudget (blocks : ℤ) (cache : ℕ) (thr : ℚ) : Bool :=
  blocks * 4096 * thr.den < cache * thr.num

/-- A `RangeSet` of `rangelib`, modelled from the spec as the finite set of
block indices it denotes. -/
abbrev RSet := Finset ℕ

/-- `RangeSet.size()`: total number of blocks. -/
def rsSize (s : RSet) : ℕ := s.card

/-- `RangeSet.first(k)`: the first `k` blocks of `s` in ascending order
(all of `s` when `k ≥ size`). -/
def rsFirst (s : RSet) (k : ℕ) : RSet :=
  ((s.sort (· ≤ ·)).take k).toFinset

/-- Number of members of `parent` strictly below `b`: the 0-based position
`b` occupies in the flattened `parent`. -/
def rsRank (parent : RSet) (b : ℕ) : ℕ := (parent.filter (· < b)).card

/-- `RangeSet.map_within(sub)`: with `sub ⊆ parent`, the set of positions
(0-based, within the flattened `parent`) occupied by `sub`. -/
def mapWithin (parent sub : RSet) : RSet := sub.image (rsRank parent)

/-- `AssertPartition(total, seq)`: the range sets in `seq` must be pairwise
non-overlapping and their union must equal `total`; `false` means the
assertion fires. -/
def assertPartition (total : RSet) (seq : List RSet) : Bool :=
  (List.range seq.length).all
      (fun i => (List.range seq.length).all
        (fun j => i = j || ((seq.getD i ∅) ∩ (seq.getD j ∅) = (∅ : RSet))))
    && (seq.foldl (· ∪ ·) (∅ : RSet) = total)

/-! ### DataImage (`DataImage.__init__`, `ReadRangeSet`, `TotalSha1`) -/

/-- The state a successful `DataImage.__init__` builds.  `clobbered_blocks`
is stored by the source as a raw python list `[total_blocks-1, total_blocks]`
(or `[]`); the field here holds the block set that pair list denotes. -/
structure DImg where
  data : List ℕ
  totalBlocks : ℕ
  careMap : RSet
  clobberedBlocks : RSet
  fileMap : List (String × RSet)
deriving DecidableEq

/-- One step of the zero/nonzero classification loop of
`DataImage.__init__`: block `i` goes to `zero_blocks` when its 4096 bytes
are all `\0`, else to `nonzero_blocks` (the source appends the pair
`i, i+1`; the block index is recorded here). -/
def classifyStep (data : List ℕ) (acc : List ℕ × List ℕ) (i : ℕ) :
    List ℕ × List ℕ :=
  if (data.drop (i * 4096)).take 4096 = List.replicate 4096 0 then
    (acc.1 ++ [i], acc.2)
  else
    (acc.1, acc.2 ++ [i])

/-- The zero/nonzero classification loop of `DataImage.__init__` over the
first `n` blocks. -/
def classifyBlocks (data : List ℕ) (n : ℕ) : List ℕ × List ℕ :=
  (List.range n).foldl (classifyStep data) ([], [])

/-- `DataImage.__init__(data, trim, pad)`.  Python-2 `/` on ints is floor
division.  `raise ValueError` and failed `assert`s are modelled as errors. -/
def dataImageInit (data : List ℕ) (trim pad : Bool) : Except PyErr DImg := do
  if trim && pad then throw .assertionError
  let partial_ := data.length % 4096
  let (data, padded) ←
    if partial_ > 0 then
      if trim then pure (data.take (data.length - partial_), false)
      else if pad then pure (data ++ List.replicate (4096 - partial_) 0, true)
      else throw .valueError
    else pure (data, false)
  if data.length % 4096 ≠ 0 then throw .assertionError
  let totalBlocks := data.length / 4096
  let careMap : RSet := Finset.range totalBlocks
  let clobbered : RSet := if padded then {totalBlocks - 1} else ∅
  let (zeroBlocks, nonzeroBlocks) :=
    classifyBlocks data (if padded then totalBlocks - 1 else totalBlocks)
  if zeroBlocks = [] ∧ nonzeroBlocks = [] ∧ clobbered = ∅ then
    throw .assertionError
  let fm₁ : List (String × RSet) :=
    if zeroBlocks ≠ [] then [("__ZERO", zeroBlocks.toFinset)] else []
  let fm₂ : List (String × RSet) :=
    if nonzeroBlocks ≠ [] then [("__NONZERO", nonzeroBlocks.toFinset)] else []
  let fm₃ : List (String × RSet) :=
    if clobbered ≠ ∅ then [("__COPY", clobbered)] else []
  pure { data := data, totalBlocks := totalBlocks, careMap := careMap,
         clobberedBlocks := clobbered, fileMap := fm₁ ++ fm₂ ++ fm₃ }

/-- `DataImage.ReadRangeSet(ranges)`: a list of byte chunks whose
concatenation is the data of the blocks of `ranges` in ascending order
(implementations may chunk freely; one chunk per block here). -/
def readRangeSet (img : DImg) (ranges : RSet) : List (List ℕ) :=
  (ranges.sort (· ≤ ·)).map (fun b => (img.data.drop (b * 4096)).take 4096)

/-- A Python value passed to `hashlib.sha1`: either a byte string or
(erroneously) a list of byte strings. -/
inductive PyVal where
  | str (s : List ℕ)
  | list (l : List (List ℕ))

/-- `hashlib.sha1(x)`: accepts a byte string and returns its digest
(`sha` abstracts the SHA-1 function); passing a list raises `TypeError`. -/
def pySha1 (sha : List ℕ → List ℕ) : PyVal → Except PyErr (List ℕ)
  | .str s => pure (sha s)
  | .list _ => throw .typeError

/-- `DataImage.TotalSha1(include_clobbered_blocks)`.  The
`include_clobbered_blocks=False` branch passes the chunk *list* returned by
`ReadRangeSet` directly to `sha1(...)`. -/
def totalSha1 (sha : List ℕ → List ℕ) (img : DImg)
    (includeClobberedBlocks : Bool) : Except PyErr (List ℕ) :=
  if !includeClobberedBlocks then
    pySha1 sha (.list (readRangeSet img (img.careMap \ img.clobberedBlocks)))
  else
    pySha1 sha (.str img.data)

/-- The partition property of `AssertPartition` as a proposition: the
parts are pairwise disjoint and their union is the whole. -/
def partitionsFS (parts : List RSet) (whole : RSet) : Prop :=
  parts.foldr (· ∪ ·) ∅ = whole ∧
    List.Pairwise (fun a b => a ∩ b = ∅) parts

/-! ### Transfers (`Transfer.__init__`, `Transfer.ConvertToNew`) -/

/-- A `Transfer`.  `goes_before` / `goes_after` are insertion-ordered dicts
keyed by another transfer; transfers are referenced here by their `id`
(their position in the creation-order list `by_id`).  The dict values are
edge weights, set to `None` by `ReverseBackwardEdges` (hence `Option ℕ`).
`stash_before` / `use_stash` are lists of `(stash id, RangeSet)` pairs. -/
structure Xfer where
  tgtName : String
  srcName : Option String
  tgt : RSet
  src : RSet
  style : String
  intact : Bool
  goesBefore : List (ℕ × Option ℕ) := []
  goesAfter : List (ℕ × Option ℕ) := []
  stashBefore : List (ℕ × RSet) := []
  useStash : List (ℕ × RSet) := []
deriving DecidableEq

instance : Inhabited Xfer :=
  ⟨{ tgtName := "", srcName := none, tgt := ∅, src := ∅, style := "",
     intact := false }⟩

/-- `self.transfers[i]` (the creation-order, id-indexed store). -/
def getXf (xs : List Xfer) (i : ℕ) : Xfer := xs.getD i default

/-- Equality of all `Transfer` fields except the dependency dicts
(`GenerateDigraph` mutates only `goes_before` / `goes_after`). -/
def coreEq (x y : Xfer) : Prop :=
  x.tgtName = y.tgtName ∧ x.srcName = y.srcName ∧ x.tgt = y.tgt ∧
  x.src = y.src ∧ x.style = y.style ∧ x.intact = y.intact ∧
  x.stashBefore = y.stashBefore ∧ x.useStash = y.useStash

/-- `Transfer(tgt_name, src_name, tgt_ranges, src_ranges, style, by_id)`:
`intact` is `tgt_ranges.monotonic and src_ranges.monotonic`; the
`monotonic` flag of the spec's RangeSet is supplied by `mono`. -/
def mkXfer (mono : RSet → Bool) (tgtName : String) (srcName : Option String)
    (tgt src : RSet) (style : String) : Xfer :=
  { tgtName := tgtName, srcName := srcName, tgt := tgt, src := src,
    style := style, intact := mono tgt && mono src }

/-- `Transfer.ConvertToNew`: downgrade to a `new` transfer; asserts the
style was not already `new`. -/
def convertToNew (x : Xfer) : Except PyErr Xfer :=
  if x.style = "new" then throw .assertionError
  else pure { x with useStash := [], style := "new", src := ∅ }

/-- `Transfer.NetStashChange`. -/
def netStashChange (x : Xfer) : ℤ :=
  (x.stashBefore.map (fun p => (rsSize p.2 : ℤ))).sum -
    (x.useStash.map (fun p => (rsSize p.2 : ℤ))).sum

/-! ### Transfer enumeration (`FindTransfers`, `AbbreviateSourceNames`) -/

/-- `os.path.basename`: the part after the last `/`. -/
def pyBasename (s : String) : String := (s.splitOn "/").getLastD ""

/-- `re.sub("[0-9]+", "#", s)`: replace every maximal run of ASCII digits
with a single `#`. -/
def squashDigits (s : String) : String :=
  (s.data.foldl
    (fun (acc : String × Bool) c =>
      if c.isDigit then
        if acc.2 then acc else (acc.1.push '#', true)
      else (acc.1.push c, false))
    ("", false)).1

/-- The splitting loop of `FindTransfers.AddTransfer` (`while
tgt_ranges.size() > max_blocks_per_transfer and src_ranges.size() > ...`),
followed by the remaining-blocks piece.  `fuel` bounds the iteration count;
`.hang` models non-termination of the source loop (which happens exactly
when `max_blocks_per_transfer = 0` and both sides are non-empty). -/
def splitDiffLoop (mono : RSet → Bool) (limit : ℕ) (tgtName srcName : String) :
    ℕ → RSet → RSet → ℕ → Except PyErr (List Xfer)
  | fuel, tgt, src, pieces =>
    if rsSize tgt > limit ∧ rsSize src > limit then
      match fuel with
      | 0 => throw .hang
      | fuel + 1 =>
        let tgtFirst := rsFirst tgt limit
        let srcFirst := rsFirst src limit
        let piece := mkXfer mono (tgtName ++ "-" ++ toString pieces)
          (some (srcName ++ "-" ++ toString pieces)) tgtFirst srcFirst "diff"
        (splitDiffLoop mono limit tgtName srcName fuel (tgt \ tgtFirst)
            (src \ srcFirst) (pieces + 1)).map (piece :: ·)
    else
      if rsSize tgt ≠ 0 ∨ rsSize src ≠ 0 then
        if rsSize tgt ≠ 0 ∧ rsSize src ≠ 0 then
          pure [mkXfer mono (tgtName ++ "-" ++ toString pieces)
            (some (srcName ++ "-" ++ toString pieces)) tgt src "diff"]
        else throw .assertionError  -- assert tgt_ranges.size() and src_ranges.size()
      else pure []

/-- `FindTransfers.AddTransfer`: returns the list of transfers created for
one target domain.  `max_blocks_per_transfer = int(cache_size * 0.125 /
blocksize)`; an unconfigured `cache_size` (`None`) makes that expression
raise `TypeError`.  Only called with `split = true` on `diff` style, where
`srcName` is an actual string. -/
def addTransfer (mono : RSet → Bool) (cacheSize : Option ℕ) (tgtName : String)
    (srcName : Option String) (tgt src : RSet) (style : String) (split : Bool) :
    Except PyErr (List Xfer) :=
  if style ≠ "diff" ∨ ¬split then
    pure [mkXfer mono tgtName srcName tgt src style]
  else
    match cacheSize with
    | none => throw .typeError
    | some cache =>
      -- int(cache_size * 0.125 / blocksize) = ⌊cache / 32768⌋:
      -- 0.125 and 4096 are powers of two, so the float arithmetic is exact
      let limit : ℕ := cache / 32768
      if rsSize tgt ≤ limit ∧ rsSize src ≤ limit then
        pure [mkXfer mono tgtName srcName tgt src style]
      else
        splitDiffLoop mono limit tgtName (srcName.getD "") (rsSize tgt) tgt src 0

/-- `AbbreviateSourceNames` digest: `src_basenames` maps each source
domain's basename to its name (later entries overwrite). -/
def srcBasenames (srcFileMap : List (String × RSet)) : List (String × String) :=
  srcFileMap.foldl (fun d p => assocSet d (pyBasename p.1) p.1) []

/-- `AbbreviateSourceNames` digest: `src_numpatterns` maps each source
domain's digit-squashed basename to its name. -/
def srcNumpatterns (srcFileMap : List (String × RSet)) :
    List (String × String) :=
  srcFileMap.foldl (fun d p => assocSet d (squashDigits (pyBasename p.1)) p.1)
    []

/-- `FindTransfers`: walk the target file map in insertion order, match each
domain to a source domain (exact name, basename, digit-pattern basename),
and create `zero` / `new` / `diff` transfers; `diff` transfers are split
when `version ≥ 3`. -/
def findTransfers (mono : RSet → Bool) (version : ℕ) (cacheSize : Option ℕ)
    (tgtFileMap srcFileMap : List (String × RSet)) :
    Except PyErr (List Xfer) :=
  tgtFileMap.foldlM
    (fun acc p => do
      let (tgtFn, tgtRanges) := p
      let pieces ←
        if tgtFn = "__ZERO" then
          addTransfer mono cacheSize tgtFn (some "__ZERO") tgtRanges
            ((alookup srcFileMap "__ZERO").getD ∅) "zero" false
        else if tgtFn = "__COPY" then
          addTransfer mono cacheSize tgtFn none tgtRanges ∅ "new" false
        else
          match alookup srcFileMap tgtFn with
          | some srcR =>
            addTransfer mono cacheSize tgtFn (some tgtFn) tgtRanges srcR
              "diff" (decide (3 ≤ version))
          | none =>
            match alookup (srcBasenames srcFileMap) (pyBasename tgtFn) with
            | some srcFn =>
              addTransfer mono cacheSize tgtFn (some srcFn) tgtRanges
                ((alookup srcFileMap srcFn).getD ∅) "diff"
                (decide (3 ≤ version))
            | none =>
              match alookup (srcNumpatterns srcFileMap)
                  (squashDigits (pyBasename tgtFn)) with
              | some srcFn =>
                addTransfer mono cacheSize tgtFn (some srcFn) tgtRanges
                  ((alookup srcFileMap srcFn).getD ∅) "diff"
                  (decide (3 ≤ version))
              | none =>
                addTransfer mono cacheSize tgtFn none tgtRanges ∅ "new" false
      pure (acc ++ pieces))
    []

/-! ### Dependency digraph (`GenerateDigraph`) -/

/-- Length of the `source_ranges` table after phase 1 of `GenerateDigraph`:
it is extended to the end of every source range, so its final length is one
past the largest source block (0 when no transfer has a source). -/
def srcTableLen (xs : List Xfer) : ℕ :=
  xs.foldl (fun n xf => max n (xf.src.sup (· + 1))) 0

/-- The `intersections` set collected for transfer `aId`: ids of transfers
that use some block of `a.tgt_ranges` below the table length as a source.
(The source walks `a.tgt_ranges` and unions the per-block entries
`source_ranges[i]`, breaking when `i ≥ len(source_ranges)`; since ranges
ascend, that collects exactly the blocks below the table length.  A Python
set is iterated in unspecified order; ascending id is fixed here.) -/
def digraphIntersections (xs : List Xfer) (tlen : ℕ) (aId : ℕ) : List ℕ :=
  (List.range xs.length).filter
    (fun bId => ((getXf xs bId).src ∩ (getXf xs aId).tgt).filter (· < tlen) ≠ ∅)

/-- `i = a.tgt_ranges.intersect(b.src_ranges)` in `GenerateDigraph`. -/
def interW (xs : List Xfer) (aId bId : ℕ) : RSet :=
  (getXf xs aId).tgt ∩ (getXf xs bId).src

/-- The edge weight of `GenerateDigraph`: `|a.tgt ∩ b.src|`, except 0 when
`b.src_name == "__ZERO"`. -/
def edgeW (xs : List Xfer) (aId bId : ℕ) : ℕ :=
  if (getXf xs bId).srcName = some "__ZERO" then 0 else rsSize (interW xs aId bId)

/-- Inner loop body of `GenerateDigraph`: for `b` in the intersections of
`a`, skip self, and when `a.tgt_ranges ∩ b.src_ranges` is non-empty insert
the edge `b goes before a` with weight `edgeW`. -/
def digraphAddEdge (aId : ℕ) (xs : List Xfer) (bId : ℕ) : List Xfer :=
  if bId = aId then xs
  else
    if interW xs aId bId = ∅ then xs
    else
      let w : ℕ := edgeW xs aId bId
      let xs' := updAt xs bId
        (fun b => { b with goesBefore := assocSet b.goesBefore aId (some w) })
      updAt xs' aId
        (fun a => { a with goesAfter := assocSet a.goesAfter bId (some w) })

/-- Outer loop body of `GenerateDigraph`: collect the intersections of
transfer `aId` and add the edges. -/
def digraphOuter (tlen : ℕ) (xs : List Xfer) (aId : ℕ) : List Xfer :=
  (digraphIntersections xs tlen aId).foldl (digraphAddEdge aId) xs

/-- `GenerateDigraph`. -/
def generateDigraph (xs₀ : List Xfer) : List Xfer :=
  (List.range xs₀.length).foldl (digraphOuter (srcTableLen xs₀)) xs₀

/-! ### Cycle breaking (`ReverseBackwardEdges`, `RemoveBackwardEdges`) -/

/-- State of `ReverseBackwardEdges`: the transfer store, the `stashes` id
counter, and a log of `(sid, xf, u)` for each stash issued, in issue
order. -/
structure RevSt where
  xs : List Xfer
  ctr : ℕ
  log : List (ℕ × ℕ × ℕ)
deriving DecidableEq

/-- One `u ∈ xf.goes_before` check of `ReverseBackwardEdges`.  The `order`
field of a transfer equals its position in `seq` (assigned by
`FindVertexSequence`), so `xf.order < u.order` is compared via `posOf`.
On a violation: assert the overlap non-empty, stash it, and reverse the
edge. -/
def revPair (seq : List ℕ) (xfId : ℕ) (st : RevSt) (uId : ℕ) :
    Except PyErr RevSt :=
  if posOf seq xfId < posOf seq uId then pure st
  else
    let overlap := (getXf st.xs xfId).src ∩ (getXf st.xs uId).tgt
    if overlap = ∅ then throw .assertionError
    else
      let xs₁ := updAt st.xs uId
        (fun u => { u with stashBefore := u.stashBefore ++ [(st.ctr, overlap)] })
      let xs₂ := updAt xs₁ xfId
        (fun x => { x with useStash := x.useStash ++ [(st.ctr, overlap)] })
      let xs₃ := updAt xs₂ xfId
        (fun x => { x with goesBefore := assocDel x.goesBefore uId })
      let xs₄ := updAt xs₃ uId
        (fun u => { u with goesAfter := assocDel u.goesAfter xfId })
      let xs₅ := updAt xs₄ xfId
        (fun x => { x with goesAfter := assocSet x.goesAfter uId none })
      let xs₆ := updAt xs₅ uId
        (fun u => { u with goesBefore := assocSet u.goesBefore xfId none })
      pure { xs := xs₆, ctr := st.ctr + 1, log := st.log ++ [(st.ctr, xfId, uId)] }

/-- `ReverseBackwardEdges`: walk the transfers in sequence order; for each,
iterate over a copy of its current `goes_before` keys. -/
def reverseBackwardEdges (xs : List Xfer) (seq : List ℕ) : Except PyErr RevSt :=
  seq.foldlM
    (fun st xfId => (keysOf (getXf st.xs xfId).goesBefore).foldlM (revPair seq xfId) st)
    { xs := xs, ctr := 0, log := [] }

/-- Equality of the `Transfer` fields that `ReverseBackwardEdges` never
touches (names, ranges, style, `intact`). -/
def revEq (x y : Xfer) : Prop :=
  x.tgtName = y.tgtName ∧ x.srcName = y.srcName ∧ x.tgt = y.tgt ∧
  x.src = y.src ∧ x.style = y.style ∧ x.intact = y.intact

/-- `overlap = xf.src_ranges.intersect(u.tgt_ranges)` of
`ReverseBackwardEdges`, read off the initial store. -/
def ovl (xs : List Xfer) (x u : ℕ) : RSet :=
  (getXf xs x).src ∩ (getXf xs u).tgt

/-- The out-of-order (`xf.order ≥ u.order`) keys of `xf.goes_before`, in
dict order: the pairs `ReverseBackwardEdges` stashes and reverses. -/
def violKeys (xs : List Xfer) (seq : List ℕ) (x : ℕ) : List ℕ :=
  (keysOf (getXf xs x).goesBefore).filter
    (fun u => !decide (posOf seq x < posOf seq u))

/-- All violated pairs `(xf, u)` encountered while walking the ids of `R`
in order: the stash-issue trace of `ReverseBackwardEdges`. -/
def violPairs (xs : List Xfer) (seq : List ℕ) (R : List ℕ) : List (ℕ × ℕ) :=
  R.flatMap (fun x => (violKeys xs seq x).map (fun u => (x, u)))

/-- `RemoveBackwardEdges` body for one transfer: trim the blocks written by
each out-of-order successor out of `xf.src_ranges` (asserting the overlap),
then downgrade an emptied `diff` to `new`. -/
def removeXfer (seq : List ℕ) (xs : List Xfer) (xfId : ℕ) :
    Except PyErr (List Xfer) := do
  let xs ← (keysOf (getXf xs xfId).goesBefore).foldlM
    (fun xs uId =>
      if posOf seq xfId < posOf seq uId then pure xs
      else
        if (getXf xs xfId).src ∩ (getXf xs uId).tgt = ∅ then
          throw .assertionError  -- assert xf.src_ranges.overlaps(u.tgt_ranges)
        else
          pure (updAt xs xfId
            (fun x => { x with src := x.src \ (getXf xs uId).tgt, intact := false })))
    xs
  if (getXf xs xfId).style = "diff" ∧ (getXf xs xfId).src = ∅ then
    pure (updAt xs xfId (fun x => { x with style := "new" }))
  else pure xs

/-- `RemoveBackwardEdges` (format version 1). -/
def removeBackwardEdges (xs : List Xfer) (seq : List ℕ) :
    Except PyErr (List Xfer) :=
  seq.foldlM (removeXfer seq) xs

/-! ### Order refinement (`ImproveVertexSequence`) -/

/-- The heap key used by `ImproveVertexSequence`:
`(NetStashChange, order)`; `order` equals the position in the pre-existing
sequence, which makes keys distinct, so the heap pop always returns the
lexicographically least key of the ready set. -/
def improveKey (xs : List Xfer) (seq₀ : List ℕ) (u : ℕ) : ℤ × ℕ :=
  (netStashChange (getXf xs u), posOf seq₀ u)

/-- Strict lexicographic comparison on heap keys. -/
def lexLt (a b : ℤ × ℕ) : Bool :=
  a.1 < b.1 || (a.1 = b.1 && a.2 < b.2)

/-- Least element of a candidate list under `key` (leftmost on ties, which
cannot occur since `order` components are distinct). -/
def pickMin (key : ℕ → ℤ × ℕ) : List ℕ → Option ℕ
  | [] => none
  | u :: rest =>
    match pickMin key rest with
    | none => some u
    | some v => if lexLt (key v) (key u) then some v else some u

/-- The topological loop of `ImproveVertexSequence`: `inc` carries each
remaining vertex's not-yet-output `goes_after` predecessors (the `incoming`
copies); outputting `u` deletes it from the `incoming` of everything in
`u.outgoing = u.goes_before`.  Failure of the final
`assert len(L) == len(self.transfers)` (a cycle) is an error. -/
def improveLoop (xs : List Xfer) (seq₀ : List ℕ) :
    ℕ → List (ℕ × List ℕ) → List ℕ → List ℕ → Except PyErr (List ℕ)
  | 0, _, rem, acc => if rem = [] then pure acc.reverse else throw .assertionError
  | fuel + 1, inc, rem, acc =>
    if rem = [] then pure acc.reverse
    else
      let ready := rem.filter (fun u => (alookup inc u).getD [] = [])
      match pickMin (improveKey xs seq₀) ready with
      | none => throw .assertionError
      | some u =>
        let inc' := (keysOf (getXf xs u).goesBefore).foldl
          (fun d v => assocSet d v (((alookup d v).getD []).filter (· ≠ u))) inc
        improveLoop xs seq₀ fuel inc' (rem.filter (· ≠ u)) (u :: acc)

/-- `ImproveVertexSequence`: greedy topological sort of the (now acyclic)
digraph, returning the new sequence of transfer ids. -/
def improveVertexSequence (xs : List Xfer) (seq₀ : List ℕ) :
    Except PyErr (List ℕ) :=
  improveLoop xs seq₀ seq₀.length
    (seq₀.map (fun i => (i, keysOf (getXf xs i).goesAfter))) seq₀ []

/-! ### Stash budget revision (`ReviseStashSize`) -/

/-- An entry of the `stashes` map built by `ReviseStashSize`:
`stashes[idx] = (sr, def_cmd)` extended to `(sr, def_cmd, use_cmd)` by the
first use. -/
structure StashInfo where
  sr : RSet
  defCmd : ℕ
  useCmd : Option ℕ
deriving DecidableEq

/-- Phase 1 of `ReviseStashSize`: map each stash id to its def/use points.
A use of an undefined stash raises `KeyError` (`stashes[idx] += (xf,)`). -/
def reviseBuildStashes (xs : List Xfer) (seq : List ℕ) :
    Except PyErr (List (ℕ × StashInfo)) :=
  seq.foldlM
    (fun d xfId => do
      let xf := getXf xs xfId
      let d := xf.stashBefore.foldl
        (fun d p => assocSet d p.1 ⟨p.2, xfId, none⟩) d
      xf.useStash.foldlM
        (fun d p => do
          match alookup d p.1 with
          | none => throw .keyError
          | some info =>
            match info.useCmd with
            | some _ => pure d
            | none => pure (assocSet d p.1 { info with useCmd := some xfId }))
        d)
    []

/-- Phase 2 of `ReviseStashSize` for one transfer: simulate the stash load,
mark over-budget consumers (explicit stashes) and over-budget overlapping
v3 `diff` transfers (implicit stashes), then convert the marked commands to
`new`, removing the def points of the stashes they used.
`stashes[idx][2]` on a use-less def raises `IndexError` (modelled
`.typeError`). -/
def reviseStep (version : ℕ) (cache : ℕ) (thr : ℚ)
    (stashMap : List (ℕ × StashInfo))
    (st : List Xfer × ℤ × ℕ) (xfId : ℕ) : Except PyErr (List Xfer × ℤ × ℕ) := do
  let xs := st.1
  let xf := getXf xs xfId
  let pr ← xf.stashBefore.foldlM
    (fun (acc : ℤ × List ℕ) p => do
      if overStashBudget (acc.1 + rsSize p.2) cache thr then
        match alookup stashMap p.1 with
        | none => throw .keyError
        | some info =>
          match info.useCmd with
          | none => throw .typeError
          | some useCmd => pure (acc.1, acc.2 ++ [useCmd])
      else pure (acc.1 + rsSize p.2, acc.2))
    (st.2.1, [])
  let stashedBlocks := xf.useStash.foldl (fun b p => b - (rsSize p.2 : ℤ)) pr.1
  let replacedE : Except PyErr (List ℕ) :=
    if xf.style = "diff" ∧ 3 ≤ version then
      if xf.tgt = ∅ ∨ xf.src = ∅ then throw .assertionError
      else if xf.src ∩ xf.tgt ≠ ∅ ∧
          overStashBudget (stashedBlocks + rsSize xf.src) cache thr then
        pure (pr.2 ++ [xfId])
      else pure pr.2
    else pure pr.2
  let replaced ← replacedE
  let pr2 ← replaced.foldlM
    (fun (acc : List Xfer × ℕ) cmdId => do
      let xs ← (getXf acc.1 cmdId).useStash.foldlM
        (fun xs (p : ℕ × RSet) => do
          match alookup stashMap p.1 with
          | none => throw .keyError
          | some info =>
            if p ∈ (getXf xs info.defCmd).stashBefore then
              pure (updAt xs info.defCmd
                (fun d => { d with stashBefore := eraseFirst d.stashBefore p }))
            else throw .assertionError)  -- assert (idx, sr) in def_cmd.stash_before
        acc.1
      let cmd' ← convertToNew (getXf xs cmdId)
      pure (updAt xs cmdId (fun _ => cmd'), acc.2 + rsSize (getXf xs cmdId).tgt))
    (xs, st.2.2)
  pure (pr2.1, stashedBlocks, pr2.2)

/-- `ReviseStashSize`: `max_allowed = cache_size * stash_threshold /
blocksize`. -/
def reviseStashSize (version : ℕ) (cache : ℕ) (thr : ℚ) (xs : List Xfer)
    (seq : List ℕ) : Except PyErr (List Xfer) := do
  let stashMap ← reviseBuildStashes xs seq
  let (xs, _, _) ← seq.foldlM (reviseStep version cache thr stashMap)
    (xs, (0 : ℤ), 0)
  pure xs

/-! ### Patch computation (`ComputePatches`: style resolution) -/

/-- `tgt_name.split(".")[-1].lower()`. -/
def fileExt (s : String) : String := ((s.splitOn ".").getLastD "").toLower

/-- The per-transfer style resolution of `ComputePatches`: a `diff` whose
source SHA-1 equals its target SHA-1 becomes `move` with no patch job;
otherwise `imgdiff` when imgdiff is enabled, the transfer is intact and the
target extension is `apk`/`jar`/`zip`, else `bsdiff`, with a patch job
enqueued.  `srcSha rs` / `tgtSha rs` abstract the SHA-1 of the source /
target bytes of `rs`.  Returns the resolved store and the enqueued ids in
`patch_num` order.  An unknown style is `assert False`. -/
def resolveStep (disableImgdiff : Bool) (srcSha tgtSha : RSet → List ℕ)
    (acc : List Xfer × List ℕ) (xfId : ℕ) : Except PyErr (List Xfer × List ℕ) :=
  let (xs, q) := acc
  let xf := getXf xs xfId
  if xf.style = "zero" then pure (xs, q)
  else if xf.style = "new" then pure (xs, q)
  else if xf.style = "diff" then
    if srcSha xf.src = tgtSha xf.tgt then
      pure (updAt xs xfId (fun x => { x with style := "move" }), q)
    else
      let imgdiff := !disableImgdiff && xf.intact &&
        decide (fileExt xf.tgtName ∈ ["apk", "jar", "zip"])
      pure (updAt xs xfId
        (fun x => { x with style := if imgdiff then "imgdiff" else "bsdiff" }),
        q ++ [xfId])
  else throw .assertionError

/-- `ComputePatches`, projected onto its style resolution: walk the
sequence resolving each `diff`, collecting the enqueued ids in `patch_num`
order. -/
def computePatchesResolve (disableImgdiff : Bool) (srcSha tgtSha : RSet → List ℕ)
    (xs : List Xfer) (seq : List ℕ) : Except PyErr (List Xfer × List ℕ) :=
  seq.foldlM (resolveStep disableImgdiff srcSha tgtSha) (xs, [])

/-! ### Emission (`WriteTransfers`) -/

/-- The shape of the `src_str` emitted for a version ≥ 2 command:
either `"<N> <rs_unstashed> [<mapped_pos_rs>] <stash_ref>…"` or
`"<N> - <stash_ref>…"` (stash refs abbreviated to their mapped
position sets). -/
inductive SrcStr where
  | withUnstashed (n : ℕ) (rs : RSet) (mappedPos : Option RSet) (refs : List RSet)
  | dash (n : ℕ) (refs : List RSet)
deriving DecidableEq

/-- The version ≥ 2 `src_str` computation of `WriteTransfers`, projected
onto the emitted form (stash id/hash bookkeeping is handled in `emitXfer`
and does not affect the form).  The source guards the branch that emits the
unstashed ranges on `unstashed_src_ranges is None`; `unstashed_src_ranges`
is the result of a `subtract` chain, which is a RangeSet and never `None`,
so the first branch is dead and the `"-"` form with its
`AssertPartition(RangeSet(data=(0, size)), mapped_stashes)` always runs. -/
def srcStrForm (xf : Xfer) : Except PyErr SrcStr :=
  let size := rsSize xf.src
  let unstashedOpt : Option RSet :=
    some (xf.useStash.foldl (fun r p => r \ p.2) xf.src)
  let mapped := xf.useStash.map (fun p => mapWithin xf.src p.2)
  match unstashedOpt with
  | none =>
    -- dead branch (`if unstashed_src_ranges is None:` with a RangeSet value)
    if xf.useStash ≠ [] then
      if assertPartition (Finset.range size) (mapped ++ [∅]) then
        pure (.withUnstashed size ∅ (some ∅) mapped)
      else throw .assertionError
    else pure (.withUnstashed size ∅ none mapped)
  | some unstashed =>
    let _ := unstashed
    if assertPartition (Finset.range size) mapped then pure (.dash size mapped)
    else throw .assertionError

/-- An emitted command, abstracted to the disk blocks it writes and the
disk blocks it reads (stash references are cache reads, not disk reads, so
they are not in `reads`; a `stash` command reads its range from disk). -/
structure Cmd where
  writes : RSet
  reads : RSet
deriving DecidableEq

/-- Emitter state of `WriteTransfers`: the command list, the `stashes` dict
(its int keys `stashIds`: stash idx ↦ slot id; its string keys `hashRef`:
content hash ↦ refcount, version ≥ 3), the running and peak stash
occupancy, the free-slot heap and next fresh slot id, and
`touched_src_ranges`. -/
structure EmitSt where
  out : List Cmd
  stashIds : List (ℕ × ℕ)
  hashRef : List (ℕ × ℕ)
  stashedBlocks : ℤ
  maxStashed : ℤ
  freeIds : List ℕ
  nextId : ℕ
  touchedSrc : RSet
deriving DecidableEq

/-- `heapq.heappop` on the free-slot list: the least element. -/
def popMinNat (l : List ℕ) : Option (ℕ × List ℕ) :=
  match l with
  | [] => none
  | x :: rest =>
    let m := rest.foldl min x
    some (m, eraseFirst l m)

/-- One `(s, sr) ∈ xf.stash_before` of `WriteTransfers`: allocate a slot
id, record it, and emit the `stash` command; in version ≥ 3 the stash is
keyed by the content hash `h sr` with reference counting, and only the
first occurrence of a hash stashes (and reads) the blocks. -/
def emitStash (version : ℕ) (h : RSet → ℕ) (st : EmitSt) (p : ℕ × RSet) :
    Except PyErr EmitSt :=
  if (alookup st.stashIds p.1).isSome then throw .assertionError
  else
  let tri :=
    match popMinNat st.freeIds with
    | some (m, rest) => (m, rest, st.nextId)
    | none => (st.nextId, st.freeIds, st.nextId + 1)
  let st := { st with stashIds := assocSet st.stashIds p.1 tri.1,
                      freeIds := tri.2.1, nextId := tri.2.2 }
  if version = 2 then
    pure { st with stashedBlocks := st.stashedBlocks + rsSize p.2,
                   out := st.out ++ [{ writes := ∅, reads := p.2 }] }
  else
    let sh := h p.2
    match alookup st.hashRef sh with
    | some c => pure { st with hashRef := assocSet st.hashRef sh (c + 1) }
    | none =>
      pure { st with hashRef := assocSet st.hashRef sh 1,
                     stashedBlocks := st.stashedBlocks + rsSize p.2,
                     touchedSrc := st.touchedSrc ∪ p.2,
                     out := st.out ++ [{ writes := ∅, reads := p.2 }] }

/-- One `(s, sr) ∈ xf.use_stash` of `WriteTransfers`: pop the slot id
(`KeyError` when absent), and collect the `free` commands and freed size
(immediately in version 2; on refcount zero in version ≥ 3).  The slot id
is pushed back on the free heap in both versions. -/
def emitUse (version : ℕ) (h : RSet → ℕ) (srcRanges : RSet)
    (acc : EmitSt × List Cmd × ℕ) (p : ℕ × RSet) :
    Except PyErr (EmitSt × List Cmd × ℕ) := do
  let (st, freeCmds, freeSize) := acc
  match alookup st.stashIds p.1 with
  | none => throw .keyError
  | some sid =>
    let st := { st with stashIds := assocDel st.stashIds p.1 }
    let srM := mapWithin srcRanges p.2
    if version = 2 then
      pure ({ st with freeIds := st.freeIds ++ [sid] },
        freeCmds ++ [{ writes := ∅, reads := ∅ }], freeSize + rsSize srM)
    else
      let sh := h p.2
      match alookup st.hashRef sh with
      | none => throw .assertionError  -- assert sh in stashes
      | some c =>
        if c = 1 then
          pure ({ st with hashRef := assocDel st.hashRef sh,
                          freeIds := st.freeIds ++ [sid] },
            freeCmds ++ [{ writes := ∅, reads := ∅ }], freeSize + rsSize srM)
        else
          pure ({ st with hashRef := assocSet st.hashRef sh (c - 1),
                          freeIds := st.freeIds ++ [sid] },
            freeCmds, freeSize)

/-- `WriteTransfersZero`: chunk `to_zero` into `zero` commands of at most
1024 blocks (ascending prefixes); `fuel = |to_zero|` suffices. -/
def writeTransfersZero : ℕ → RSet → List Cmd
  | 0, _ => []
  | fuel + 1, toZero =>
    if rsSize toZero > 0 then
      let zb := rsFirst toZero 1024
      { writes := zb, reads := ∅ } :: writeTransfersZero fuel (toZero \ zb)
    else []

/-- `src_ranges` minus every `use_stash` range: the disk blocks a version
≥ 2 command actually reads (`unstashed_src_ranges`). -/
def unstashedSrc (xf : Xfer) : RSet :=
  xf.useStash.foldl (fun r p => r \ p.2) xf.src

/-- The style dispatch of the `WriteTransfers` loop body: the main command
of one transfer (`new`, `move`, `bsdiff`/`imgdiff`, `zero`), including the
version ≥ 3 implicit-stash accounting for overlapping move/diff sources
and the assertions on empty range sets. -/
def emitMain (version : ℕ) (st₃ : EmitSt) (xf : Xfer) :
    Except PyErr EmitSt :=
  let mainReads : RSet := if 2 ≤ version then unstashedSrc xf else xf.src
  if xf.style = "new" then
      if xf.tgt = ∅ then throw .assertionError
      else pure { st₃ with out := (st₃.out ++ [{ writes := xf.tgt, reads := ∅ }]) }
    else if xf.style = "move" then
      if xf.tgt = ∅ then throw .assertionError
      else if rsSize xf.src ≠ rsSize xf.tgt then throw .assertionError
      else if xf.src ≠ xf.tgt then
        if 3 ≤ version then
          let tempMax := max st₃.maxStashed (st₃.stashedBlocks + rsSize xf.src)
          let st₄ :=
            if xf.src ∩ xf.tgt ≠ ∅ then { st₃ with maxStashed := tempMax } else st₃
          pure { st₄ with touchedSrc := (st₄.touchedSrc ∪ xf.src),
                          out := (st₄.out ++ [{ writes := xf.tgt, reads := mainReads }]) }
        else
          pure { st₃ with out := (st₃.out ++ [{ writes := xf.tgt, reads := mainReads }]) }
      else pure st₃
    else if xf.style = "bsdiff" ∨ xf.style = "imgdiff" then
      if xf.tgt = ∅ then throw .assertionError
      else if xf.src = ∅ then throw .assertionError
      else if 3 ≤ version then
        let tempMax := max st₃.maxStashed (st₃.stashedBlocks + rsSize xf.src)
        let st₄ :=
          if xf.src ∩ xf.tgt ≠ ∅ then { st₃ with maxStashed := tempMax } else st₃
        pure { st₄ with touchedSrc := (st₄.touchedSrc ∪ xf.src),
                        out := (st₄.out ++ [{ writes := xf.tgt, reads := mainReads }]) }
      else
        pure { st₃ with out := (st₃.out ++ [{ writes := xf.tgt, reads := mainReads }]) }
    else if xf.style = "zero" then
      if xf.tgt = ∅ then throw .assertionError
      else
        let toZero := xf.tgt \ xf.src
        pure { st₃ with out := (st₃.out ++ writeTransfersZero (rsSize toZero) toZero) }
    else throw .valueError

/-- The per-transfer emission of `WriteTransfers` (the loop body over
`self.transfers`): the `stash` commands for `stash_before`, the `src_str`
bookkeeping and stash frees (version ≥ 2), the main command by style, the
`free` commands, and the stash-budget assertion (`.stashLimit` when the
budget is exceeded). -/
def emitXfer (version : ℕ) (cache : Option ℕ) (thr : ℚ) (h : RSet → ℕ)
    (st : EmitSt) (xf : Xfer) : Except PyErr EmitSt :=
  if version < 2 ∧ (xf.stashBefore ≠ [] ∨ xf.useStash ≠ []) then
    throw .assertionError
  else do
  let st₁ ← xf.stashBefore.foldlM (emitStash version h) st
  let st₂ := { st₁ with maxStashed := max st₁.maxStashed st₁.stashedBlocks }
  let tripE : Except PyErr (EmitSt × List Cmd × ℕ) :=
    if 2 ≤ version then do
      let acc ← xf.useStash.foldlM (emitUse version h xf.src) (st₂, [], 0)
      let _ ← srcStrForm xf
      pure acc
    else pure (st₂, [], 0)
  let trip ← tripE
  let st₃ := trip.1
  let freeCmds := trip.2.1
  let freeSize := trip.2.2
  let st₅ ← emitMain version st₃ xf
  let st₆ :=
    if freeCmds ≠ [] then
      { st₅ with out := (st₅.out ++ freeCmds),
                 stashedBlocks := (st₅.stashedBlocks - freeSize) }
    else st₅
  if 2 ≤ version ∧ cache.isSome then
    if withinStashBudget st₆.maxStashed (cache.getD 0) thr then pure st₆
    else throw .stashLimit
  else pure st₆

/-- `WriteTransfers`, abstracted to the sequence of emitted commands (each
with its disk write and read sets) and the peak stash occupancy: the
per-transfer emission, then zeroing of the `extended` blocks, and the
`erase` commands over the don't-care blocks (`erase_first` prepended,
`erase_last` appended). -/
def emitCommands (version : ℕ) (cache : Option ℕ) (thr : ℚ) (h : RSet → ℕ)
    (total : ℕ) (care extended : RSet) (xs : List Xfer) (seq : List ℕ) :
    Except PyErr (List Cmd × ℤ) := do
  let st₀ : EmitSt :=
    { out := [], stashIds := [], hashRef := [], stashedBlocks := 0,
      maxStashed := 0, freeIds := [], nextId := 0, touchedSrc := ∅ }
  let st ← seq.foldlM
    (fun st xfId => emitXfer version cache thr h st (getXf xs xfId)) st₀
  let out := st.out ++ writeTransfersZero (rsSize extended) extended
  let allTgt : RSet := Finset.range total
  let newDontcare := (allTgt \ extended) \ care
  let eraseFirstR := newDontcare \ st.touchedSrc
  let out :=
    if eraseFirstR ≠ ∅ then
      ({ writes := eraseFirstR, reads := ∅ } : Cmd) :: out
    else out
  let eraseLast := newDontcare \ eraseFirstR
  let out :=
    if eraseLast ≠ ∅ then out ++ [{ writes := eraseLast, reads := (∅ : RSet) }]
    else out
  pure (out, st.maxStashed)

/-- The read-after-write soundness check of the emitted command list:
walking the commands in order with the set `w` of blocks already written,
no command may read from disk a care block that an earlier command wrote
(a command's own write takes effect after its own read; stash reads are
emitted before the overwriting command, and stash uses read the cache,
not the disk). -/
def readAfterWriteOk (care : RSet) : List Cmd → RSet → Bool
  | [], _ => true
  | c :: rest, w =>
    decide (c.reads ∩ (w ∩ care) = ∅) &&
      readAfterWriteOk care rest (w ∪ c.writes)

/-- The blocks written by a command list, accumulated over `w`. -/
def writesUnion (l : List Cmd) (w : RSet) : RSet :=
  l.foldl (fun w c => w ∪ c.writes) w

/-- The union of the target ranges of the transfers with the given ids. -/
def tgtUnion (xs : List Xfer) (l : List ℕ) : RSet :=
  l.foldl (fun acc i => acc ∪ (getXf xs i).tgt) ∅

/-- The number of transfers in the id list whose main command writes block
`b`: those whose target holds `b`, except an identity `move` (which emits
no command) and a `zero` whose source already holds `b` (zeroing only
`tgt - src`). -/
def countWant (xs : List Xfer) (b : ℕ) : List ℕ → ℕ
  | [] => 0
  | i :: tail =>
    (if b ∈ (getXf xs i).tgt ∧ ¬(((getXf xs i).style = "move" ∧ (getXf xs i).src = (getXf xs i).tgt) ∨ ((getXf xs i).style = "zero" ∧ b ∈ (getXf xs i).src)) then 1 else 0) +
      countWant xs b tail

/-! ### Sanity check (`AssertSequenceGood`) -/

/-- One transfer of the `AssertSequenceGood` simulation: the unstashed
source blocks (all source blocks when version < 2) below `total` must be
untouched; every target block must be untouched and is then touched.
`none` means an assertion fired. -/
def asgStep (version total : ℕ) (xs : List Xfer) (st : Option RSet)
    (xfId : ℕ) : Option RSet := do
  let touched ← st
  let xf := getXf xs xfId
  let x := if 2 ≤ version then unstashedSrc xf else xf.src
  if ∀ i ∈ x, i < total → i ∉ touched then
    if ∀ i ∈ xf.tgt, i ∉ touched then some (touched ∪ xf.tgt) else none
  else none

/-- `AssertSequenceGood`: simulate the sequence against a touched bitmap of
size `tgt.total_blocks`; afterwards every block of `tgt.care_map` must be
touched.  `true` iff no assertion fires. -/
def assertSequenceGood (version total : ℕ) (care : RSet) (xs : List Xfer)
    (seq : List ℕ) : Bool :=
  match seq.foldl (asgStep version total xs) (some ∅) with
  | none => false
  | some touched => care ⊆ touched

/-! ### The planning phases of `Compute` after `FindVertexSequence` -/

/-- The cycle-breaking, order-refinement and stash-revision phases of
`Compute`, applied to the id-indexed store `xs` and the sequence `seq`
chosen by `FindVertexSequence`: `RemoveBackwardEdges` for version 1, else
`ReverseBackwardEdges` then `ImproveVertexSequence`; then `ReviseStashSize`
when `version ≥ 2` and `cache_size` is configured. -/
def planPhases (version : ℕ) (cache : Option ℕ) (thr : ℚ) (xs : List Xfer)
    (seq : List ℕ) : Except PyErr (List Xfer × List ℕ) := do
  if version = 1 then do
    let xs' ← removeBackwardEdges xs seq
    if 2 ≤ version ∧ cache.isSome then
      let xs'' ← reviseStashSize version (cache.getD 0) thr xs' seq
      pure (xs'', seq)
    else pure (xs', seq)
  else do
    let rs ← reverseBackwardEdges xs seq
    let seq' ← improveVertexSequence rs.xs seq
    if 2 ≤ version ∧ cache.isSome then
      let xs'' ← reviseStashSize version (cache.getD 0) thr rs.xs seq'
      pure (xs'', seq')
    else pure (rs.xs, seq')

/-- The per-transfer shape guarantee of `ReviseStashSize`: every transfer
keeps its target ranges, and either keeps its source ranges and stash uses
or has been converted to a stash-free `new` command. -/
def reviseInv (xs₀ cur : List Xfer) : Prop :=
  cur.length = xs₀.length ∧
  ∀ j, (getXf cur j).tgt = (getXf xs₀ j).tgt ∧
    (((getXf cur j).src = (getXf xs₀ j).src ∧
      (getXf cur j).useStash = (getXf xs₀ j).useStash) ∨
     ((getXf cur j).src = ∅ ∧ (getXf cur j).useStash = []))

/-- A mutual dependency for exercising `ReverseBackwardEdges`: each
transfer reads the block the other writes, so the heuristic order `[0, 1]`
keeps edge `0 -> 1` and violates edge `1 -> 0`. -/
def xfRevA : Xfer :=
  { tgtName := "t0", srcName := some "s0", tgt := {0}, src := {1},
    style := "diff", intact := true, goesBefore := [(1, some 1)] }

/-- The second transfer of the `ReverseBackwardEdges` example. -/
def xfRevB : Xfer :=
  { tgtName := "t1", srcName := some "s1", tgt := {1}, src := {0},
    style := "diff", intact := true, goesBefore := [(0, some 1)] }

/-- A two-transfer store with the dependency digraph recorded (each
transfer reads the block the other writes), for exercising the planning
phases end to end. -/
def xfC2A : Xfer :=
  { tgtName := "a", srcName := some "sa", tgt := {0}, src := {1},
    style := "diff", intact := true, goesBefore := [(1, some 1)],
    goesAfter := [(1, some 1)] }

/-- The second transfer of the planning-phase example. -/
def xfC2B : Xfer :=
  { tgtName := "b", srcName := some "sb", tgt := {1}, src := {0},
    style := "diff", intact := true, goesBefore := [(0, some 1)],
    goesAfter := [(0, some 1)] }

/-! ## Infrastructure lemmas -/

theorem length_updAt {α : Type} (xs : List α) (i : ℕ) (f : α → α) :
    (updAt xs i f).length = xs.length := by
  induction xs generalizing i with
  | nil => rfl
  | cons x xs ih =>
    cases i with
    | zero => rfl
    | succ n => simpa [updAt] using ih n

theorem updAt_out {α : Type} (xs : List α) (i : ℕ) (f : α → α)
    (h : xs.length ≤ i) : updAt xs i f = xs := by
  induction xs generalizing i with
  | nil => rfl
  | cons x xs ih =>
    cases i with
    | zero => exact absurd h (by simp)
    | succ n => simp only [updAt]; rw [ih n (by simpa using h)]

theorem getD_updAt_self {α : Type} (xs : List α) (i : ℕ) (f : α → α) (d : α)
    (h : i < xs.length) : (updAt xs i f).getD i d = f (xs.getD i d) := by
  induction xs generalizing i with
  | nil => simp at h
  | cons x xs ih =>
    cases i with
    | zero => rfl
    | succ n => simpa [updAt] using ih n (by simpa using h)

theorem getD_updAt_ne {α : Type} (xs : List α) (i j : ℕ) (f : α → α) (d : α)
    (h : j ≠ i) : (updAt xs i f).getD j d = xs.getD j d := by
  induction xs generalizing i j with
  | nil => rfl
  | cons x xs ih =>
    cases i with
    | zero => cases j with
      | zero => exact absurd rfl h
      | succ m => rfl
    | succ n =>
      cases j with
      | zero => rfl
      | succ m => simpa [updAt] using ih n m (by omega)

theorem getXf_updAt_self (xs : List Xfer) (i : ℕ) (f : Xfer → Xfer)
    (h : i < xs.length) : getXf (updAt xs i f) i = f (getXf xs i) :=
  getD_updAt_self xs i f default h

theorem getXf_updAt_ne (xs : List Xfer) (i j : ℕ) (f : Xfer → Xfer)
    (h : j ≠ i) : getXf (updAt xs i f) j = getXf xs j :=
  getD_updAt_ne xs i j f default h

theorem alookup_assocSet_self {κ α : Type} [DecidableEq κ]
    (l : List (κ × α)) (k : κ) (v : α) : alookup (assocSet l k v) k = some v := by
  unfold assocSet
  split
  · rename_i hs
    induction l with
    | nil => simp [alookup] at hs
    | cons p l ih =>
      by_cases hp : p.1 = k
      · simp [alookup, hp]
      · simp only [alookup, hp, if_neg] at hs
        simp only [List.map_cons, if_neg hp]
        simpa [alookup, hp] using ih hs
  · induction l with
    | nil => simp [alookup]
    | cons p l ih =>
      rename_i hs
      by_cases hp : p.1 = k
      · simp [alookup, hp] at hs
      · simp only [alookup, hp, if_neg] at hs
        simpa [alookup, hp] using ih hs

theorem alookup_mapReplace_ne {κ α : Type} [DecidableEq κ]
    (l : List (κ × α)) (k k' : κ) (v : α) (h : k' ≠ k) :
    alookup (l.map (fun p => if p.1 = k then (k, v) else p)) k' = alookup l k' := by
  induction l with
  | nil => rfl
  | cons p l ih =>
    by_cases hp : p.1 = k
    · simp only [List.map_cons, if_pos hp]
      have e1 : alookup ((k, v) :: l.map (fun p => if p.1 = k then (k, v) else p)) k' =
          alookup (l.map (fun p => if p.1 = k then (k, v) else p)) k' := by
        simp [alookup, Ne.symm h]
      have e2 : alookup (p :: l) k' = alookup l k' := by
        simp [alookup, hp ▸ Ne.symm h]
      rw [e1, e2]
      exact ih
    · simp only [List.map_cons, if_neg hp]
      by_cases hp' : p.1 = k'
      · simp [alookup, hp']
      · simpa [alookup, hp'] using ih

theorem alookup_append_single_ne {κ α : Type} [DecidableEq κ]
    (l : List (κ × α)) (k k' : κ) (v : α) (h : k' ≠ k) :
    alookup (l ++ [(k, v)]) k' = alookup l k' := by
  induction l with
  | nil => simp [alookup, Ne.symm h]
  | cons p l ih =>
    by_cases hp' : p.1 = k'
    · simp [alookup, hp']
    · simpa [alookup, hp'] using ih

theorem alookup_assocSet_ne {κ α : Type} [DecidableEq κ]
    (l : List (κ × α)) (k k' : κ) (v : α) (h : k' ≠ k) :
    alookup (assocSet l k v) k' = alookup l k' := by
  unfold assocSet
  split
  · exact alookup_mapReplace_ne l k k' v h
  · exact alookup_append_single_ne l k k' v h

theorem alookup_assocDel_self {κ α : Type} [DecidableEq κ]
    (l : List (κ × α)) (k : κ) : alookup (assocDel l k) k = none := by
  induction l with
  | nil => rfl
  | cons p l ih =>
    by_cases hp : p.1 = k
    · simpa [assocDel, hp] using ih
    · simpa [assocDel, alookup, hp] using ih

theorem alookup_assocDel_ne {κ α : Type} [DecidableEq κ]
    (l : List (κ × α)) (k k' : κ) (h : k' ≠ k) :
    alookup (assocDel l k) k' = alookup l k' := by
  induction l with
  | nil => rfl
  | cons p l ih =>
    by_cases hp : p.1 = k
    · rw [show alookup (p :: l) k' = alookup l k' by simp [alookup, hp ▸ Ne.symm h]]
      simpa [assocDel, hp] using ih
    · have hf : assocDel (p :: l) k = p :: assocDel l k := by
        simp [assocDel, List.filter_cons, hp]
      rw [hf]
      by_cases hp' : p.1 = k'
      · simp [alookup, hp']
      · simpa [alookup, hp'] using ih

theorem mem_keysOf_iff_alookup {κ α : Type} [DecidableEq κ]
    (l : List (κ × α)) (k : κ) : k ∈ keysOf l ↔ (alookup l k).isSome := by
  induction l with
  | nil => simp [keysOf, alookup]
  | cons p l ih =>
    by_cases hp : p.1 = k
    · simp [keysOf, alookup, hp]
    · simpa [keysOf, alookup, hp, Ne.symm hp] using ih

theorem keysOf_assocSet {κ α : Type} [DecidableEq κ]
    (l : List (κ × α)) (k k' : κ) (v : α) :
    k' ∈ keysOf (assocSet l k v) ↔ k' ∈ keysOf l ∨ k' = k := by
  by_cases h : k' = k
  · subst h
    simp [mem_keysOf_iff_alookup, alookup_assocSet_self]
  · simp [mem_keysOf_iff_alookup, alookup_assocSet_ne _ _ _ _ h, h]

theorem keysOf_assocDel {κ α : Type} [DecidableEq κ]
    (l : List (κ × α)) (k k' : κ) :
    k' ∈ keysOf (assocDel l k) ↔ k' ∈ keysOf l ∧ k' ≠ k := by
  by_cases h : k' = k
  · subst h
    simp [mem_keysOf_iff_alookup, alookup_assocDel_self]
  · simp [mem_keysOf_iff_alookup, alookup_assocDel_ne _ _ _ h, h]

theorem posOf_lt_length {l : List ℕ} {x : ℕ} (h : x ∈ l) :
    posOf l x < l.length := by
  induction l with
  | nil => simp at h
  | cons a l ih =>
    by_cases ha : a = x
    · simp [posOf, ha]
    · have : x ∈ l := by
        rcases List.mem_cons.mp h with h' | h'
        · exact absurd h'.symm ha
        · exact h'
      simpa [posOf, ha] using ih this

theorem getD_posOf {l : List ℕ} {x : ℕ} (h : x ∈ l) (d : ℕ) :
    l.getD (posOf l x) d = x := by
  induction l with
  | nil => simp at h
  | cons a l ih =>
    by_cases ha : a = x
    · simp [posOf, ha]
    · have : x ∈ l := by
        rcases List.mem_cons.mp h with h' | h'
        · exact absurd h'.symm ha
        · exact h'
      simpa [posOf, ha] using ih this

theorem posOf_inj {l : List ℕ} {x y : ℕ} (hx : x ∈ l) (hy : y ∈ l)
    (h : posOf l x = posOf l y) : x = y := by
  have h1 := getD_posOf hx 0
  have h2 := getD_posOf hy 0
  rw [h] at h1
  exact h1.symm.trans h2

/-! ## RangeSet lemmas -/

theorem rsFirst_subset (s : RSet) (k : ℕ) : rsFirst s k ⊆ s := by
  intro b hb
  have := List.mem_toFinset.mp hb
  have := List.mem_of_mem_take this
  exact (Finset.mem_sort (α := ℕ) (· ≤ ·)).mp this

theorem rsSize_rsFirst (s : RSet) (k : ℕ) :
    rsSize (rsFirst s k) = min k (rsSize s) := by
  unfold rsFirst rsSize
  rw [List.card_toFinset, List.dedup_eq_self.mpr]
  · rw [List.length_take, Finset.length_sort]
  · exact (Finset.sort_nodup (· ≤ ·) s).sublist (List.take_sublist _ _)

theorem sdiff_union_rsFirst (s : RSet) (k : ℕ) :
    (s \ rsFirst s k) ∪ rsFirst s k = s :=
  Finset.sdiff_union_of_subset (rsFirst_subset s k)

theorem rsSize_sdiff_rsFirst (s : RSet) (k : ℕ) :
    rsSize (s \ rsFirst s k) = rsSize s - min k (rsSize s) := by
  have h1 : rsSize (rsFirst s k) = min k (rsSize s) := rsSize_rsFirst s k
  unfold rsSize at h1 ⊢
  rw [Finset.card_sdiff (rsFirst_subset s k), h1]

/-! ## Reduction lemmas for the `Except` monad -/

theorem exceptBindOk {ε α β : Type} (a : α) (f : α → Except ε β) :
    (Except.ok a : Except ε α) >>= f = f a := rfl

theorem exceptBindError {ε α β : Type} (e : ε) (f : α → Except ε β) :
    (Except.error e : Except ε α) >>= f = Except.error e := rfl

theorem exceptPureEq {ε α : Type} (a : α) :
    (pure a : Except ε α) = Except.ok a := rfl

theorem exceptThrowEq {ε α : Type} (e : ε) :
    (throw e : Except ε α) = Except.error e := rfl

theorem exceptMapOk {ε α β : Type} (g : α → β) (a : α) :
    (Except.ok a : Except ε α).map g = Except.ok (g a) := rfl

theorem exceptMapError {ε α β : Type} (g : α → β) (e : ε) :
    (Except.error e : Except ε α).map g = Except.error e := rfl

/-! ## `DataImage` lemmas -/

theorem classifyBlocks_succ (data : List ℕ) (n : ℕ) :
    classifyBlocks data (n + 1) =
      classifyStep data (classifyBlocks data n) n := by
  unfold classifyBlocks
  rw [List.range_succ, List.foldl_append]
  rfl

theorem classifyBlocks_length (data : List ℕ) (n : ℕ) :
    (classifyBlocks data n).1.length + (classifyBlocks data n).2.length = n := by
  induction n with
  | zero => rfl
  | succ m ih =>
    rw [classifyBlocks_succ]
    unfold classifyStep
    split <;> simp <;> omega

theorem dataImageInit_not_multiple (data : List ℕ)
    (h : data.length % 4096 ≠ 0) :
    dataImageInit data false false = .error .valueError := by
  unfold dataImageInit
  simp only [Bool.and_self, Bool.false_eq_true, if_neg, ite_false, exceptThrowEq,
    exceptPureEq, exceptBindOk, exceptBindError]
  rw [if_pos (show data.length % 4096 > 0 by omega)]

theorem dataImageInit_trim_and_pad (data : List ℕ) :
    dataImageInit data true true = .error .assertionError := rfl

theorem dataImageInit_ok (data : List ℕ) (trim pad : Bool)
    (hlen : data.length % 4096 = 0) (hne : data ≠ [])
    (hnot : ¬(trim = true ∧ pad = true)) :
    ∃ st, dataImageInit data trim pad = .ok st ∧
      st.totalBlocks = data.length / 4096 := by
  have hp0 : ¬ (data.length % 4096 > 0) := by omega
  have hn1 : 1 ≤ data.length / 4096 := by
    have hne' : data.length ≠ 0 := fun hc => hne (List.eq_nil_of_length_eq_zero hc)
    rcases Nat.dvd_of_mod_eq_zero hlen with ⟨c, hc⟩
    have hc0 : c ≠ 0 := by rintro rfl; simp at hc; exact hne hc
    rw [hc, Nat.mul_div_cancel_left _ (by norm_num : 0 < 4096)]
    omega
  have hcl := classifyBlocks_length data (data.length / 4096)
  have hguard : ¬ ((classifyBlocks data (data.length / 4096)).1 = [] ∧
      (classifyBlocks data (data.length / 4096)).2 = [] ∧ True) := by
    rintro ⟨hz, hnz, -⟩
    rw [hz, hnz] at hcl
    simp at hcl
    omega
  cases trim with
  | true =>
    cases pad with
    | true => exact absurd ⟨rfl, rfl⟩ hnot
    | false =>
      unfold dataImageInit
      simp only [Bool.and_false, Bool.false_eq_true, ite_false, if_neg hp0,
        exceptPureEq, exceptBindOk]
      rw [if_neg (by omega : ¬ data.length % 4096 ≠ 0), if_neg hguard]
      exact ⟨_, rfl, rfl⟩
  | false =>
    unfold dataImageInit
    simp only [Bool.false_and, Bool.false_eq_true, ite_false, if_neg hp0,
      exceptPureEq, exceptBindOk]
    rw [if_neg (by omega : ¬ data.length % 4096 ≠ 0), if_neg hguard]
    exact ⟨_, rfl, rfl⟩

/-! ## Claim C10 -/

/-- Claim C10, counterexample: the empty byte string has length `0`, a
multiple of 4096, yet `DataImage.__init__` with `trim=False, pad=False`
fails the `assert zero_blocks or nonzero_blocks or clobbered_blocks`
assertion instead of succeeding, refuting "for block-multiple inputs the
constructor always succeeds". -/
theorem C10_counterexample_empty_data :
    dataImageInit [] false false = .error .assertionError ∧
      ([] : List ℕ).length % 4096 = 0 :=
  ⟨by decide, by decide⟩

/-- Claim C10 (amended): for every input whose byte length is not a
multiple of 4096, constructing `DataImage` with `trim=False` and
`pad=False` raises `ValueError` before any image state is built, and
constructing with both `trim=True` and `pad=True` fails an assertion; for
*non-empty* block-multiple inputs (and `trim`, `pad` not both set) the
constructor succeeds with `total_blocks = len(data) / 4096`. -/
theorem C10_dataImageInit (data : List ℕ) (trim pad : Bool) :
    (data.length % 4096 ≠ 0 →
      dataImageInit data false false = .error .valueError) ∧
    (data.length % 4096 ≠ 0 →
      dataImageInit data true true = .error .assertionError) ∧
    (data.length % 4096 = 0 → data ≠ [] → ¬(trim = true ∧ pad = true) →
      ∃ st, dataImageInit data trim pad = .ok st ∧
        st.totalBlocks = data.length / 4096) :=
  ⟨fun h => dataImageInit_not_multiple data h,
   fun _ => dataImageInit_trim_and_pad data,
   fun hlen hne hnot => dataImageInit_ok data trim pad hlen hne hnot⟩

/-- Claim C10, witness: the amended theorem applied to the 1-byte input
(both failure branches) and to a 4096-byte input (success branch). -/
theorem C10_dataImageInit_witness :
    (dataImageInit [0] false false = .error .valueError) ∧
    (dataImageInit [0] true true = .error .assertionError) ∧
    (∃ st, dataImageInit (List.replicate 4096 1) false false = .ok st ∧
      st.totalBlocks = 1) := by
  refine ⟨(C10_dataImageInit [0] false false).1 (by decide),
    (C10_dataImageInit [0] true true).2.1 (by decide), ?_⟩
  have h := (C10_dataImageInit (List.replicate 4096 1) false false).2.2
    (by rw [List.length_replicate])
    (by intro hc; have := congrArg List.length hc; rw [List.length_replicate] at this; exact absurd this (by norm_num))
    (by rintro ⟨-, hc⟩; exact Bool.false_ne_true hc)
  rw [List.length_replicate] at h
  exact h

/-! ## Claim C9 -/

/-- Claim C9: `DataImage.TotalSha1` is claimed to return the hex SHA-1 of
the `care_map \ clobbered_blocks` bytes when `include_clobbered_blocks` is
false, and of all of `care_map` (= `self.data`) when it is true.  The code
bug: the false branch passes the chunk *list* returned by `ReadRangeSet`
directly to `sha1(...)`, raising `TypeError` for every `DataImage`; the
true branch hashes `self.data` as claimed. -/
theorem C9_totalSha1 (sha : List ℕ → List ℕ) (img : DImg) :
    totalSha1 sha img false = .error .typeError ∧
    totalSha1 sha img true = .ok (sha img.data) :=
  ⟨rfl, rfl⟩

/-! ## Claim C8 -/

/-- Claim C8: the version ≥ 2 emitter is claimed to place the unstashed
range set after the block count (`"<N> <rs_unstashed> …"`) whenever the
unstashed source ranges are non-empty, and to emit the `"<N> - …"` form
only when the source is entirely covered by stashes.  The code bug: the
guard `unstashed_src_ranges is None` is never true, so the `"-"` form is
attempted unconditionally and its partition assertion fires as soon as the
unstashed ranges are non-empty — here on a `move` transfer reading block 0
with no stashes; a fully-stashed transfer does emit the `"-"` form. -/
theorem C8_srcStr_inverted_guard :
    srcStrForm
      { tgtName := "a", srcName := some "a", tgt := ({1} : RSet),
        src := ({0} : RSet), style := "move", intact := true } =
      .error .assertionError ∧
    srcStrForm
      { tgtName := "b", srcName := some "b", tgt := ({2, 3} : RSet),
        src := ({0, 1} : RSet), style := "move", intact := true,
        useStash := [(0, ({0, 1} : RSet))] } =
      .ok (.dash 2 [({0, 1} : RSet)]) := by
  constructor
  · decide
  · decide

/-! ## Claim C3 -/

/-- Claim C3: after `ReviseStashSize`, the peak stash occupancy in
`WriteTransfers` is claimed to satisfy the strict bound
`max_stashed_blocks * block_size < cache_size * stash_threshold`.  The code
bug (off-by-one): `ReviseStashSize` only rejects a stash when
`stashed_blocks + sr.size() > max_allowed`, so it keeps a load of exactly
`max_allowed = cache_size * stash_threshold / block_size` blocks, and the
strict `<` assertion in `WriteTransfers` then fires.  Concretely, with
`cache_size = 8192`, `stash_threshold = 1.0` and one 2-block stash:
the revision pass keeps the sequence unchanged, `ComputePatches` resolves
the consumer to `bsdiff`, and emission aborts on the stash-budget
assertion. -/
theorem C3_stash_budget_off_by_one :
    reviseStashSize 2 8192 1
      [{ tgtName := "u", srcName := none, tgt := ({0, 1} : RSet),
         src := (∅ : RSet), style := "new", intact := false,
         stashBefore := [(0, ({0, 1} : RSet))] },
       { tgtName := "x", srcName := some "x", tgt := ({2, 3} : RSet),
         src := ({0, 1} : RSet), style := "diff", intact := false,
         useStash := [(0, ({0, 1} : RSet))] }] [0, 1] =
      .ok
      [{ tgtName := "u", srcName := none, tgt := ({0, 1} : RSet),
         src := (∅ : RSet), style := "new", intact := false,
         stashBefore := [(0, ({0, 1} : RSet))] },
       { tgtName := "x", srcName := some "x", tgt := ({2, 3} : RSet),
         src := ({0, 1} : RSet), style := "diff", intact := false,
         useStash := [(0, ({0, 1} : RSet))] }] ∧
    emitCommands 2 (some 8192) 1 (fun _ => 0) 4 ({0, 1, 2, 3} : RSet)
      (∅ : RSet)
      [{ tgtName := "u", srcName := none, tgt := ({0, 1} : RSet),
         src := (∅ : RSet), style := "new", intact := false,
         stashBefore := [(0, ({0, 1} : RSet))] },
       { tgtName := "x", srcName := some "x", tgt := ({2, 3} : RSet),
         src := ({0, 1} : RSet), style := "bsdiff", intact := false,
         useStash := [(0, ({0, 1} : RSet))] }] [0, 1] =
      .error .stashLimit := by
  constructor
  · decide
  · decide


theorem mem_foldrUnion {parts : List RSet} {x : ℕ} :
    x ∈ parts.foldr (· ∪ ·) ∅ ↔ ∃ p ∈ parts, x ∈ p := by
  induction parts with
  | nil => simp
  | cons p l ih => simp [ih]

theorem subset_foldrUnion {parts : List RSet} {p : RSet} (h : p ∈ parts) :
    p ⊆ parts.foldr (· ∪ ·) ∅ := by
  intro x hx
  exact mem_foldrUnion.mpr ⟨p, h, hx⟩

theorem rsFirst_lt_sdiff {s : RSet} {k a b : ℕ} (ha : a ∈ rsFirst s k)
    (hb : b ∈ s \ rsFirst s k) : a < b := by
  classical
  set l := s.sort (· ≤ ·) with hl
  have hnd : l.Nodup := Finset.sort_nodup (· ≤ ·) s
  have hsorted : l.Sorted (· ≤ ·) := Finset.sort_sorted (· ≤ ·) s
  have ha' : a ∈ l.take k := List.mem_toFinset.mp ha
  have hb1 : b ∈ s := (Finset.mem_sdiff.mp hb).1
  have hb2 : b ∉ l.take k := fun hc => (Finset.mem_sdiff.mp hb).2 (List.mem_toFinset.mpr hc)
  have hbl : b ∈ l := (Finset.mem_sort (α := ℕ) (· ≤ ·)).mpr hb1
  have hbdrop : b ∈ l.drop k := by
    rw [← List.take_append_drop k l] at hbl
    rcases List.mem_append.mp hbl with h | h
    · exact absurd h hb2
    · exact h
  have hle : a ≤ b := by
    have hpw : l.Pairwise (· ≤ ·) := hsorted
    have hsplit : (l.take k ++ l.drop k).Pairwise (· ≤ ·) := by
      rw [List.take_append_drop]; exact hpw
    exact (List.pairwise_append.mp hsplit).2.2 a ha' b hbdrop
  have hne : a ≠ b := by
    intro hab
    subst hab
    have hpne : l.Pairwise (· ≠ ·) := hnd
    have hsplit : (l.take k ++ l.drop k).Pairwise (· ≠ ·) := by
      rw [List.take_append_drop]; exact hpne
    exact (List.pairwise_append.mp hsplit).2.2 a ha' a hbdrop rfl
  omega

theorem rsSize_pos_of_nonempty {s : RSet} (h : s ≠ ∅) : 0 < rsSize s :=
  Finset.card_pos.mpr (Finset.nonempty_iff_ne_empty.mpr h)

theorem splitDiffLoop_peel (mono : RSet → Bool) (limit : ℕ) (tn sn : String)
    (fuel : ℕ) (tgt src : RSet) (pieces : ℕ)
    (h : rsSize tgt > limit ∧ rsSize src > limit) :
    splitDiffLoop mono limit tn sn (fuel + 1) tgt src pieces =
      (splitDiffLoop mono limit tn sn fuel (tgt \ rsFirst tgt limit)
        (src \ rsFirst src limit) (pieces + 1)).map
        (mkXfer mono (tn ++ "-" ++ toString pieces)
          (some (sn ++ "-" ++ toString pieces)) (rsFirst tgt limit)
          (rsFirst src limit) "diff" :: ·) := by
  rw [splitDiffLoop.eq_def]; dsimp only; rw [if_pos h]

theorem splitDiffLoop_stop (mono : RSet → Bool) (limit : ℕ) (tn sn : String)
    (fuel : ℕ) (tgt src : RSet) (pieces : ℕ)
    (h : ¬(rsSize tgt > limit ∧ rsSize src > limit))
    (ht : rsSize tgt ≠ 0) (hs : rsSize src ≠ 0) :
    splitDiffLoop mono limit tn sn fuel tgt src pieces =
      .ok [mkXfer mono (tn ++ "-" ++ toString pieces)
        (some (sn ++ "-" ++ toString pieces)) tgt src "diff"] := by
  rw [splitDiffLoop.eq_def]
  dsimp only
  rw [if_neg h, if_pos (by omega : rsSize tgt ≠ 0 ∨ rsSize src ≠ 0), if_pos ⟨ht, hs⟩]
  rfl

theorem splitDiffLoop_spec (mono : RSet → Bool) (limit : ℕ) (tn sn : String)
    (hlim : 1 ≤ limit) :
    ∀ fuel tgt src pieces, rsSize tgt ≤ fuel → tgt ≠ ∅ → src ≠ ∅ →
    ∃ ps, splitDiffLoop mono limit tn sn fuel tgt src pieces = .ok ps ∧
      ps ≠ [] ∧
      (∀ k, k < ps.length →
        (ps.getD k default).tgtName = tn ++ "-" ++ toString (pieces + k) ∧
        (ps.getD k default).srcName = some (sn ++ "-" ++ toString (pieces + k)) ∧
        (ps.getD k default).style = "diff") ∧
      partitionsFS (ps.map (·.tgt)) tgt ∧
      partitionsFS (ps.map (·.src)) src ∧
      (∀ k, k + 1 < ps.length →
        rsSize (ps.getD k default).tgt = limit ∧
        rsSize (ps.getD k default).src = limit) ∧
      (∀ k l, k < l → l < ps.length →
        (∀ a ∈ (ps.getD k default).tgt, ∀ b ∈ (ps.getD l default).tgt, a < b) ∧
        (∀ a ∈ (ps.getD k default).src, ∀ b ∈ (ps.getD l default).src, a < b)) ∧
      (ps.getD (ps.length - 1) default).tgt ≠ ∅ ∧
      (ps.getD (ps.length - 1) default).src ≠ ∅ := by
  intro fuel
  induction fuel with
  | zero =>
    intro tgt src pieces hfuel htgt _hsrc
    exact absurd (rsSize_pos_of_nonempty htgt) (by omega)
  | succ fuel ih =>
    intro tgt src pieces hfuel htgt hsrc
    by_cases hc : rsSize tgt > limit ∧ rsSize src > limit
    · have hsdt := rsSize_sdiff_rsFirst tgt limit
      have hsds := rsSize_sdiff_rsFirst src limit
      have h0 : rsSize (∅ : RSet) = 0 := rfl
      have htgt' : tgt \ rsFirst tgt limit ≠ ∅ := by
        intro hc'
        rw [hc', h0] at hsdt
        omega
      have hsrc' : src \ rsFirst src limit ≠ ∅ := by
        intro hc'
        rw [hc', h0] at hsds
        omega
      have hfuel' : rsSize (tgt \ rsFirst tgt limit) ≤ fuel := by omega
      obtain ⟨ps', hok', hne', hnames', hptgt', hpsrc', hsz', hord', hlt', hls'⟩ :=
        ih (tgt \ rsFirst tgt limit) (src \ rsFirst src limit) (pieces + 1)
          hfuel' htgt' hsrc'
      have hmemt : ∀ m, m < ps'.length → (ps'.getD m default).tgt ⊆ tgt \ rsFirst tgt limit := by
        intro m hm
        have hmem : (ps'.getD m default).tgt ∈ ps'.map (·.tgt) := by
          rw [List.getD_eq_getElem _ _ hm]
          exact List.mem_map_of_mem _ (List.getElem_mem hm)
        have := subset_foldrUnion hmem
        rwa [hptgt'.1] at this
      have hmems : ∀ m, m < ps'.length → (ps'.getD m default).src ⊆ src \ rsFirst src limit := by
        intro m hm
        have hmem : (ps'.getD m default).src ∈ ps'.map (·.src) := by
          rw [List.getD_eq_getElem _ _ hm]
          exact List.mem_map_of_mem _ (List.getElem_mem hm)
        have := subset_foldrUnion hmem
        rwa [hpsrc'.1] at this
      refine ⟨mkXfer mono (tn ++ "-" ++ toString pieces)
        (some (sn ++ "-" ++ toString pieces)) (rsFirst tgt limit)
        (rsFirst src limit) "diff" :: ps', ?_, by simp, ?_, ?_, ?_, ?_, ?_, ?_, ?_⟩
      · rw [splitDiffLoop_peel mono limit tn sn fuel tgt src pieces hc, hok']
        rfl
      · intro k hk
        cases k with
        | zero => simp [mkXfer]
        | succ j =>
          have hj := hnames' j (by simpa using hk)
          simp only [List.getD_cons_succ]
          refine ⟨?_, ?_, hj.2.2⟩
          · rw [show pieces + (j + 1) = pieces + 1 + j by omega]
            exact hj.1
          · rw [show pieces + (j + 1) = pieces + 1 + j by omega]
            exact hj.2.1
      · constructor
        · simp only [List.map_cons, List.foldr_cons]
          rw [hptgt'.1]
          show rsFirst tgt limit ∪ (tgt \ rsFirst tgt limit) = tgt
          rw [Finset.union_comm]
          exact sdiff_union_rsFirst tgt limit
        · simp only [List.map_cons]
          refine List.Pairwise.cons ?_ hptgt'.2
          intro b hb
          have hbsub : b ⊆ tgt \ rsFirst tgt limit := by
            have := subset_foldrUnion hb
            rwa [hptgt'.1] at this
          apply Finset.eq_empty_of_forall_not_mem
          intro x hx
          rcases Finset.mem_inter.mp hx with ⟨hx1, hx2⟩
          exact absurd (rsFirst_lt_sdiff hx1 (hbsub hx2)) (lt_irrefl x)
      · constructor
        · simp only [List.map_cons, List.foldr_cons]
          rw [hpsrc'.1]
          show rsFirst src limit ∪ (src \ rsFirst src limit) = src
          rw [Finset.union_comm]
          exact sdiff_union_rsFirst src limit
        · simp only [List.map_cons]
          refine List.Pairwise.cons ?_ hpsrc'.2
          intro b hb
          have hbsub : b ⊆ src \ rsFirst src limit := by
            have := subset_foldrUnion hb
            rwa [hpsrc'.1] at this
          apply Finset.eq_empty_of_forall_not_mem
          intro x hx
          rcases Finset.mem_inter.mp hx with ⟨hx1, hx2⟩
          exact absurd (rsFirst_lt_sdiff hx1 (hbsub hx2)) (lt_irrefl x)
      · intro k hk
        cases k with
        | zero =>
          simp only [List.getD_cons_zero, mkXfer]
          constructor
          · rw [rsSize_rsFirst]; omega
          · rw [rsSize_rsFirst]; omega
        | succ j =>
          have hj := hsz' j (by simpa using hk)
          simpa using hj
      · intro k l hkl hl
        cases l with
        | zero => omega
        | succ m =>
          cases k with
          | zero =>
            simp only [List.getD_cons_zero, List.getD_cons_succ, mkXfer]
            have hm : m < ps'.length := by simpa using hl
            constructor
            · intro a ha b hb
              exact rsFirst_lt_sdiff ha (hmemt m hm hb)
            · intro a ha b hb
              exact rsFirst_lt_sdiff ha (hmems m hm hb)
          | succ j =>
            have := hord' j m (by omega) (by simpa using hl)
            simpa using this
      · have hlen : ps'.length ≥ 1 := List.length_pos.mpr hne'
        have : (mkXfer mono (tn ++ "-" ++ toString pieces)
            (some (sn ++ "-" ++ toString pieces)) (rsFirst tgt limit)
            (rsFirst src limit) "diff" :: ps').getD
              ((mkXfer mono (tn ++ "-" ++ toString pieces)
                (some (sn ++ "-" ++ toString pieces)) (rsFirst tgt limit)
                (rsFirst src limit) "diff" :: ps').length - 1) default =
            ps'.getD (ps'.length - 1) default := by
          simp only [List.length_cons]
          rw [show ps'.length + 1 - 1 = (ps'.length - 1) + 1 by omega]
          exact List.getD_cons_succ
        rw [this]
        exact hlt'
      · have hlen : ps'.length ≥ 1 := List.length_pos.mpr hne'
        have : (mkXfer mono (tn ++ "-" ++ toString pieces)
            (some (sn ++ "-" ++ toString pieces)) (rsFirst tgt limit)
            (rsFirst src limit) "diff" :: ps').getD
              ((mkXfer mono (tn ++ "-" ++ toString pieces)
                (some (sn ++ "-" ++ toString pieces)) (rsFirst tgt limit)
                (rsFirst src limit) "diff" :: ps').length - 1) default =
            ps'.getD (ps'.length - 1) default := by
          simp only [List.length_cons]
          rw [show ps'.length + 1 - 1 = (ps'.length - 1) + 1 by omega]
          exact List.getD_cons_succ
        rw [this]
        exact hls'
    · have ht0 : rsSize tgt ≠ 0 := by
        have := rsSize_pos_of_nonempty htgt; omega
      have hs0 : rsSize src ≠ 0 := by
        have := rsSize_pos_of_nonempty hsrc; omega
      refine ⟨[mkXfer mono (tn ++ "-" ++ toString pieces)
        (some (sn ++ "-" ++ toString pieces)) tgt src "diff"],
        splitDiffLoop_stop mono limit tn sn (fuel+1) tgt src pieces hc ht0 hs0,
        by simp, ?_, ⟨by simp [mkXfer], by simp⟩, ⟨by simp [mkXfer], by simp⟩,
        ?_, ?_, by simpa [mkXfer] using htgt, by simpa [mkXfer] using hsrc⟩
      · intro k hk
        simp only [List.length_cons, List.length_nil] at hk
        have hk0 : k = 0 := by omega
        subst hk0
        simp [mkXfer]
      · intro k hk
        simp at hk
      · intro k l hkl hl
        simp at hl
        omega

/-! ## Claim C4 -/

/-- Claim C4, counterexample: an enumerated `diff` transfer with an empty
source domain and a 2-block target (`cache_size = 32768`, so
`max_blocks_per_transfer = 1` and the target exceeds it) makes the
splitting path fail its `assert tgt_ranges.size() and src_ranges.size()`
remainder assertion instead of producing the claimed last piece with both
sides non-empty. -/
theorem C4_counterexample_empty_src :
    addTransfer (fun _ => false) (some 32768) "f" (some "f")
      ({0, 1} : RSet) (∅ : RSet) "diff" true = .error .assertionError := by
  decide

/-- Claim C4 (amended): for version ≥ 3 and every enumerated `diff`
transfer with *non-empty source and target* sides, one of which exceeds
`max_blocks_per_transfer = ⌊cache_size * 0.125 / block_size⌋ ≥ 1`, the
transfer is split: while both sides exceed the limit, the first
`max_blocks_per_transfer` blocks of each side are peeled into a new piece
`name-i` (pieces numbered from 0 in order); if any blocks remain on either
side afterwards they form one last piece, and in that remainder both the
source and the target side are non-empty.  The pieces partition both
sides, every piece but the last has exactly `max_blocks_per_transfer`
blocks on each side, and earlier pieces hold strictly lower block indices
(they are the *first* blocks). -/
theorem C4_addTransfer_split (mono : RSet → Bool) (cache : ℕ)
    (tgtName srcName : String) (tgt src : RSet)
    (hlim : 1 ≤ cache / 32768) (htgt : tgt ≠ ∅) (hsrc : src ≠ ∅)
    (hbig : cache / 32768 < rsSize tgt ∨ cache / 32768 < rsSize src) :
    ∃ ps, addTransfer mono (some cache) tgtName (some srcName) tgt src
        "diff" true = .ok ps ∧
      ps ≠ [] ∧
      (∀ k, k < ps.length →
        (ps.getD k default).tgtName = tgtName ++ "-" ++ toString k ∧
        (ps.getD k default).srcName = some (srcName ++ "-" ++ toString k) ∧
        (ps.getD k default).style = "diff") ∧
      partitionsFS (ps.map (·.tgt)) tgt ∧
      partitionsFS (ps.map (·.src)) src ∧
      (∀ k, k + 1 < ps.length →
        rsSize (ps.getD k default).tgt = cache / 32768 ∧
        rsSize (ps.getD k default).src = cache / 32768) ∧
      (∀ k l, k < l → l < ps.length →
        (∀ a ∈ (ps.getD k default).tgt, ∀ b ∈ (ps.getD l default).tgt, a < b) ∧
        (∀ a ∈ (ps.getD k default).src, ∀ b ∈ (ps.getD l default).src, a < b)) ∧
      (ps.getD (ps.length - 1) default).tgt ≠ ∅ ∧
      (ps.getD (ps.length - 1) default).src ≠ ∅ := by
  have heq : addTransfer mono (some cache) tgtName (some srcName) tgt src
      "diff" true =
      splitDiffLoop mono (cache / 32768) tgtName srcName (rsSize tgt) tgt src 0 := by
    unfold addTransfer
    rw [if_neg (by simp)]
    dsimp only
    rw [if_neg (by omega :
      ¬(rsSize tgt ≤ cache / 32768 ∧ rsSize src ≤ cache / 32768))]
    rfl
  obtain ⟨ps, hok, hne, hnames, hpt, hps, hsz, hord, hltg, hlsr⟩ :=
    splitDiffLoop_spec mono (cache / 32768) tgtName srcName hlim (rsSize tgt)
      tgt src 0 le_rfl htgt hsrc
  refine ⟨ps, by rw [heq, hok], hne, ?_, hpt, hps, hsz, hord, hltg, hlsr⟩
  intro k hk
  have h := hnames k hk
  simpa using h

/-- Claim C4, witness: the amended theorem applied to a concrete transfer
(`cache_size = 65536`, so a 2-block limit; 5 target and 3 source blocks),
which splits into the peeled piece `f-0`/`g-0` and a remainder. -/
theorem C4_addTransfer_split_witness :
    ∃ ps, addTransfer (fun _ => false) (some 65536) "f" (some "g")
        ({0, 1, 2, 3, 4} : RSet) ({10, 11, 12} : RSet) "diff" true = .ok ps ∧
      ps ≠ [] ∧ (ps.getD (ps.length - 1) default).tgt ≠ ∅ := by
  obtain ⟨ps, hok, hne, -, -, -, -, -, hlt, -⟩ :=
    C4_addTransfer_split (fun _ => false) 65536 "f" "g"
      ({0, 1, 2, 3, 4} : RSet) ({10, 11, 12} : RSet)
      (by decide) (by decide) (by decide) (by decide)
  exact ⟨ps, hok, hne, hlt⟩


theorem resolveGo (disable : Bool) (srcSha tgtSha : RSet → List ℕ) :
    ∀ (seq : List ℕ) (xs : List Xfer) (q : List ℕ),
    (∀ j ∈ seq, (getXf xs j).style ∈ (["zero", "new", "diff"] : List String) ∧ j < xs.length) →
    seq.Nodup →
    ∃ xs' q', seq.foldlM (resolveStep disable srcSha tgtSha) (xs, q) = .ok (xs', q') ∧
      xs'.length = xs.length ∧
      (∀ i, i ∉ seq → getXf xs' i = getXf xs i) ∧
      (∀ i ∈ seq,
        ((getXf xs i).style = "zero" ∨ (getXf xs i).style = "new" →
          getXf xs' i = getXf xs i) ∧
        ((getXf xs i).style = "diff" →
          (srcSha (getXf xs i).src = tgtSha (getXf xs i).tgt →
            getXf xs' i = { getXf xs i with style := "move" }) ∧
          (srcSha (getXf xs i).src ≠ tgtSha (getXf xs i).tgt →
            getXf xs' i = { getXf xs i with style :=
              (if (!disable && (getXf xs i).intact &&
                  decide (fileExt (getXf xs i).tgtName ∈ ["apk", "jar", "zip"]))
                then "imgdiff" else "bsdiff") }))) ∧
      (∀ i, i ∈ q' ↔ i ∈ q ∨ (i ∈ seq ∧ (getXf xs i).style = "diff" ∧
        srcSha (getXf xs i).src ≠ tgtSha (getXf xs i).tgt)) := by
  intro seq
  induction seq with
  | nil =>
    intro xs q _ _
    exact ⟨xs, q, rfl, rfl, fun i _ => rfl, fun i hi => absurd hi (by simp),
      fun i => by simp⟩
  | cons a rest ih =>
    intro xs q hsty hnd
    have hna : a ∉ rest := (List.nodup_cons.mp hnd).1
    have hndr : rest.Nodup := (List.nodup_cons.mp hnd).2
    obtain ⟨hsa, hla⟩ := hsty a (by simp)
    simp only [List.mem_cons, List.mem_singleton, List.not_mem_nil, or_false] at hsa
    have hstep : ∃ xs₁ q₁,
        resolveStep disable srcSha tgtSha (xs, q) a = .ok (xs₁, q₁) ∧
        xs₁.length = xs.length ∧
        (∀ j, j ≠ a → getXf xs₁ j = getXf xs j) ∧
        (((getXf xs a).style = "zero" ∨ (getXf xs a).style = "new") →
          xs₁ = xs ∧ q₁ = q) ∧
        ((getXf xs a).style = "diff" →
          (srcSha (getXf xs a).src = tgtSha (getXf xs a).tgt →
            getXf xs₁ a = { getXf xs a with style := "move" } ∧ q₁ = q) ∧
          (srcSha (getXf xs a).src ≠ tgtSha (getXf xs a).tgt →
            getXf xs₁ a = { getXf xs a with style :=
              (if (!disable && (getXf xs a).intact &&
                  decide (fileExt (getXf xs a).tgtName ∈ ["apk", "jar", "zip"]))
                then "imgdiff" else "bsdiff") } ∧ q₁ = q ++ [a])) := by
      rcases hsa with h | h | h
      · refine ⟨xs, q, by simp [resolveStep, h, exceptPureEq], rfl, fun j _ => rfl,
          fun _ => ⟨rfl, rfl⟩, fun hd => ?_⟩
        rw [h] at hd
        exact absurd hd (by decide)
      · refine ⟨xs, q, by simp [resolveStep, h, exceptPureEq], rfl, fun j _ => rfl,
          fun _ => ⟨rfl, rfl⟩, fun hd => ?_⟩
        rw [h] at hd
        exact absurd hd (by decide)
      · by_cases heq : srcSha (getXf xs a).src = tgtSha (getXf xs a).tgt
        · refine ⟨updAt xs a (fun x => { x with style := "move" }), q,
            by simp [resolveStep, h, heq, exceptPureEq], length_updAt xs a _,
            fun j hj => getXf_updAt_ne xs a j _ hj, fun hzn => ?_,
            fun _ => ⟨fun _ => ⟨?_, rfl⟩, fun hne => absurd heq hne⟩⟩
          · rw [h] at hzn
            rcases hzn with hz | hz <;> exact absurd hz (by decide)
          · rw [getXf_updAt_self xs a _ hla]
        · refine ⟨updAt xs a (fun x => { x with style :=
              (if (!disable && (getXf xs a).intact &&
                  decide (fileExt (getXf xs a).tgtName ∈ ["apk", "jar", "zip"]))
                then "imgdiff" else "bsdiff") }), q ++ [a],
            by simp [resolveStep, h, heq, exceptPureEq], length_updAt xs a _,
            fun j hj => getXf_updAt_ne xs a j _ hj, fun hzn => ?_,
            fun _ => ⟨fun heq2 => absurd heq2 heq, fun _ => ⟨?_, rfl⟩⟩⟩
          · rw [h] at hzn
            rcases hzn with hz | hz <;> exact absurd hz (by decide)
          · rw [getXf_updAt_self xs a _ hla]
    obtain ⟨xs₁, q₁, hstepEq, hlen₁, hne₁, hzn₁, hdiff₁⟩ := hstep
    have hsty2 : ∀ j ∈ rest, (getXf xs₁ j).style ∈ (["zero", "new", "diff"] : List String) ∧ j < xs₁.length := by
      intro j hj
      have hja : j ≠ a := fun hc => hna (hc ▸ hj)
      rw [hne₁ j hja, hlen₁]
      exact hsty j (by simp [hj])
    obtain ⟨xs2, q2, hfold, hlen2, hunch2, hprop2, hq2⟩ := ih xs₁ q₁ hsty2 hndr
    have hfoldEq : (a :: rest).foldlM (resolveStep disable srcSha tgtSha) (xs, q) = .ok (xs2, q2) := by
      rw [List.foldlM_cons, hstepEq]
      exact hfold
    refine ⟨xs2, q2, hfoldEq, hlen2.trans hlen₁, ?_, ?_, ?_⟩
    · intro i hi
      have hia : i ≠ a := fun hc => hi (by simp [hc])
      have hir : i ∉ rest := fun hc => hi (by simp [hc])
      rw [hunch2 i hir, hne₁ i hia]
    · intro i hi
      rcases List.mem_cons.mp hi with hieq | hir
      · subst hieq
        have hfin : getXf xs2 i = getXf xs₁ i := hunch2 i hna
        constructor
        · intro hzn
          rw [hfin, (hzn₁ hzn).1]
        · intro hd
          exact ⟨fun heq => by rw [hfin]; exact ((hdiff₁ hd).1 heq).1,
            fun hne => by rw [hfin]; exact ((hdiff₁ hd).2 hne).1⟩
      · have hia : i ≠ a := fun hc => hna (hc ▸ hir)
        have hrw : getXf xs₁ i = getXf xs i := hne₁ i hia
        have hp := hprop2 i hir
        constructor
        · intro hzn
          rw [hp.1 (by rwa [hrw]), hrw]
        · intro hd
          exact ⟨fun heq => by
              rw [(hp.2 (by rwa [hrw])).1 (by rwa [hrw]), hrw],
            fun hne => by
              rw [(hp.2 (by rwa [hrw])).2 (by rwa [hrw]), hrw]⟩
    · intro i
      rw [hq2 i]
      have hcond : (i ∈ rest ∧ (getXf xs₁ i).style = "diff" ∧
          srcSha (getXf xs₁ i).src ≠ tgtSha (getXf xs₁ i).tgt) ↔
          (i ∈ rest ∧ (getXf xs i).style = "diff" ∧
          srcSha (getXf xs i).src ≠ tgtSha (getXf xs i).tgt) := by
        by_cases hir : i ∈ rest
        · have hia : i ≠ a := fun hc => hna (hc ▸ hir)
          rw [hne₁ i hia]
        · simp [hir]
      rw [hcond]
      have hmemq₁ : i ∈ q₁ ↔ (i ∈ q ∨ (i = a ∧ (getXf xs a).style = "diff" ∧
          srcSha (getXf xs a).src ≠ tgtSha (getXf xs a).tgt)) := by
        rcases hsa with h | h | h
        · rw [(hzn₁ (Or.inl h)).2]
          have hnd2 : ¬ ((getXf xs a).style = "diff") := by
            rw [h]; decide
          exact ⟨fun hq => Or.inl hq, fun hor => by
            rcases hor with hq | ⟨-, hd, -⟩
            · exact hq
            · exact absurd hd hnd2⟩
        · rw [(hzn₁ (Or.inr h)).2]
          have hnd2 : ¬ ((getXf xs a).style = "diff") := by
            rw [h]; decide
          exact ⟨fun hq => Or.inl hq, fun hor => by
            rcases hor with hq | ⟨-, hd, -⟩
            · exact hq
            · exact absurd hd hnd2⟩
        · by_cases heq : srcSha (getXf xs a).src = tgtSha (getXf xs a).tgt
          · rw [((hdiff₁ h).1 heq).2]
            exact ⟨fun hq => Or.inl hq, fun hor => by
              rcases hor with hq | ⟨-, -, hne⟩
              · exact hq
              · exact absurd heq hne⟩
          · rw [((hdiff₁ h).2 heq).2]
            simp only [List.mem_append, List.mem_singleton]
            constructor
            · rintro (hq | rfl)
              · exact Or.inl hq
              · exact Or.inr ⟨rfl, h, heq⟩
            · rintro (hq | ⟨rfl, -, -⟩)
              · exact Or.inl hq
              · exact Or.inr rfl
      rw [hmemq₁]
      by_cases hia : i = a
      · subst hia
        simp only [List.mem_cons, true_or, true_and]
        have hmr : (i ∈ rest) = False := by simp [hna]
        constructor
        · rintro ((hq | hd) | ⟨hr, hrest⟩)
          · exact Or.inl hq
          · exact Or.inr hd
          · exact absurd hr hna
        · rintro (hq | hd)
          · exact Or.inl (Or.inl hq)
          · exact Or.inl (Or.inr hd)
      · simp only [List.mem_cons]
        constructor
        · rintro ((hq | ⟨he, -⟩) | ⟨hr, hrest⟩)
          · exact Or.inl hq
          · exact absurd he hia
          · exact Or.inr ⟨Or.inr hr, hrest⟩
        · rintro (hq | ⟨he | hr, hrest⟩)
          · exact Or.inl (Or.inl hq)
          · exact absurd he hia
          · exact Or.inr ⟨hr, hrest⟩


/-! ## Claim C7 -/

/-- Claim C7: during patch computation, every transfer still in style
`diff` whose source content SHA-1 equals its target content SHA-1 is
resolved to style `move` with no patch enqueued; every other `diff`
transfer is resolved to `imgdiff` exactly when imgdiff is not disabled,
the transfer is intact, and the lowercased final extension of its target
name is one of `apk`, `jar`, `zip`, and to `bsdiff` otherwise (with a
patch enqueued). -/
theorem C7_computePatches_resolution (disable : Bool)
    (srcSha tgtSha : RSet → List ℕ) (xs : List Xfer) (seq : List ℕ)
    (hsty : ∀ j ∈ seq, (getXf xs j).style ∈ (["zero", "new", "diff"] : List String) ∧ j < xs.length)
    (hnd : seq.Nodup) (i : ℕ) (hi : i ∈ seq)
    (hdiff : (getXf xs i).style = "diff") :
    ∃ xs' q, computePatchesResolve disable srcSha tgtSha xs seq = .ok (xs', q) ∧
      (srcSha (getXf xs i).src = tgtSha (getXf xs i).tgt →
        (getXf xs' i).style = "move" ∧ i ∉ q) ∧
      (srcSha (getXf xs i).src ≠ tgtSha (getXf xs i).tgt →
        ((getXf xs' i).style = "imgdiff" ∨ (getXf xs' i).style = "bsdiff") ∧
        ((getXf xs' i).style = "imgdiff" ↔
          (disable = false ∧ (getXf xs i).intact = true ∧
            fileExt (getXf xs i).tgtName ∈ ["apk", "jar", "zip"])) ∧
        i ∈ q) := by
  obtain ⟨xs', q, hok, _hlen, _hunch, hprop, hq⟩ :=
    resolveGo disable srcSha tgtSha seq xs [] hsty hnd
  refine ⟨xs', q, hok, ?_, ?_⟩
  · intro heq
    refine ⟨by rw [(hprop i hi).2 hdiff |>.1 heq], ?_⟩
    intro hiq
    rcases (hq i).mp hiq with hc | ⟨-, -, hne⟩
    · simp at hc
    · exact absurd heq hne
  · intro hne
    have hsty' : getXf xs' i = { getXf xs i with style :=
        (if (!disable && (getXf xs i).intact &&
            decide (fileExt (getXf xs i).tgtName ∈ ["apk", "jar", "zip"]))
          then "imgdiff" else "bsdiff") } := (hprop i hi).2 hdiff |>.2 hne
    have hstyleVal : (getXf xs' i).style =
        (if (!disable && (getXf xs i).intact &&
            decide (fileExt (getXf xs i).tgtName ∈ ["apk", "jar", "zip"]))
          then "imgdiff" else "bsdiff") := by rw [hsty']
    refine ⟨?_, ?_, (hq i).mpr (Or.inr ⟨hi, hdiff, hne⟩)⟩
    · by_cases hc : (!disable && (getXf xs i).intact &&
          decide (fileExt (getXf xs i).tgtName ∈ ["apk", "jar", "zip"])) = true
      · left; rw [hstyleVal, if_pos hc]
      · right; rw [hstyleVal, if_neg hc]
    · by_cases hc : (!disable && (getXf xs i).intact &&
          decide (fileExt (getXf xs i).tgtName ∈ ["apk", "jar", "zip"])) = true
      · rw [hstyleVal, if_pos hc]
        simp only [Bool.and_eq_true, Bool.not_eq_true', decide_eq_true_eq] at hc
        simp [hc.1.1, hc.1.2, hc.2]
      · rw [hstyleVal, if_neg hc]
        constructor
        · intro hbad
          exact absurd hbad (by decide)
        · rintro ⟨hd, hintact, hmem⟩
          exact absurd (by simp [hd, hintact, hmem] : (!disable && (getXf xs i).intact &&
            decide (fileExt (getXf xs i).tgtName ∈ ["apk", "jar", "zip"])) = true) hc

/-- Claim C7, witness: a content-identical `diff` transfer is resolved to
`move` with nothing enqueued. -/
theorem C7_computePatches_resolution_witness :
    ∃ xs' q, computePatchesResolve false (fun _ => []) (fun _ => [])
      [{ tgtName := "f", srcName := some "f", tgt := ({1} : RSet),
         src := ({0} : RSet), style := "diff", intact := true }] [0] =
        .ok (xs', q) ∧ (getXf xs' 0).style = "move" ∧ 0 ∉ q := by
  obtain ⟨xs', q, hok, hmove, -⟩ :=
    C7_computePatches_resolution false (fun _ => []) (fun _ => [])
      [{ tgtName := "f", srcName := some "f", tgt := ({1} : RSet),
         src := ({0} : RSet), style := "diff", intact := true }] [0]
      (by intro j hj; simp at hj; subst hj; exact ⟨by decide, by decide⟩)
      (by decide) 0 (by decide) (by decide)
  exact ⟨xs', q, hok, hmove rfl⟩


end BlockImgDiff
namespace BlockImgDiff

theorem coreEq_refl (x : Xfer) : coreEq x x :=
  ⟨rfl, rfl, rfl, rfl, rfl, rfl, rfl, rfl⟩

theorem foldl_max_init_le (xs : List Xfer) :
    ∀ init : ℕ, init ≤ xs.foldl (fun n x => max n (x.src.sup (· + 1))) init := by
  induction xs with
  | nil => intro init; exact le_refl _
  | cons x l ih =>
    intro init
    calc init ≤ max init (x.src.sup (· + 1)) := le_max_left _ _
    _ ≤ _ := ih _

theorem sup_le_foldl_max (xs : List Xfer) :
    ∀ init : ℕ, ∀ xf ∈ xs,
      xf.src.sup (· + 1) ≤ xs.foldl (fun n x => max n (x.src.sup (· + 1))) init := by
  induction xs with
  | nil => intro _ _ h; simp at h
  | cons x l ih =>
    intro init xf hxf
    rcases List.mem_cons.mp hxf with rfl | h
    · calc xf.src.sup (· + 1) ≤ max init (xf.src.sup (· + 1)) := le_max_right _ _
      _ ≤ _ := foldl_max_init_le l _
    · exact ih _ xf h

theorem lt_srcTableLen {xs : List Xfer} {j i : ℕ} (hj : j < xs.length)
    (hi : i ∈ (getXf xs j).src) : i < srcTableLen xs := by
  have hmem : getXf xs j ∈ xs := by
    unfold getXf
    rw [List.getD_eq_getElem _ _ hj]
    exact List.getElem_mem hj
  have h1 : i + 1 ≤ (getXf xs j).src.sup (· + 1) :=
    Finset.le_sup (f := (· + 1)) hi
  have h2 := sup_le_foldl_max xs 0 _ hmem
  unfold srcTableLen
  omega

theorem interW_congr {xs₀ cur : List Xfer}
    (hcore : ∀ j, coreEq (getXf cur j) (getXf xs₀ j)) (a b : ℕ) :
    interW cur a b = interW xs₀ a b := by
  unfold interW
  rw [(hcore a).2.2.1, (hcore b).2.2.2.1]

theorem edgeW_congr {xs₀ cur : List Xfer}
    (hcore : ∀ j, coreEq (getXf cur j) (getXf xs₀ j)) (a b : ℕ) :
    edgeW cur a b = edgeW xs₀ a b := by
  unfold edgeW
  rw [(hcore b).2.1, interW_congr hcore]

theorem mem_digraphIntersections_iff {xs₀ cur : List Xfer}
    (hlen : cur.length = xs₀.length)
    (hcore : ∀ j, coreEq (getXf cur j) (getXf xs₀ j)) (a b : ℕ) :
    b ∈ digraphIntersections cur (srcTableLen xs₀) a ↔
      b < xs₀.length ∧ interW xs₀ a b ≠ ∅ := by
  unfold digraphIntersections
  rw [List.mem_filter]
  constructor
  · rintro ⟨hb, hf⟩
    have hb' : b < xs₀.length := by
      rw [← hlen]; exact List.mem_range.mp hb
    refine ⟨hb', ?_⟩
    intro hcon
    apply of_decide_eq_true at hf
    apply hf
    have : (getXf cur b).src ∩ (getXf cur a).tgt = interW xs₀ a b := by
      rw [(hcore b).2.2.2.1, (hcore a).2.2.1, Finset.inter_comm]
      rfl
    rw [this, hcon]
    rfl
  · rintro ⟨hb, hne⟩
    refine ⟨List.mem_range.mpr (by omega), decide_eq_true ?_⟩
    have hrw : (getXf cur b).src ∩ (getXf cur a).tgt = interW xs₀ a b := by
      rw [(hcore b).2.2.2.1, (hcore a).2.2.1, Finset.inter_comm]
      rfl
    rw [hrw]
    obtain ⟨i, hi⟩ := Finset.nonempty_iff_ne_empty.mpr hne
    intro hcon
    have hisrc : i ∈ (getXf xs₀ b).src := (Finset.mem_inter.mp hi).2
    have : i ∈ (interW xs₀ a b).filter (· < srcTableLen xs₀) :=
      Finset.mem_filter.mpr ⟨hi, lt_srcTableLen hb hisrc⟩
    rw [hcon] at this
    simp at this

end BlockImgDiff
namespace BlockImgDiff

theorem digraphAddEdge_getXf {xs : List Xfer} {aId bId : ℕ}
    (hb : bId < xs.length) (ha : aId < xs.length) (hne : bId ≠ aId)
    (hint : interW xs aId bId ≠ ∅) :
    (digraphAddEdge aId xs bId).length = xs.length ∧
    (∀ j, j ≠ aId → j ≠ bId →
      getXf (digraphAddEdge aId xs bId) j = getXf xs j) ∧
    getXf (digraphAddEdge aId xs bId) bId =
      { getXf xs bId with goesBefore := (assocSet (getXf xs bId).goesBefore
          aId (some (edgeW xs aId bId))) } ∧
    getXf (digraphAddEdge aId xs bId) aId =
      { getXf xs aId with goesAfter := (assocSet (getXf xs aId).goesAfter
          bId (some (edgeW xs aId bId))) } := by
  unfold digraphAddEdge
  rw [if_neg hne, if_neg (by exact hint)]
  refine ⟨by rw [length_updAt, length_updAt], ?_, ?_, ?_⟩
  · intro j hja hjb
    rw [getXf_updAt_ne _ _ _ _ hja, getXf_updAt_ne _ _ _ _ hjb]
  · rw [getXf_updAt_ne _ _ _ _ (Ne.symm (fun h => hne h.symm)), getXf_updAt_self _ _ _ hb]
  · rw [getXf_updAt_self _ _ _ (by rwa [length_updAt]),
      getXf_updAt_ne _ _ _ _ (fun h => hne h.symm)]

theorem digraphAddEdge_skip {xs : List Xfer} {aId bId : ℕ}
    (h : bId = aId ∨ interW xs aId bId = ∅) :
    digraphAddEdge aId xs bId = xs := by
  unfold digraphAddEdge
  rcases h with h | h
  · rw [if_pos h]
  · by_cases hba : bId = aId
    · rw [if_pos hba]
    · rw [if_neg hba, if_pos h]

theorem digraphInner_spec (xs₀ : List Xfer) (aId : ℕ) (ha : aId < xs₀.length) :
    ∀ (L : List ℕ) (cur : List Xfer),
    cur.length = xs₀.length →
    (∀ j, coreEq (getXf cur j) (getXf xs₀ j)) →
    L.Nodup → (∀ b ∈ L, b < xs₀.length) →
    (∀ b ∈ L, alookup (getXf cur b).goesBefore aId = none) →
    (∀ b ∈ L, b ≠ aId → alookup (getXf cur aId).goesAfter b = none) →
    (L.foldl (digraphAddEdge aId) cur).length = xs₀.length ∧
    (∀ j, coreEq (getXf (L.foldl (digraphAddEdge aId) cur) j) (getXf xs₀ j)) ∧
    (∀ x y, ¬(y = aId ∧ x ∈ L) →
      alookup (getXf (L.foldl (digraphAddEdge aId) cur) x).goesBefore y =
        alookup (getXf cur x).goesBefore y) ∧
    (∀ x y, ¬(x = aId ∧ y ∈ L) →
      alookup (getXf (L.foldl (digraphAddEdge aId) cur) x).goesAfter y =
        alookup (getXf cur x).goesAfter y) ∧
    (∀ b ∈ L, alookup (getXf (L.foldl (digraphAddEdge aId) cur) b).goesBefore aId =
      (if b ≠ aId ∧ interW xs₀ aId b ≠ ∅ then some (some (edgeW xs₀ aId b)) else none)) ∧
    (∀ b ∈ L, b ≠ aId →
      alookup (getXf (L.foldl (digraphAddEdge aId) cur) aId).goesAfter b =
      (if interW xs₀ aId b ≠ ∅ then some (some (edgeW xs₀ aId b)) else none)) ∧
    alookup (getXf (L.foldl (digraphAddEdge aId) cur) aId).goesAfter aId =
      alookup (getXf cur aId).goesAfter aId := by
  intro L
  induction L with
  | nil =>
    intro cur hlen hcore _ _ _ _
    exact ⟨hlen, hcore, fun x y _ => rfl, fun x y _ => rfl,
      fun b hb => absurd hb (by simp), fun b hb => absurd hb (by simp), rfl⟩
  | cons b L ih =>
    intro cur hlen hcore hnd hbound hpreGb hpreGa
    have hnb : b ∉ L := (List.nodup_cons.mp hnd).1
    have hndL : L.Nodup := (List.nodup_cons.mp hnd).2
    have hblt : b < xs₀.length := hbound b (by simp)
    by_cases hskip : b = aId ∨ interW cur aId b = ∅
    · -- step is the identity
      have hid : digraphAddEdge aId cur b = cur := digraphAddEdge_skip hskip
      have hskip₀ : b = aId ∨ interW xs₀ aId b = ∅ := by
        rcases hskip with h | h
        · exact Or.inl h
        · right; rwa [interW_congr hcore] at h
      simp only [List.foldl_cons, hid]
      obtain ⟨rlen, rcore, rgb, rga, rsetGb, rsetGa, rself⟩ :=
        ih cur hlen hcore hndL (fun x hx => hbound x (by simp [hx]))
          (fun x hx => hpreGb x (by simp [hx]))
          (fun x hx hxa => hpreGa x (by simp [hx]) hxa)
      refine ⟨rlen, rcore, ?_, ?_, ?_, ?_, rself⟩
      · intro x y hxy
        exact rgb x y (fun hc => hxy ⟨hc.1, by simp [hc.2]⟩)
      · intro x y hxy
        exact rga x y (fun hc => hxy ⟨hc.1, by simp [hc.2]⟩)
      · intro x hx
        rcases List.mem_cons.mp hx with rfl | hxL
        · -- x = b : the entry stays empty
          rw [if_neg (by
            rintro ⟨hne, hint⟩
            rcases hskip₀ with h | h
            · exact hne h
            · exact hint h)]
          rcases Decidable.em (x ∈ L) with hmem | hmem
          · rw [rsetGb x hmem, if_neg (by
              rintro ⟨hne, hint⟩
              rcases hskip₀ with h | h
              · exact hne h
              · exact hint h)]
          · rw [rgb x aId (fun hc => hmem hc.2)]
            exact hpreGb x (by simp)
        · exact rsetGb x hxL
      · intro x hx hxa
        rcases List.mem_cons.mp hx with rfl | hxL
        · rw [if_neg (by
            intro hint
            rcases hskip₀ with h | h
            · exact hxa h
            · exact hint h)]
          rcases Decidable.em (x ∈ L) with hmem | hmem
          · rw [rsetGa x hmem hxa, if_neg (by
              intro hint
              rcases hskip₀ with h | h
              · exact hxa h
              · exact hint h)]
          · rw [rga aId x (fun hc => hmem hc.2)]
            exact hpreGa x (by simp) hxa
        · exact rsetGa x hxL hxa
    · push_neg at hskip
      obtain ⟨hbne, hbint⟩ := hskip
      have hbint₀ : interW xs₀ aId b ≠ ∅ := by rwa [interW_congr hcore] at hbint
      obtain ⟨slen, sother, sb, sa⟩ :=
        @digraphAddEdge_getXf cur aId b (by omega : b < cur.length)
          (by omega : aId < cur.length) hbne hbint
      set cur' := digraphAddEdge aId cur b with hcur'
      have hlen' : cur'.length = xs₀.length := by rw [slen, hlen]
      have hcore' : ∀ j, coreEq (getXf cur' j) (getXf xs₀ j) := by
        intro j
        by_cases hja : j = aId
        · subst hja
          rw [sa]
          exact (hcore j)
        · by_cases hjb : j = b
          · subst hjb
            rw [sb]
            exact (hcore j)
          · rw [sother j hja hjb]
            exact hcore j
      have hw : edgeW cur aId b = edgeW xs₀ aId b := edgeW_congr hcore aId b
      simp only [List.foldl_cons]
      rw [← hcur']
      obtain ⟨rlen, rcore, rgb, rga, rsetGb, rsetGa, rself⟩ :=
        ih cur' hlen' hcore' hndL (fun x hx => hbound x (by simp [hx]))
          (fun x hx => by
            have hxb : x ≠ b := fun hc => hnb (hc ▸ hx)
            by_cases hxa : x = aId
            · subst hxa
              rw [sa]
              exact hpreGb x (by simp [hx])
            · rw [sother x hxa hxb]
              exact hpreGb x (by simp [hx]))
          (fun x hx hxa => by
            have hxb : x ≠ b := fun hc => hnb (hc ▸ hx)
            rw [sa]
            show alookup (assocSet (getXf cur aId).goesAfter b (some (edgeW cur aId b))) x = none
            rw [alookup_assocSet_ne _ _ _ _ hxb]
            exact hpreGa x (by simp [hx]) hxa)
      refine ⟨rlen, rcore, ?_, ?_, ?_, ?_, ?_⟩
      · intro x y hxy
        have hnotL : ¬(y = aId ∧ x ∈ L) := fun hc => hxy ⟨hc.1, by simp [hc.2]⟩
        rw [rgb x y hnotL]
        by_cases hxa : x = aId
        · subst hxa
          rw [sa]
        · by_cases hxb : x = b
          · subst hxb
            rw [sb]
            show alookup (assocSet (getXf cur x).goesBefore aId (some (edgeW cur aId x))) y = _
            have hya : y ≠ aId := fun hc => hxy ⟨hc, by simp⟩
            rw [alookup_assocSet_ne _ _ _ _ hya]
          · rw [sother x hxa hxb]
      · intro x y hxy
        have hnotL : ¬(x = aId ∧ y ∈ L) := fun hc => hxy ⟨hc.1, by simp [hc.2]⟩
        rw [rga x y hnotL]
        by_cases hxa : x = aId
        · subst hxa
          rw [sa]
          show alookup (assocSet (getXf cur x).goesAfter b (some (edgeW cur x b))) y = _
          have hyb : y ≠ b := fun hc => hxy ⟨rfl, by simp [hc]⟩
          rw [alookup_assocSet_ne _ _ _ _ hyb]
        · by_cases hxb : x = b
          · subst hxb
            rw [sb]
          · rw [sother x hxa hxb]
      · intro x hx
        rcases List.mem_cons.mp hx with rfl | hxL
        · have hxnotL : ¬(aId = aId ∧ x ∈ L) := fun hc => hnb hc.2
          rw [rgb x aId hxnotL, sb]
          show alookup (assocSet (getXf cur x).goesBefore aId (some (edgeW cur aId x))) aId = _
          rw [alookup_assocSet_self, hw, if_pos ⟨hbne, hbint₀⟩]
        · exact rsetGb x hxL
      · intro x hx hxa
        rcases List.mem_cons.mp hx with rfl | hxL
        · have hxnotL : ¬(aId = aId ∧ x ∈ L) := fun hc => hnb hc.2
          rw [rga aId x hxnotL, sa]
          show alookup (assocSet (getXf cur aId).goesAfter x (some (edgeW cur aId x))) x = _
          rw [alookup_assocSet_self, hw, if_pos hbint₀]
        · exact rsetGa x hxL hxa
      · rw [rself, sa]
        show alookup (assocSet (getXf cur aId).goesAfter b (some (edgeW cur aId b))) aId = _
        rw [alookup_assocSet_ne _ _ _ _ (Ne.symm hbne)]

end BlockImgDiff
namespace BlockImgDiff

theorem digraphOuter_fold_spec (xs₀ : List Xfer) :
    ∀ (M A : List ℕ) (cur : List Xfer),
    cur.length = xs₀.length →
    (∀ j, coreEq (getXf cur j) (getXf xs₀ j)) →
    (A ++ M).Nodup →
    (∀ a ∈ M, a < xs₀.length) →
    (∀ x y, alookup (getXf cur x).goesBefore y =
      (if y ∈ A ∧ x ≠ y ∧ x < xs₀.length ∧ interW xs₀ y x ≠ ∅
       then some (some (edgeW xs₀ y x)) else none)) →
    (∀ x y, alookup (getXf cur x).goesAfter y =
      (if x ∈ A ∧ x ≠ y ∧ y < xs₀.length ∧ interW xs₀ x y ≠ ∅
       then some (some (edgeW xs₀ x y)) else none)) →
    (M.foldl (digraphOuter (srcTableLen xs₀)) cur).length = xs₀.length ∧
    (∀ j, coreEq (getXf (M.foldl (digraphOuter (srcTableLen xs₀)) cur) j)
      (getXf xs₀ j)) ∧
    (∀ x y, alookup (getXf (M.foldl (digraphOuter (srcTableLen xs₀)) cur) x).goesBefore y =
      (if (y ∈ A ∨ y ∈ M) ∧ x ≠ y ∧ x < xs₀.length ∧ interW xs₀ y x ≠ ∅
       then some (some (edgeW xs₀ y x)) else none)) ∧
    (∀ x y, alookup (getXf (M.foldl (digraphOuter (srcTableLen xs₀)) cur) x).goesAfter y =
      (if (x ∈ A ∨ x ∈ M) ∧ x ≠ y ∧ y < xs₀.length ∧ interW xs₀ x y ≠ ∅
       then some (some (edgeW xs₀ x y)) else none)) := by
  intro M
  induction M with
  | nil =>
    intro A cur hlen hcore _ _ hgb hga
    refine ⟨hlen, hcore, ?_, ?_⟩
    · intro x y
      rw [List.foldl_nil, hgb x y]
      exact if_congr (by simp) rfl rfl
    · intro x y
      rw [List.foldl_nil, hga x y]
      exact if_congr (by simp) rfl rfl
  | cons a M ih =>
    intro A cur hlen hcore hnd hbound hgb hga
    have han : a < xs₀.length := hbound a (by simp)
    have hdisj := (List.nodup_append.mp hnd).2.2
    have hnaA : a ∉ A := fun hc => hdisj hc (by simp)
    have hLnd : (digraphIntersections cur (srcTableLen xs₀) a).Nodup :=
      (List.nodup_range _).filter _
    have hLmem : ∀ b ∈ digraphIntersections cur (srcTableLen xs₀) a,
        b < xs₀.length ∧ interW xs₀ a b ≠ ∅ :=
      fun b hb => (mem_digraphIntersections_iff hlen hcore a b).mp hb
    have hpre1 : ∀ b ∈ digraphIntersections cur (srcTableLen xs₀) a,
        alookup (getXf cur b).goesBefore a = none := by
      intro b hb
      rw [hgb b a, if_neg]
      rintro ⟨hc, -⟩
      exact hnaA hc
    have hpre2 : ∀ b ∈ digraphIntersections cur (srcTableLen xs₀) a, b ≠ a →
        alookup (getXf cur a).goesAfter b = none := by
      intro b hb hba
      rw [hga a b, if_neg]
      rintro ⟨hc, -⟩
      exact hnaA hc
    obtain ⟨ilen, icore, ugb, uga, sgb, sga, sfa⟩ :=
      digraphInner_spec xs₀ a han (digraphIntersections cur (srcTableLen xs₀) a)
        cur hlen hcore hLnd (fun b hb => (hLmem b hb).1) hpre1 hpre2
    have hgb₁ : ∀ x y,
        alookup (getXf ((digraphIntersections cur (srcTableLen xs₀) a).foldl
          (digraphAddEdge a) cur) x).goesBefore y =
        (if y ∈ A ++ [a] ∧ x ≠ y ∧ x < xs₀.length ∧ interW xs₀ y x ≠ ∅
         then some (some (edgeW xs₀ y x)) else none) := by
      intro x y
      by_cases hya : y = a
      · subst hya
        by_cases hxL : x ∈ digraphIntersections cur (srcTableLen xs₀) y
        · rw [sgb x hxL]
          have hx := hLmem x hxL
          refine if_congr ?_ rfl rfl
          constructor
          · rintro ⟨hxy, hint⟩
            exact ⟨by simp, hxy, hx.1, hint⟩
          · rintro ⟨-, hxy, -, hint⟩
            exact ⟨hxy, hint⟩
        · have h₁ : ¬(y ∈ A ∧ x ≠ y ∧ x < xs₀.length ∧ interW xs₀ y x ≠ ∅) :=
            fun hc => hnaA hc.1
          have h₂ : ¬(y ∈ A ++ [y] ∧ x ≠ y ∧ x < xs₀.length ∧ interW xs₀ y x ≠ ∅) := by
            rintro ⟨-, hxy, hxn, hint⟩
            exact hxL ((mem_digraphIntersections_iff hlen hcore y x).mpr ⟨hxn, hint⟩)
          rw [ugb x y (fun hc => hxL hc.2), hgb x y, if_neg h₁, if_neg h₂]
      · rw [ugb x y (fun hc => hya hc.1), hgb x y]
        refine if_congr ?_ rfl rfl
        simp [List.mem_append, hya]
    have hga₁ : ∀ x y,
        alookup (getXf ((digraphIntersections cur (srcTableLen xs₀) a).foldl
          (digraphAddEdge a) cur) x).goesAfter y =
        (if x ∈ A ++ [a] ∧ x ≠ y ∧ y < xs₀.length ∧ interW xs₀ x y ≠ ∅
         then some (some (edgeW xs₀ x y)) else none) := by
      intro x y
      by_cases hxa : x = a
      · subst hxa
        by_cases hya : y = x
        · subst hya
          have h₁ : ¬(y ∈ A ∧ y ≠ y ∧ y < xs₀.length ∧ interW xs₀ y y ≠ ∅) :=
            fun hc => hc.2.1 rfl
          have h₂ : ¬(y ∈ A ++ [y] ∧ y ≠ y ∧ y < xs₀.length ∧ interW xs₀ y y ≠ ∅) :=
            fun hc => hc.2.1 rfl
          rw [sfa, hga y y, if_neg h₁, if_neg h₂]
        · by_cases hyL : y ∈ digraphIntersections cur (srcTableLen xs₀) x
          · rw [sga y hyL hya]
            have hy := hLmem y hyL
            refine if_congr ?_ rfl rfl
            constructor
            · intro hint
              exact ⟨by simp, fun hc => hya hc.symm, hy.1, hint⟩
            · rintro ⟨-, -, -, hint⟩
              exact hint
          · have h₁ : ¬(x ∈ A ∧ x ≠ y ∧ y < xs₀.length ∧ interW xs₀ x y ≠ ∅) :=
              fun hc => hnaA hc.1
            have h₂ : ¬(x ∈ A ++ [x] ∧ x ≠ y ∧ y < xs₀.length ∧ interW xs₀ x y ≠ ∅) := by
              rintro ⟨-, -, hyn, hint⟩
              exact hyL ((mem_digraphIntersections_iff hlen hcore x y).mpr ⟨hyn, hint⟩)
            rw [uga x y (fun hc => hyL hc.2), hga x y, if_neg h₁, if_neg h₂]
      · rw [uga x y (fun hc => hxa hc.1), hga x y]
        refine if_congr ?_ rfl rfl
        simp [List.mem_append, hxa]
    have hnd' : ((A ++ [a]) ++ M).Nodup := by
      rw [List.append_assoc]
      exact hnd
    obtain ⟨flen, fcore, fgb, fga⟩ :=
      ih (A ++ [a]) ((digraphIntersections cur (srcTableLen xs₀) a).foldl
          (digraphAddEdge a) cur)
        ilen icore hnd' (fun b hb => hbound b (by simp [hb])) hgb₁ hga₁
    have hfold : (a :: M).foldl (digraphOuter (srcTableLen xs₀)) cur
        = M.foldl (digraphOuter (srcTableLen xs₀))
            ((digraphIntersections cur (srcTableLen xs₀) a).foldl
              (digraphAddEdge a) cur) := by
      rw [List.foldl_cons]
      rfl
    rw [hfold]
    refine ⟨flen, fcore, ?_, ?_⟩
    · intro x y
      rw [fgb x y]
      refine if_congr ?_ rfl rfl
      constructor
      · rintro ⟨hy, hrest⟩
        refine ⟨?_, hrest⟩
        rcases hy with hy | hy
        · rcases List.mem_append.mp hy with hy | hy
          · exact Or.inl hy
          · exact Or.inr (by simp at hy; simp [hy])
        · exact Or.inr (by simp [hy])
      · rintro ⟨hy, hrest⟩
        refine ⟨?_, hrest⟩
        rcases hy with hy | hy
        · exact Or.inl (List.mem_append.mpr (Or.inl hy))
        · rcases List.mem_cons.mp hy with hy | hy
          · exact Or.inl (List.mem_append.mpr (Or.inr (by simp [hy])))
          · exact Or.inr hy
    · intro x y
      rw [fga x y]
      refine if_congr ?_ rfl rfl
      constructor
      · rintro ⟨hx, hrest⟩
        refine ⟨?_, hrest⟩
        rcases hx with hx | hx
        · rcases List.mem_append.mp hx with hx | hx
          · exact Or.inl hx
          · exact Or.inr (by simp at hx; simp [hx])
        · exact Or.inr (by simp [hx])
      · rintro ⟨hx, hrest⟩
        refine ⟨?_, hrest⟩
        rcases hx with hx | hx
        · exact Or.inl (List.mem_append.mpr (Or.inl hx))
        · rcases List.mem_cons.mp hx with hx | hx
          · exact Or.inl (List.mem_append.mpr (Or.inr (by simp [hx])))
          · exact Or.inr hx

/-- Claim C6: after `GenerateDigraph`, for every ordered pair of distinct
transfer ids `x ≠ y` (both in range), `goes_before` of `x` maps `y` (and
`goes_after` of `y` maps `x`) exactly when `y.tgt_ranges ∩ x.src_ranges`
is non-empty, and the recorded weight is `edgeW`, i.e.
`|y.tgt_ranges ∩ x.src_ranges|` except 0 when `x.src_name == "__ZERO"`;
a transfer never gets an edge to itself (the `x = y` condition fails), and
out-of-range ids get no edges.  Hypothesis: the dependency dicts start
empty, as they do for freshly constructed transfers. -/
theorem C6_generateDigraph (xs₀ : List Xfer)
    (hinit : ∀ x y, alookup (getXf xs₀ x).goesBefore y = none ∧
      alookup (getXf xs₀ x).goesAfter y = none) :
    (∀ x y, alookup (getXf (generateDigraph xs₀) x).goesBefore y =
      (if y < xs₀.length ∧ x ≠ y ∧ x < xs₀.length ∧ interW xs₀ y x ≠ ∅
       then some (some (edgeW xs₀ y x)) else none)) ∧
    (∀ x y, alookup (getXf (generateDigraph xs₀) x).goesAfter y =
      (if x < xs₀.length ∧ x ≠ y ∧ y < xs₀.length ∧ interW xs₀ x y ≠ ∅
       then some (some (edgeW xs₀ x y)) else none)) := by
  obtain ⟨-, -, fgb, fga⟩ :=
    digraphOuter_fold_spec xs₀ (List.range xs₀.length) [] xs₀ rfl
      (fun j => coreEq_refl _) (by simp [List.nodup_range])
      (fun a ha => List.mem_range.mp ha)
      (fun x y => by rw [(hinit x y).1, if_neg (by rintro ⟨hc, -⟩; simp at hc)])
      (fun x y => by rw [(hinit x y).2, if_neg (by rintro ⟨hc, -⟩; simp at hc)])
  constructor
  · intro x y
    unfold generateDigraph
    rw [fgb x y]
    exact if_congr (by simp [List.mem_range]) rfl rfl
  · intro x y
    unfold generateDigraph
    rw [fga x y]
    exact if_congr (by simp [List.mem_range]) rfl rfl

/-- Claim C6, witness: a two-transfer cycle (each reads the block the other
writes) gets both edges with weight 1, and no self edge. -/
theorem C6_generateDigraph_witness :
    alookup (getXf (generateDigraph
      [mkXfer (fun _ => true) "a" (some "sa") {0} {1} "diff",
       mkXfer (fun _ => true) "b" (some "sb") {1} {0} "diff"]) 1).goesBefore 0 =
      some (some 1) ∧
    alookup (getXf (generateDigraph
      [mkXfer (fun _ => true) "a" (some "sa") {0} {1} "diff",
       mkXfer (fun _ => true) "b" (some "sb") {1} {0} "diff"]) 0).goesAfter 0 =
      none := by
  have h := C6_generateDigraph
    [mkXfer (fun _ => true) "a" (some "sa") {0} {1} "diff",
     mkXfer (fun _ => true) "b" (some "sb") {1} {0} "diff"]
    (fun x y => by
      match x with
      | 0 => exact ⟨rfl, rfl⟩
      | 1 => exact ⟨rfl, rfl⟩
      | n + 2 => exact ⟨rfl, rfl⟩)
  constructor
  · rw [h.1 1 0]
    decide
  · rw [h.2 0 0]
    decide

end BlockImgDiff
namespace BlockImgDiff

theorem posOf_of_not_mem {l : List ℕ} {x : ℕ} (h : x ∉ l) :
    posOf l x = l.length := by
  induction l with
  | nil => rfl
  | cons a l ih =>
    have ha : a ≠ x := fun hc => h (by simp [hc])
    have : x ∉ l := fun hc => h (by simp [hc])
    simp [posOf, ha, ih this]

theorem posOf_append_left {P R : List ℕ} {x : ℕ} (h : x ∈ P) :
    posOf (P ++ R) x = posOf P x := by
  induction P with
  | nil => simp at h
  | cons a P ih =>
    by_cases ha : a = x
    · simp [posOf, ha]
    · have : x ∈ P := by
        rcases List.mem_cons.mp h with h' | h'
        · exact absurd h'.symm ha
        · exact h'
      simp [posOf, ha, ih this]

theorem posOf_append_right {P : List ℕ} {x : ℕ} (R : List ℕ) (h : x ∉ P) :
    posOf (P ++ R) x = P.length + posOf R x := by
  induction P with
  | nil => simp
  | cons a P ih =>
    have ha : a ≠ x := fun hc => h (by simp [hc])
    have : x ∉ P := fun hc => h (by simp [hc])
    simp [posOf, ha, ih this]
    omega

theorem revEq_refl (x : Xfer) : revEq x x :=
  ⟨rfl, rfl, rfl, rfl, rfl, rfl⟩

theorem revEq_trans {x y z : Xfer} (h₁ : revEq x y) (h₂ : revEq y z) :
    revEq x z := by
  obtain ⟨a1, a2, a3, a4, a5, a6⟩ := h₁
  obtain ⟨b1, b2, b3, b4, b5, b6⟩ := h₂
  exact ⟨a1.trans b1, a2.trans b2, a3.trans b3, a4.trans b4,
    a5.trans b5, a6.trans b6⟩

theorem revPair_inorder (seq : List ℕ) (x₀ : ℕ) (st : RevSt) (u₀ : ℕ)
    (hord : posOf seq x₀ < posOf seq u₀) :
    revPair seq x₀ st u₀ = .ok st := by
  unfold revPair
  rw [if_pos hord]
  rfl

theorem revPair_violated (seq : List ℕ) (x₀ : ℕ) (st : RevSt) (u₀ : ℕ)
    (hx : x₀ < st.xs.length) (hu : u₀ < st.xs.length) (hxu : x₀ ≠ u₀)
    (hord : ¬ posOf seq x₀ < posOf seq u₀)
    (hov : (getXf st.xs x₀).src ∩ (getXf st.xs u₀).tgt ≠ ∅) :
    ∃ st', revPair seq x₀ st u₀ = .ok st' ∧
      st'.ctr = st.ctr + 1 ∧
      st'.log = st.log ++ [(st.ctr, x₀, u₀)] ∧
      st'.xs.length = st.xs.length ∧
      (∀ j, j ≠ x₀ → j ≠ u₀ → getXf st'.xs j = getXf st.xs j) ∧
      getXf st'.xs u₀ = { getXf st.xs u₀ with
        stashBefore := ((getXf st.xs u₀).stashBefore ++
          [(st.ctr, (getXf st.xs x₀).src ∩ (getXf st.xs u₀).tgt)]),
        goesAfter := (assocDel (getXf st.xs u₀).goesAfter x₀),
        goesBefore := (assocSet (getXf st.xs u₀).goesBefore x₀ none) } ∧
      getXf st'.xs x₀ = { getXf st.xs x₀ with
        useStash := ((getXf st.xs x₀).useStash ++
          [(st.ctr, (getXf st.xs x₀).src ∩ (getXf st.xs u₀).tgt)]),
        goesBefore := (assocDel (getXf st.xs x₀).goesBefore u₀),
        goesAfter := (assocSet (getXf st.xs x₀).goesAfter u₀ none) } := by
  unfold revPair
  rw [if_neg hord, if_neg hov]
  refine ⟨_, rfl, rfl, rfl, ?_, ?_, ?_, ?_⟩
  · simp only [length_updAt]
  · intro j hjx hju
    simp only []
    rw [getXf_updAt_ne _ _ _ _ hju, getXf_updAt_ne _ _ _ _ hjx,
      getXf_updAt_ne _ _ _ _ hju, getXf_updAt_ne _ _ _ _ hjx,
      getXf_updAt_ne _ _ _ _ hjx, getXf_updAt_ne _ _ _ _ hju]
  · simp only []
    rw [getXf_updAt_self _ _ _ (by simp only [length_updAt]; exact hu),
      getXf_updAt_ne _ _ _ _ (Ne.symm hxu),
      getXf_updAt_self _ _ _ (by simp only [length_updAt]; exact hu),
      getXf_updAt_ne _ _ _ _ (Ne.symm hxu),
      getXf_updAt_ne _ _ _ _ (Ne.symm hxu),
      getXf_updAt_self _ _ _ hu]
  · simp only []
    rw [getXf_updAt_ne _ _ _ _ hxu,
      getXf_updAt_self _ _ _ (by simp only [length_updAt]; exact hx),
      getXf_updAt_ne _ _ _ _ hxu,
      getXf_updAt_self _ _ _ (by simp only [length_updAt]; exact hx),
      getXf_updAt_self _ _ _ (by simp only [length_updAt]; exact hx),
      getXf_updAt_ne _ _ _ _ hxu]

theorem revInner_spec (xs : List Xfer) (seq : List ℕ) (x₀ : ℕ)
    (hx : x₀ < xs.length) :
    ∀ (K : List ℕ) (st : RevSt),
    st.xs.length = xs.length →
    (∀ j, revEq (getXf st.xs j) (getXf xs j)) →
    (∀ u ∈ K, u < xs.length) →
    (∀ u ∈ K, u ≠ x₀) →
    (∀ u ∈ K, ¬ posOf seq x₀ < posOf seq u → ovl xs x₀ u ≠ ∅) →
    ∃ st', K.foldlM (revPair seq x₀) st = .ok st' ∧
      st'.ctr = st.ctr +
        (K.filter (fun u => !decide (posOf seq x₀ < posOf seq u))).length ∧
      st'.log = st.log ++
        (List.enumFrom st.ctr
          (K.filter (fun u => !decide (posOf seq x₀ < posOf seq u)))).map
          (fun p => (p.1, x₀, p.2)) ∧
      st'.xs.length = xs.length ∧
      (∀ j, revEq (getXf st'.xs j) (getXf xs j)) ∧
      (∀ j, (getXf st'.xs j).stashBefore = (getXf st.xs j).stashBefore ++
        ((List.enumFrom st.ctr
          (K.filter (fun u => !decide (posOf seq x₀ < posOf seq u)))).filter
            (fun p => p.2 = j)).map (fun p => (p.1, ovl xs x₀ p.2))) ∧
      (∀ j, j ≠ x₀ → (getXf st'.xs j).useStash = (getXf st.xs j).useStash) ∧
      (getXf st'.xs x₀).useStash = (getXf st.xs x₀).useStash ++
        (List.enumFrom st.ctr
          (K.filter (fun u => !decide (posOf seq x₀ < posOf seq u)))).map
          (fun p => (p.1, ovl xs x₀ p.2)) ∧
      (∀ j k, alookup (getXf st'.xs j).goesBefore k =
        if j = x₀ ∧ k ∈ K.filter (fun u => !decide (posOf seq x₀ < posOf seq u))
        then none
        else if k = x₀ ∧
            j ∈ K.filter (fun u => !decide (posOf seq x₀ < posOf seq u))
        then some none
        else alookup (getXf st.xs j).goesBefore k) ∧
      (∀ j k, alookup (getXf st'.xs j).goesAfter k =
        if j = x₀ ∧ k ∈ K.filter (fun u => !decide (posOf seq x₀ < posOf seq u))
        then some none
        else if k = x₀ ∧
            j ∈ K.filter (fun u => !decide (posOf seq x₀ < posOf seq u))
        then none
        else alookup (getXf st.xs j).goesAfter k) ∧
      (∀ j, j ≠ x₀ →
        j ∉ K.filter (fun u => !decide (posOf seq x₀ < posOf seq u)) →
        getXf st'.xs j = getXf st.xs j) := by
  intro K
  induction K with
  | nil =>
    intro st hlen hrev _ _ _
    exact ⟨st, rfl, by simp, by simp, hlen, hrev, by simp, fun j _ => rfl,
      by simp, fun j k => by simp, fun j k => by simp, fun j _ _ => rfl⟩
  | cons u K ih =>
    intro st hlen hrev hKb hKx hKo
    have hub : u < xs.length := hKb u (by simp)
    have hux : u ≠ x₀ := hKx u (by simp)
    by_cases hord : posOf seq x₀ < posOf seq u
    · -- in-order key: no mutation, the filter drops `u`
      have hstep := revPair_inorder seq x₀ st u hord
      obtain ⟨st', hfold, hctr, hlog, hlen', hrev', hsb, husne, husx, hgb, hga,
          hunc⟩ :=
        ih st hlen hrev (fun v hv => hKb v (by simp [hv]))
          (fun v hv => hKx v (by simp [hv]))
          (fun v hv ho => hKo v (by simp [hv]) ho)
      have hfilter : (u :: K).filter
          (fun v => !decide (posOf seq x₀ < posOf seq v)) =
          K.filter (fun v => !decide (posOf seq x₀ < posOf seq v)) := by
        rw [List.filter_cons]
        simp [hord]
      refine ⟨st', ?_, by rw [hfilter]; exact hctr, by rw [hfilter]; exact hlog,
        hlen', hrev', fun j => by rw [hfilter]; exact hsb j, husne,
        by rw [hfilter]; exact husx,
        fun j k => by rw [hfilter]; exact hgb j k,
        fun j k => by rw [hfilter]; exact hga j k,
        fun j hjx hjV => hunc j hjx (by rw [hfilter] at hjV; exact hjV)⟩
      rw [List.foldlM_cons, hstep]
      exact hfold
    · -- violated key: stash and reverse, then recurse
      have hovne : (getXf st.xs x₀).src ∩ (getXf st.xs u).tgt ≠ ∅ := by
        rw [(hrev x₀).2.2.2.1, (hrev u).2.2.1]
        exact hKo u (by simp) hord
      obtain ⟨st₁, hstep, hctr₁, hlog₁, hlen₁, hunch₁, hvalu, hvalx⟩ :=
        revPair_violated seq x₀ st u (hlen ▸ hx) (hlen ▸ hub)
          (Ne.symm hux) hord hovne
      have hovEq : (getXf st.xs x₀).src ∩ (getXf st.xs u).tgt = ovl xs x₀ u := by
        unfold ovl
        rw [(hrev x₀).2.2.2.1, (hrev u).2.2.1]
      have hlen₁' : st₁.xs.length = xs.length := hlen₁.trans hlen
      have hrev₁ : ∀ j, revEq (getXf st₁.xs j) (getXf xs j) := by
        intro j
        by_cases hju : j = u
        · subst hju
          refine revEq_trans ?_ (hrev j)
          rw [hvalu]
          exact ⟨rfl, rfl, rfl, rfl, rfl, rfl⟩
        · by_cases hjx : j = x₀
          · subst hjx
            refine revEq_trans ?_ (hrev j)
            rw [hvalx]
            exact ⟨rfl, rfl, rfl, rfl, rfl, rfl⟩
          · rw [hunch₁ j hjx hju]
            exact hrev j
      obtain ⟨st', hfold, hctr, hlog, hlen', hrev', hsb, husne, husx, hgb, hga,
          hunc⟩ :=
        ih st₁ hlen₁' hrev₁ (fun v hv => hKb v (by simp [hv]))
          (fun v hv => hKx v (by simp [hv]))
          (fun v hv ho => hKo v (by simp [hv]) ho)
      have hfilter : (u :: K).filter
          (fun v => !decide (posOf seq x₀ < posOf seq v)) =
          u :: K.filter (fun v => !decide (posOf seq x₀ < posOf seq v)) := by
        rw [List.filter_cons]
        simp [hord]
      have hxV : x₀ ∉ K.filter (fun v => !decide (posOf seq x₀ < posOf seq v)) :=
        fun hc => hKx x₀ (by simp [List.mem_of_mem_filter hc]) rfl
      refine ⟨st', ?_, ?_, ?_, hlen', hrev', ?_, ?_, ?_, ?_, ?_, ?_⟩
      · rw [List.foldlM_cons, hstep]
        exact hfold
      · rw [hfilter, hctr, hctr₁]
        simp [Nat.add_comm, Nat.add_assoc, Nat.add_left_comm]
      · rw [hfilter, hlog, hlog₁, hctr₁, List.enumFrom_cons]
        simp [List.append_assoc]
      · -- stashBefore
        intro j
        rw [hfilter, hsb j, List.enumFrom_cons, List.filter_cons]
        by_cases hju : j = u
        · subst hju
          have hsbj : (getXf st₁.xs j).stashBefore =
              (getXf st.xs j).stashBefore ++ [(st.ctr, ovl xs x₀ j)] := by
            rw [hvalu, hovEq]
          rw [hsbj, hctr₁]
          simp [List.append_assoc]
        · have hsbj : (getXf st₁.xs j).stashBefore =
              (getXf st.xs j).stashBefore := by
            by_cases hjx : j = x₀
            · subst hjx
              rw [hvalx]
            · rw [hunch₁ j hjx hju]
          rw [hsbj, hctr₁]
          simp [hju, Ne.symm hju]
      · -- useStash unchanged off x₀
        intro j hjx
        rw [husne j hjx]
        by_cases hju : j = u
        · subst hju
          rw [hvalu]
        · rw [hunch₁ j hjx hju]
      · -- useStash of x₀
        have husx₁ : (getXf st₁.xs x₀).useStash =
            (getXf st.xs x₀).useStash ++ [(st.ctr, ovl xs x₀ u)] := by
          rw [hvalx, hovEq]
        rw [hfilter, husx, husx₁, hctr₁, List.enumFrom_cons]
        simp [List.append_assoc]
      · -- goesBefore lookups
        intro j k
        rw [hfilter, hgb j k]
        by_cases hjx : j = x₀
        · rw [hjx]
          by_cases hkV : k ∈ K.filter
              (fun v => !decide (posOf seq x₀ < posOf seq v))
          · rw [if_pos ⟨rfl, hkV⟩, if_pos ⟨rfl, by simp [hkV]⟩]
          · rw [if_neg (fun hc => hkV hc.2),
              if_neg (fun hc => hxV hc.2)]
            have hgb₁ : alookup (getXf st₁.xs x₀).goesBefore k =
                if k = u then none
                else alookup (getXf st.xs x₀).goesBefore k := by
              rw [hvalx]
              by_cases hku : k = u
              · rw [hku]
                simp [alookup_assocDel_self]
              · simp [alookup_assocDel_ne _ _ _ hku, hku]
            rw [hgb₁]
            by_cases hku : k = u
            · rw [if_pos hku, if_pos ⟨rfl, by simp [hku]⟩]
            · rw [if_neg hku, if_neg (fun hc => by
                rcases List.mem_cons.mp hc.2 with h | h
                · exact hku h
                · exact hkV h),
                if_neg (fun hc => by
                  rcases List.mem_cons.mp hc.2 with h | h
                  · exact hux h.symm
                  · exact hxV h)]
        · have hn₁ : ¬(j = x₀ ∧ k ∈ K.filter
              (fun v => !decide (posOf seq x₀ < posOf seq v))) :=
            fun hc => hjx hc.1
          have hn₂ : ¬(j = x₀ ∧ k ∈ u :: K.filter
              (fun v => !decide (posOf seq x₀ < posOf seq v))) :=
            fun hc => hjx hc.1
          rw [if_neg hn₁, if_neg hn₂]
          by_cases hkj : k = x₀ ∧ j ∈ K.filter
              (fun v => !decide (posOf seq x₀ < posOf seq v))
          · rw [if_pos hkj, if_pos ⟨hkj.1, by simp [hkj.2]⟩]
          · rw [if_neg hkj]
            by_cases hju : j = u
            · have hgb₁ : alookup (getXf st₁.xs j).goesBefore k =
                  if k = x₀ then some none
                  else alookup (getXf st.xs j).goesBefore k := by
                rw [hju, hvalu]
                by_cases hkx : k = x₀
                · rw [hkx]
                  simp [alookup_assocSet_self]
                · simp [alookup_assocSet_ne _ _ _ _ hkx, hkx]
              rw [hgb₁]
              by_cases hkx : k = x₀
              · rw [if_pos hkx, if_pos ⟨hkx, by simp [hju]⟩]
              · rw [if_neg hkx, if_neg (fun hc => hkx hc.1)]
            · have hgb₁ : alookup (getXf st₁.xs j).goesBefore k =
                  alookup (getXf st.xs j).goesBefore k := by
                rw [hunch₁ j hjx hju]
              rw [hgb₁, if_neg (fun hc => by
                rcases List.mem_cons.mp hc.2 with h | h
                · exact hju h
                · exact hkj ⟨hc.1, h⟩)]
      · -- goesAfter lookups
        intro j k
        rw [hfilter, hga j k]
        by_cases hjx : j = x₀
        · rw [hjx]
          by_cases hkV : k ∈ K.filter
              (fun v => !decide (posOf seq x₀ < posOf seq v))
          · rw [if_pos ⟨rfl, hkV⟩, if_pos ⟨rfl, by simp [hkV]⟩]
          · rw [if_neg (fun hc => hkV hc.2),
              if_neg (fun hc => hxV hc.2)]
            have hga₁ : alookup (getXf st₁.xs x₀).goesAfter k =
                if k = u then some none
                else alookup (getXf st.xs x₀).goesAfter k := by
              rw [hvalx]
              by_cases hku : k = u
              · rw [hku]
                simp [alookup_assocSet_self]
              · simp [alookup_assocSet_ne _ _ _ _ hku, hku]
            rw [hga₁]
            by_cases hku : k = u
            · rw [if_pos hku, if_pos ⟨rfl, by simp [hku]⟩]
            · rw [if_neg hku, if_neg (fun hc => by
                rcases List.mem_cons.mp hc.2 with h | h
                · exact hku h
                · exact hkV h),
                if_neg (fun hc => by
                  rcases List.mem_cons.mp hc.2 with h | h
                  · exact hux h.symm
                  · exact hxV h)]
        · have hn₁ : ¬(j = x₀ ∧ k ∈ K.filter
              (fun v => !decide (posOf seq x₀ < posOf seq v))) :=
            fun hc => hjx hc.1
          have hn₂ : ¬(j = x₀ ∧ k ∈ u :: K.filter
              (fun v => !decide (posOf seq x₀ < posOf seq v))) :=
            fun hc => hjx hc.1
          rw [if_neg hn₁, if_neg hn₂]
          by_cases hkj : k = x₀ ∧ j ∈ K.filter
              (fun v => !decide (posOf seq x₀ < posOf seq v))
          · rw [if_pos hkj, if_pos ⟨hkj.1, by simp [hkj.2]⟩]
          · rw [if_neg hkj]
            by_cases hju : j = u
            · have hga₁ : alookup (getXf st₁.xs j).goesAfter k =
                  if k = x₀ then none
                  else alookup (getXf st.xs j).goesAfter k := by
                rw [hju, hvalu]
                by_cases hkx : k = x₀
                · rw [hkx]
                  simp [alookup_assocDel_self]
                · simp [alookup_assocDel_ne _ _ _ hkx, hkx]
              rw [hga₁]
              by_cases hkx : k = x₀
              · rw [if_pos hkx, if_pos ⟨hkx, by simp [hju]⟩]
              · rw [if_neg hkx, if_neg (fun hc => hkx hc.1)]
            · have hga₁ : alookup (getXf st₁.xs j).goesAfter k =
                  alookup (getXf st.xs j).goesAfter k := by
                rw [hunch₁ j hjx hju]
              rw [hga₁, if_neg (fun hc => by
                rcases List.mem_cons.mp hc.2 with h | h
                · exact hju h
                · exact hkj ⟨hc.1, h⟩)]
      · -- untouched transfers
        intro j hjx hjV
        rw [hfilter] at hjV
        have hju : j ≠ u := fun hc => hjV (by simp [hc])
        have hjV' : j ∉ K.filter
            (fun v => !decide (posOf seq x₀ < posOf seq v)) :=
          fun hc => hjV (by simp [hc])
        rw [hunc j hjx hjV', hunch₁ j hjx hju]
theorem pair_mem_map {a b x : ℕ} {V : List ℕ} :
    (a, b) ∈ V.map (fun u => (x, u)) ↔ a = x ∧ b ∈ V := by
  rw [List.mem_map]
  constructor
  · rintro ⟨u, hu, he⟩
    exact ⟨(congrArg Prod.fst he).symm, (show u = b from congrArg Prod.snd he) ▸ hu⟩
  · rintro ⟨h1, h2⟩
    exact ⟨b, h2, by rw [h1]⟩

theorem mem_violKeys {xs : List Xfer} {seq : List ℕ} {x u : ℕ} :
    u ∈ violKeys xs seq x ↔
      u ∈ keysOf (getXf xs x).goesBefore ∧ ¬ posOf seq x < posOf seq u := by
  unfold violKeys
  rw [List.mem_filter]
  simp

theorem mem_violPairs {xs : List Xfer} {seq : List ℕ} {R : List ℕ} {a b : ℕ} :
    (a, b) ∈ violPairs xs seq R ↔ a ∈ R ∧ b ∈ violKeys xs seq a := by
  unfold violPairs
  rw [List.mem_flatMap]
  constructor
  · rintro ⟨x, hx, hm⟩
    obtain ⟨hax, hbv⟩ := pair_mem_map.mp hm
    exact ⟨hax ▸ hx, hax ▸ hbv⟩
  · rintro ⟨ha, hb⟩
    exact ⟨a, ha, pair_mem_map.mpr ⟨rfl, hb⟩⟩

theorem enumFrom_map_pair (x : ℕ) :
    ∀ (n : ℕ) (V : List ℕ),
    (List.enumFrom n (V.map (fun u => (x, u)))).map
        (fun p => (p.1, p.2.1, p.2.2)) =
      (List.enumFrom n V).map (fun p => (p.1, x, p.2)) := by
  intro n V
  induction V generalizing n with
  | nil => rfl
  | cons u V ih => simp [List.enumFrom_cons, ih]

theorem enumFrom_map_pair_sb (xs : List Xfer) (x j : ℕ) :
    ∀ (n : ℕ) (V : List ℕ),
    ((List.enumFrom n (V.map (fun u => (x, u)))).filter
        (fun p => p.2.2 = j)).map (fun p => (p.1, ovl xs p.2.1 p.2.2)) =
      ((List.enumFrom n V).filter (fun p => p.2 = j)).map
        (fun p => (p.1, ovl xs x p.2)) := by
  intro n V
  induction V generalizing n with
  | nil => rfl
  | cons u V ih =>
    simp only [List.map_cons, List.enumFrom_cons, List.filter_cons]
    by_cases hu : u = j
    · simp [hu, ih]
    · simp [hu, ih]

theorem enumFrom_map_pair_us_self (xs : List Xfer) (x : ℕ) :
    ∀ (n : ℕ) (V : List ℕ),
    ((List.enumFrom n (V.map (fun u => (x, u)))).filter
        (fun p => p.2.1 = x)).map (fun p => (p.1, ovl xs p.2.1 p.2.2)) =
      (List.enumFrom n V).map (fun p => (p.1, ovl xs x p.2)) := by
  intro n V
  induction V generalizing n with
  | nil => rfl
  | cons u V ih =>
    simp only [List.map_cons, List.enumFrom_cons, List.filter_cons]
    simp [ih]

theorem enumFrom_map_pair_us_ne (xs : List Xfer) (x j : ℕ) (hj : j ≠ x) :
    ∀ (n : ℕ) (V : List ℕ),
    ((List.enumFrom n (V.map (fun u => (x, u)))).filter
        (fun p => p.2.1 = j)).map (fun p => (p.1, ovl xs p.2.1 p.2.2)) = [] := by
  intro n V
  induction V generalizing n with
  | nil => rfl
  | cons u V ih =>
    simp only [List.map_cons, List.enumFrom_cons, List.filter_cons]
    simp [show ¬(x = j) from fun hc => hj hc.symm, ih]

theorem revOuter_spec (xs : List Xfer) (seq : List ℕ) (hnd : seq.Nodup)
    (hbs : ∀ x ∈ seq, x < xs.length)
    (hkb : ∀ x : ℕ, ∀ u ∈ keysOf (getXf xs x).goesBefore, u < xs.length)
    (hself : ∀ x : ℕ, x ∉ keysOf (getXf xs x).goesBefore)
    (hovall : ∀ x ∈ seq, ∀ u ∈ keysOf (getXf xs x).goesBefore,
      ¬ posOf seq x < posOf seq u → ovl xs x u ≠ ∅) :
    ∀ (R P : List ℕ) (st : RevSt), seq = P ++ R →
    st.xs.length = xs.length →
    (∀ j, revEq (getXf st.xs j) (getXf xs j)) →
    (∀ j ∈ R, getXf st.xs j = getXf xs j) →
    ∃ st', R.foldlM (fun st xfId =>
        (keysOf (getXf st.xs xfId).goesBefore).foldlM (revPair seq xfId) st) st
      = .ok st' ∧
      st'.ctr = st.ctr + (violPairs xs seq R).length ∧
      st'.log = st.log ++ (List.enumFrom st.ctr (violPairs xs seq R)).map
        (fun p => (p.1, p.2.1, p.2.2)) ∧
      st'.xs.length = xs.length ∧
      (∀ j, revEq (getXf st'.xs j) (getXf xs j)) ∧
      (∀ j, (getXf st'.xs j).stashBefore = (getXf st.xs j).stashBefore ++
        ((List.enumFrom st.ctr (violPairs xs seq R)).filter
          (fun p => p.2.2 = j)).map (fun p => (p.1, ovl xs p.2.1 p.2.2))) ∧
      (∀ j, (getXf st'.xs j).useStash = (getXf st.xs j).useStash ++
        ((List.enumFrom st.ctr (violPairs xs seq R)).filter
          (fun p => p.2.1 = j)).map (fun p => (p.1, ovl xs p.2.1 p.2.2))) ∧
      (∀ j k, alookup (getXf st'.xs j).goesBefore k =
        if (j, k) ∈ violPairs xs seq R then none
        else if (k, j) ∈ violPairs xs seq R then some none
        else alookup (getXf st.xs j).goesBefore k) ∧
      (∀ j k, alookup (getXf st'.xs j).goesAfter k =
        if (j, k) ∈ violPairs xs seq R then some none
        else if (k, j) ∈ violPairs xs seq R then none
        else alookup (getXf st.xs j).goesAfter k) := by
  intro R
  induction R with
  | nil =>
    intro P st _ hlen hrev _
    refine ⟨st, rfl, by simp [violPairs], by simp [violPairs], hlen, hrev,
      fun j => by simp [violPairs], fun j => by simp [violPairs],
      fun j k => by simp [violPairs], fun j k => by simp [violPairs]⟩
  | cons x₀ R' ih =>
    intro P st hPR hlen hrev huntouched
    have hnd' : (P ++ x₀ :: R').Nodup := hPR ▸ hnd
    have hdisj := (List.nodup_append.mp hnd').2.2
    have hx₀P : x₀ ∉ P := fun hc => hdisj hc (by simp)
    have hx₀R' : x₀ ∉ R' := (List.nodup_cons.mp (List.nodup_append.mp hnd').2.1).1
    have hx₀seq : x₀ ∈ seq := by
      rw [hPR]
      exact List.mem_append.mpr (Or.inr (by simp))
    have hpos₀ : posOf seq x₀ = P.length := by
      rw [hPR, posOf_append_right _ hx₀P]
      simp [posOf]
    have hposR' : ∀ v ∈ R', P.length < posOf seq v := by
      intro v hv
      have hvP : v ∉ P := fun hc => hdisj hc (by simp [hv])
      have hvx : x₀ ≠ v := fun hc => hx₀R' (hc ▸ hv)
      rw [hPR, posOf_append_right _ hvP]
      simp only [posOf, if_neg hvx]
      omega
    have hposV : ∀ u ∈ violKeys xs seq x₀, posOf seq u ≤ P.length := by
      intro u hu
      have h := (mem_violKeys.mp hu).2
      rw [hpos₀] at h
      omega
    have hVnotR' : ∀ u ∈ violKeys xs seq x₀, u ∉ R' := by
      intro u hu hc
      have h1 := hposV u hu
      have h2 := hposR' u hc
      omega
    have hsnap : getXf st.xs x₀ = getXf xs x₀ := huntouched x₀ (by simp)
    obtain ⟨st₁, ifold, hictr, hilog, hilen, hirev, hisb, hiusne, hiusx,
        higb, higa, hiunc⟩ :=
      revInner_spec xs seq x₀ (hbs x₀ hx₀seq)
        (keysOf (getXf xs x₀).goesBefore) st hlen hrev (hkb x₀)
        (fun u hu hc => hself x₀ (hc ▸ hu))
        (fun u hu ho => hovall x₀ hx₀seq u hu ho)
    have hVK : (keysOf (getXf xs x₀).goesBefore).filter
        (fun u => !decide (posOf seq x₀ < posOf seq u)) = violKeys xs seq x₀ :=
      rfl
    rw [hVK] at hictr hilog hisb hiusx higb higa hiunc
    have huntouched₁ : ∀ j ∈ R', getXf st₁.xs j = getXf xs j := by
      intro j hj
      have hjx : j ≠ x₀ := fun hc => hx₀R' (hc ▸ hj)
      rw [hiunc j hjx (fun hc => hVnotR' j hc hj)]
      exact huntouched j (by simp [hj])
    obtain ⟨st', rfold, rctr, rlog, rlen, rrev, rsb, rus, rgb, rga⟩ :=
      ih (P ++ [x₀]) st₁ (by rw [hPR]; simp) hilen hirev huntouched₁
    have hVP : violPairs xs seq (x₀ :: R') =
        (violKeys xs seq x₀).map (fun u => (x₀, u)) ++ violPairs xs seq R' := by
      simp [violPairs]
    have hstep : ((keysOf (getXf st.xs x₀).goesBefore).foldlM
        (revPair seq x₀) st) = .ok st₁ := by
      rw [hsnap]
      exact ifold
    refine ⟨st', ?_, ?_, ?_, rlen, rrev, ?_, ?_, ?_, ?_⟩
    · rw [List.foldlM_cons, hstep]
      exact rfold
    · rw [rctr, hictr, hVP]
      simp [List.length_append, List.length_map]
      omega
    · rw [rlog, hilog, hictr, hVP, List.enumFrom_append, List.map_append,
        List.length_map, enumFrom_map_pair]
      simp [List.append_assoc]
    · intro j
      rw [rsb j, hisb j, hictr, hVP, List.enumFrom_append, List.filter_append,
        List.map_append, List.length_map, enumFrom_map_pair_sb]
      simp [List.append_assoc]
    · intro j
      by_cases hjx : j = x₀
      · rw [hjx, rus x₀, hiusx, hictr, hVP, List.enumFrom_append,
          List.filter_append, List.map_append, List.length_map,
          enumFrom_map_pair_us_self]
        simp [List.append_assoc]
      · rw [rus j, hiusne j hjx, hictr, hVP, List.enumFrom_append,
          List.filter_append, List.map_append, List.length_map,
          enumFrom_map_pair_us_ne xs x₀ j hjx]
        simp
    · intro j k
      rw [rgb j k, hVP]
      by_cases h1 : (j, k) ∈ violPairs xs seq R'
      · rw [if_pos h1, if_pos (List.mem_append.mpr (Or.inr h1))]
      · rw [if_neg h1]
        by_cases h2 : (k, j) ∈ violPairs xs seq R'
        · rw [if_pos h2]
          have hkR' := (mem_violPairs.mp h2).1
          have hnA : (j, k) ∉ (violKeys xs seq x₀).map (fun u => (x₀, u)) := by
            intro hc
            have hk := (pair_mem_map.mp hc).2
            have h3 := hposV k hk
            have h4 := hposR' k hkR'
            omega
          rw [if_neg (fun hc => (List.mem_append.mp hc).elim
              (fun h => hnA h) h1),
            if_pos (List.mem_append.mpr (Or.inr h2))]
        · rw [if_neg h2, higb j k]
          by_cases hA1 : j = x₀ ∧ k ∈ violKeys xs seq x₀
          · rw [if_pos hA1,
              if_pos (List.mem_append.mpr
                (Or.inl (pair_mem_map.mpr ⟨hA1.1, hA1.2⟩)))]
          · rw [if_neg hA1]
            by_cases hA2 : k = x₀ ∧ j ∈ violKeys xs seq x₀
            · rw [if_pos hA2,
                if_neg (fun hc => (List.mem_append.mp hc).elim
                  (fun h => hA1 ⟨(pair_mem_map.mp h).1, (pair_mem_map.mp h).2⟩)
                  h1),
                if_pos (List.mem_append.mpr
                  (Or.inl (pair_mem_map.mpr ⟨hA2.1, hA2.2⟩)))]
            · rw [if_neg hA2,
                if_neg (fun hc => (List.mem_append.mp hc).elim
                  (fun h => hA1 ⟨(pair_mem_map.mp h).1, (pair_mem_map.mp h).2⟩)
                  h1),
                if_neg (fun hc => (List.mem_append.mp hc).elim
                  (fun h => hA2 ⟨(pair_mem_map.mp h).1, (pair_mem_map.mp h).2⟩)
                  h2)]
    · intro j k
      rw [rga j k, hVP]
      by_cases h1 : (j, k) ∈ violPairs xs seq R'
      · rw [if_pos h1, if_pos (List.mem_append.mpr (Or.inr h1))]
      · rw [if_neg h1]
        by_cases h2 : (k, j) ∈ violPairs xs seq R'
        · rw [if_pos h2]
          have hkR' := (mem_violPairs.mp h2).1
          have hnA : (j, k) ∉ (violKeys xs seq x₀).map (fun u => (x₀, u)) := by
            intro hc
            have hk := (pair_mem_map.mp hc).2
            have h3 := hposV k hk
            have h4 := hposR' k hkR'
            omega
          rw [if_neg (fun hc => (List.mem_append.mp hc).elim
              (fun h => hnA h) h1),
            if_pos (List.mem_append.mpr (Or.inr h2))]
        · rw [if_neg h2, higa j k]
          by_cases hA1 : j = x₀ ∧ k ∈ violKeys xs seq x₀
          · rw [if_pos hA1,
              if_pos (List.mem_append.mpr
                (Or.inl (pair_mem_map.mpr ⟨hA1.1, hA1.2⟩)))]
          · rw [if_neg hA1]
            by_cases hA2 : k = x₀ ∧ j ∈ violKeys xs seq x₀
            · rw [if_pos hA2,
                if_neg (fun hc => (List.mem_append.mp hc).elim
                  (fun h => hA1 ⟨(pair_mem_map.mp h).1, (pair_mem_map.mp h).2⟩)
                  h1),
                if_pos (List.mem_append.mpr
                  (Or.inl (pair_mem_map.mpr ⟨hA2.1, hA2.2⟩)))]
            · rw [if_neg hA2,
                if_neg (fun hc => (List.mem_append.mp hc).elim
                  (fun h => hA1 ⟨(pair_mem_map.mp h).1, (pair_mem_map.mp h).2⟩)
                  h1),
                if_neg (fun hc => (List.mem_append.mp hc).elim
                  (fun h => hA2 ⟨(pair_mem_map.mp h).1, (pair_mem_map.mp h).2⟩)
                  h2)]

theorem enumFrom_map_fst {α : Type} :
    ∀ (n : ℕ) (V : List α),
    (List.enumFrom n V).map (fun p => p.1) = List.range' n V.length := by
  intro n V
  induction V generalizing n with
  | nil => rfl
  | cons b V ih => simp [List.enumFrom_cons, List.range'_succ, ih]

theorem enumFrom_snd_mem {α : Type} :
    ∀ {n : ℕ} {V : List α} {p : ℕ × α}, p ∈ List.enumFrom n V → p.2 ∈ V := by
  intro n V
  induction V generalizing n with
  | nil => intro p hp; simp [List.enumFrom] at hp
  | cons b V ih =>
    intro p hp
    rw [List.enumFrom_cons] at hp
    rcases List.mem_cons.mp hp with h | h
    · rw [h]
      simp
    · exact List.mem_cons.mpr (Or.inr (ih h))

theorem mem_enumFrom_of_mem {α : Type} {b : α} :
    ∀ {V : List α}, b ∈ V → ∀ (n : ℕ), ∃ i, (i, b) ∈ List.enumFrom n V := by
  intro V
  induction V with
  | nil => intro h; simp at h
  | cons c V ih =>
    intro hb n
    rcases List.mem_cons.mp hb with h | h
    · exact ⟨n, by rw [List.enumFrom_cons, h]; simp⟩
    · obtain ⟨i, hi⟩ := ih h (n + 1)
      exact ⟨i, by rw [List.enumFrom_cons]; exact List.mem_cons.mpr (Or.inr hi)⟩

/-- Claim C5: for every transfer `xf` of the sequence and every successor
`u` that `xf` originally demanded to precede (`u` a key of
`xf.goes_before` when the pass reaches `xf`, which is its post-digraph
content), `ReverseBackwardEdges` leaves the in-order pairs
(`xf.order < u.order`) unstashed with the edge still present, and for each
violated pair computes `overlap = xf.src_ranges ∩ u.tgt_ranges` (asserted
non-empty by hypothesis `hovall`), appends `(sid, overlap)` with the same
freshly issued `sid` to both `u.stash_before` and `xf.use_stash`, removes
the edge from `xf.goes_before` and `u.goes_after` and inserts it into
`xf.goes_after` and `u.goes_before`; the stash ids issued during the pass
are exactly `0, 1, 2, …` in issue order, hence strictly increasing.
`order` is a transfer's position in `seq`, modelled by `posOf`. -/
theorem C5_reverseBackwardEdges (xs : List Xfer) (seq : List ℕ)
    (hnd : seq.Nodup)
    (hbs : ∀ x ∈ seq, x < xs.length)
    (hkb : ∀ x : ℕ, ∀ u ∈ keysOf (getXf xs x).goesBefore, u < xs.length)
    (hself : ∀ x : ℕ, x ∉ keysOf (getXf xs x).goesBefore)
    (hovall : ∀ x ∈ seq, ∀ u ∈ keysOf (getXf xs x).goesBefore,
      ¬ posOf seq x < posOf seq u → ovl xs x u ≠ ∅) :
    ∃ st, reverseBackwardEdges xs seq = .ok st ∧
      st.log.map (fun p => p.1) = List.range st.log.length ∧
      (∀ x ∈ seq, ∀ u ∈ keysOf (getXf xs x).goesBefore,
        (posOf seq x < posOf seq u →
          (∀ sid, (sid, x, u) ∉ st.log) ∧
          (alookup (getXf st.xs x).goesBefore u).isSome) ∧
        (¬ posOf seq x < posOf seq u →
          ∃ sid, (sid, x, u) ∈ st.log ∧
            (sid, ovl xs x u) ∈ (getXf st.xs u).stashBefore ∧
            (sid, ovl xs x u) ∈ (getXf st.xs x).useStash ∧
            alookup (getXf st.xs x).goesBefore u = none ∧
            alookup (getXf st.xs u).goesAfter x = none ∧
            alookup (getXf st.xs x).goesAfter u = some none ∧
            alookup (getXf st.xs u).goesBefore x = some none)) := by
  obtain ⟨st, hfold, hctr, hlog, hlen', hrev', hsb, hus, hgb, hga⟩ :=
    revOuter_spec xs seq hnd hbs hkb hself hovall seq []
      { xs := xs, ctr := 0, log := [] } rfl rfl
      (fun j => revEq_refl _) (fun j _ => rfl)
  have hlog' : st.log = (List.enumFrom 0 (violPairs xs seq seq)).map
      (fun p => (p.1, p.2.1, p.2.2)) := by
    rw [hlog]
    rfl
  refine ⟨st, hfold, ?_, ?_⟩
  · rw [hlog', List.map_map, List.length_map, List.enumFrom_length,
      List.range_eq_range']
    have : ((fun q : ℕ × ℕ × ℕ => q.1) ∘ fun p : ℕ × ℕ × ℕ =>
        (p.1, p.2.1, p.2.2)) = fun p : ℕ × ℕ × ℕ => p.1 := rfl
    rw [this, enumFrom_map_fst]
  · intro x hx u hu
    constructor
    · intro h
      have hnotV : (x, u) ∉ violPairs xs seq seq := by
        intro hc
        exact absurd h (mem_violKeys.mp (mem_violPairs.mp hc).2).2
      refine ⟨?_, ?_⟩
      · intro sid hmem
        rw [hlog'] at hmem
        obtain ⟨p, hp, he⟩ := List.mem_map.mp hmem
        have h1 : p.2.1 = x := congrArg (fun t : ℕ × ℕ × ℕ => t.2.1) he
        have h2 : p.2.2 = u := congrArg (fun t : ℕ × ℕ × ℕ => t.2.2) he
        have hmem2 : (x, u) ∈ violPairs xs seq seq := by
          have := enumFrom_snd_mem hp
          rwa [show p.2 = (x, u) from Prod.ext h1 h2] at this
        exact hnotV hmem2
      · rw [hgb x u, if_neg hnotV]
        by_cases h2 : (u, x) ∈ violPairs xs seq seq
        · rw [if_pos h2]
          rfl
        · rw [if_neg h2]
          exact (mem_keysOf_iff_alookup _ _).mp hu
    · intro h
      have hmemV : (x, u) ∈ violPairs xs seq seq :=
        mem_violPairs.mpr ⟨hx, mem_violKeys.mpr ⟨hu, h⟩⟩
      have hnotux : (u, x) ∉ violPairs xs seq seq := by
        intro hc
        obtain ⟨huseq, hxk⟩ := mem_violPairs.mp hc
        have h2 := (mem_violKeys.mp hxk).2
        have hpe : posOf seq x = posOf seq u := by omega
        have hxu : x = u := posOf_inj hx huseq hpe
        exact hself x (hxu ▸ hu)
      obtain ⟨sid, hsidmem⟩ := mem_enumFrom_of_mem hmemV 0
      refine ⟨sid, ?_, ?_, ?_, ?_, ?_, ?_, ?_⟩
      · rw [hlog']
        exact List.mem_map.mpr ⟨(sid, (x, u)), hsidmem, rfl⟩
      · rw [hsb u]
        refine List.mem_append.mpr (Or.inr ?_)
        exact List.mem_map.mpr ⟨(sid, (x, u)),
          List.mem_filter.mpr ⟨hsidmem, by simp⟩, rfl⟩
      · rw [hus x]
        refine List.mem_append.mpr (Or.inr ?_)
        exact List.mem_map.mpr ⟨(sid, (x, u)),
          List.mem_filter.mpr ⟨hsidmem, by simp⟩, rfl⟩
      · rw [hgb x u, if_pos hmemV]
      · rw [hga u x, if_neg hnotux, if_pos hmemV]
      · rw [hga x u, if_pos hmemV]
      · rw [hgb u x, if_neg hnotux, if_pos hmemV]

/-- Claim C5, witness: with the mutual pair `xfRevA`, `xfRevB` and order
`[0, 1]`, the edge `0 -> 1` is kept while the violated edge `1 -> 0` is
stashed (overlap `{0}`, one shared stash id) and reversed. -/
theorem C5_reverseBackwardEdges_witness :
    ∃ st, reverseBackwardEdges [xfRevA, xfRevB] [0, 1] = .ok st ∧
      (∃ sid, (sid, ovl [xfRevA, xfRevB] 1 0) ∈ (getXf st.xs 0).stashBefore ∧
        (sid, ovl [xfRevA, xfRevB] 1 0) ∈ (getXf st.xs 1).useStash) ∧
      alookup (getXf st.xs 1).goesBefore 0 = none ∧
      alookup (getXf st.xs 0).goesBefore 1 = some none := by
  obtain ⟨st, hok, hids, hpairs⟩ :=
    C5_reverseBackwardEdges [xfRevA, xfRevB] [0, 1] (by decide) (by decide)
      (fun x => match x with
        | 0 => by decide
        | 1 => by decide
        | n + 2 => fun u hu => nomatch hu)
      (fun x => match x with
        | 0 => by decide
        | 1 => by decide
        | n + 2 => fun hu => nomatch hu)
      (by decide)
  obtain ⟨sid, hlogm, hsbm, husm, hgbn, hgan, hgas, hgbs⟩ :=
    (hpairs 1 (by decide) 0 (by decide)).2 (by decide)
  exact ⟨st, hok, ⟨sid, hsbm, husm⟩, hgbn, hgbs⟩

theorem foldlM_ok_cons {ε α β : Type} {f : β → α → Except ε β} {a : α}
    {l : List α} {b : β} {c : β}
    (h : (a :: l).foldlM f b = .ok c) :
    ∃ b', f b a = .ok b' ∧ l.foldlM f b' = .ok c := by
  rw [List.foldlM_cons] at h
  cases hfa : f b a with
  | error e =>
    rw [hfa] at h
    exact absurd h (by simp [exceptBindError])
  | ok b' =>
    rw [hfa] at h
    exact ⟨b', rfl, h⟩

theorem mem_foldl_sdiff {l : List (ℕ × RSet)} {s : RSet} {b : ℕ} :
    b ∈ l.foldl (fun r p => r \ p.2) s ↔ b ∈ s ∧ ∀ p ∈ l, b ∉ p.2 := by
  induction l generalizing s with
  | nil => simp
  | cons q l ih =>
    rw [List.foldl_cons, ih]
    constructor
    · rintro ⟨hb, hall⟩
      have := Finset.mem_sdiff.mp hb
      refine ⟨this.1, ?_⟩
      intro p hp
      rcases List.mem_cons.mp hp with h | h
      · rw [h]
        exact this.2
      · exact hall p h
    · rintro ⟨hb, hall⟩
      refine ⟨Finset.mem_sdiff.mpr ⟨hb, hall q (by simp)⟩, ?_⟩
      intro p hp
      exact hall p (by simp [hp])

theorem mem_unstashedSrc {xf : Xfer} {b : ℕ} :
    b ∈ unstashedSrc xf ↔ b ∈ xf.src ∧ ∀ p ∈ xf.useStash, b ∉ p.2 :=
  mem_foldl_sdiff

theorem asgStep_ok (version total : ℕ) (xs : List Xfer) (t : RSet) (x : ℕ)
    (hsrc : ∀ i ∈ (if 2 ≤ version then unstashedSrc (getXf xs x)
      else (getXf xs x).src), i < total → i ∉ t)
    (htgt : ∀ i ∈ (getXf xs x).tgt, i ∉ t) :
    asgStep version total xs (some t) x = some (t ∪ (getXf xs x).tgt) := by
  unfold asgStep
  simp only [Option.bind_eq_bind, Option.some_bind]
  rw [if_pos hsrc, if_pos htgt]

theorem posOf_cons_ne {l : List ℕ} {x y : ℕ} (h : x ≠ y) :
    posOf (x :: l) y = posOf l y + 1 := by
  simp [posOf, h]

theorem asg_of_safety (version total : ℕ) (xs : List Xfer) :
    ∀ (seq : List ℕ) (t : RSet),
    (∀ x ∈ seq, ∀ i ∈ (if 2 ≤ version then unstashedSrc (getXf xs x)
      else (getXf xs x).src), i < total → i ∉ t ∧
        ∀ w ∈ seq, posOf seq w < posOf seq x → i ∉ (getXf xs w).tgt) →
    (∀ x ∈ seq, ∀ i ∈ (getXf xs x).tgt, i ∉ t ∧
        ∀ w ∈ seq, w ≠ x → i ∉ (getXf xs w).tgt) →
    seq.Nodup →
    ∃ T, seq.foldl (asgStep version total xs) (some t) = some T ∧
      (∀ b, b ∈ T ↔ b ∈ t ∨ ∃ x ∈ seq, b ∈ (getXf xs x).tgt) := by
  intro seq
  induction seq with
  | nil =>
    intro t _ _ _
    exact ⟨t, rfl, fun b => by simp⟩
  | cons x seq ih =>
    intro t hsrc htgt hnd
    have hndx : x ∉ seq := (List.nodup_cons.mp hnd).1
    have hstep : asgStep version total xs (some t) x =
        some (t ∪ (getXf xs x).tgt) := by
      refine asgStep_ok version total xs t x ?_ ?_
      · intro i hi hit
        exact ((hsrc x (by simp) i hi) hit).1
      · intro i hi
        exact (htgt x (by simp) i hi).1
    have hsrc' : ∀ x' ∈ seq, ∀ i ∈ (if 2 ≤ version
        then unstashedSrc (getXf xs x') else (getXf xs x').src),
        i < total → i ∉ t ∪ (getXf xs x).tgt ∧
        ∀ w ∈ seq, posOf seq w < posOf seq x' → i ∉ (getXf xs w).tgt := by
      intro x' hx' i hi hit
      have hxx' : x ≠ x' := fun hc => hndx (hc ▸ hx')
      obtain ⟨h1, h2⟩ := hsrc x' (by simp [hx']) i hi hit
      have hx : i ∉ (getXf xs x).tgt := by
        refine h2 x (by simp) ?_
        rw [posOf_cons_ne hxx']
        simp [posOf]
      refine ⟨fun hc => (Finset.mem_union.mp hc).elim h1 hx, ?_⟩
      intro w hw hpos
      have hxw : x ≠ w := fun hc => hndx (hc ▸ hw)
      refine h2 w (by simp [hw]) ?_
      rw [posOf_cons_ne hxw, posOf_cons_ne hxx']
      omega
    have htgt' : ∀ x' ∈ seq, ∀ i ∈ (getXf xs x').tgt,
        i ∉ t ∪ (getXf xs x).tgt ∧
        ∀ w ∈ seq, w ≠ x' → i ∉ (getXf xs w).tgt := by
      intro x' hx' i hi
      have hxx' : x ≠ x' := fun hc => hndx (hc ▸ hx')
      obtain ⟨h1, h2⟩ := htgt x' (by simp [hx']) i hi
      have hx : i ∉ (getXf xs x).tgt := h2 x (by simp) hxx'
      refine ⟨fun hc => (Finset.mem_union.mp hc).elim h1 hx, ?_⟩
      intro w hw hwx'
      exact h2 w (by simp [hw]) hwx'
    obtain ⟨T, hT, hmem⟩ := ih (t ∪ (getXf xs x).tgt) hsrc' htgt'
      (List.nodup_cons.mp hnd).2
    refine ⟨T, ?_, ?_⟩
    · rw [List.foldl_cons, hstep]
      exact hT
    · intro b
      rw [hmem b]
      constructor
      · rintro (hb | ⟨x', hx', hb⟩)
        · rcases Finset.mem_union.mp hb with h | h
          · exact Or.inl h
          · exact Or.inr ⟨x, by simp, h⟩
        · exact Or.inr ⟨x', by simp [hx'], hb⟩
      · rintro (hb | ⟨x', hx', hb⟩)
        · exact Or.inl (Finset.mem_union.mpr (Or.inl hb))
        · rcases List.mem_cons.mp hx' with h | h
          · exact Or.inl (Finset.mem_union.mpr (Or.inr (h ▸ hb)))
          · exact Or.inr ⟨x', h, hb⟩
theorem foldlM_ok_ind {ε α β : Type} {f : β → α → Except ε β} {P : β → Prop}
    (hstep : ∀ b a b', P b → f b a = .ok b' → P b') :
    ∀ (l : List α) (b c : β), P b → l.foldlM f b = .ok c → P c := by
  intro l
  induction l with
  | nil =>
    intro b c hP hok
    cases hok
    exact hP
  | cons a l ih =>
    intro b c hP hok
    obtain ⟨b', hstep', hrest⟩ := foldlM_ok_cons hok
    exact ih b' c (hstep b a b' hP hstep') hrest

theorem reviseInv_refl (xs₀ : List Xfer) : reviseInv xs₀ xs₀ :=
  ⟨rfl, fun j => ⟨rfl, Or.inl ⟨rfl, rfl⟩⟩⟩

theorem reviseInv_updAt_keep {xs₀ cur : List Xfer} (h : reviseInv xs₀ cur)
    (i : ℕ) (f : Xfer → Xfer)
    (hf : ∀ x, (f x).tgt = x.tgt ∧ (f x).src = x.src ∧
      (f x).useStash = x.useStash) :
    reviseInv xs₀ (updAt cur i f) := by
  by_cases hi : i < cur.length
  · refine ⟨(length_updAt _ _ _).trans h.1, ?_⟩
    intro j
    by_cases hj : j = i
    · rw [hj, getXf_updAt_self _ _ _ hi]
      obtain ⟨h1, h2⟩ := h.2 i
      exact ⟨(hf _).1.trans h1, h2.elim
        (fun hh => Or.inl ⟨(hf _).2.1.trans hh.1, (hf _).2.2.trans hh.2⟩)
        (fun hh => Or.inr ⟨(hf _).2.1.trans hh.1, (hf _).2.2.trans hh.2⟩)⟩
    · rw [getXf_updAt_ne _ _ _ _ hj]
      exact h.2 j
  · rw [updAt_out _ _ _ (by omega)]
    exact h

theorem reviseInv_updAt_clear {xs₀ cur : List Xfer} (h : reviseInv xs₀ cur)
    (i : ℕ) (c : Xfer) (htgt : c.tgt = (getXf cur i).tgt)
    (hsrc : c.src = ∅) (hus : c.useStash = []) :
    reviseInv xs₀ (updAt cur i (fun _ => c)) := by
  by_cases hi : i < cur.length
  · refine ⟨(length_updAt _ _ _).trans h.1, ?_⟩
    intro j
    by_cases hj : j = i
    · rw [hj, getXf_updAt_self _ _ _ hi]
      exact ⟨htgt.trans (h.2 i).1, Or.inr ⟨hsrc, hus⟩⟩
    · rw [getXf_updAt_ne _ _ _ _ hj]
      exact h.2 j
  · rw [updAt_out _ _ _ (by omega)]
    exact h

theorem convertToNew_ok {x c : Xfer} (h : convertToNew x = .ok c) :
    c.tgt = x.tgt ∧ c.src = ∅ ∧ c.useStash = [] := by
  unfold convertToNew at h
  by_cases hs : x.style = "new"
  · rw [if_pos hs] at h
    cases h
  · rw [if_neg hs] at h
    cases h
    exact ⟨rfl, rfl, rfl⟩

theorem bindOk {ε α β : Type} {x : Except ε α} {f : α → Except ε β} {c : β}
    (h : x >>= f = .ok c) : ∃ a, x = .ok a ∧ f a = .ok c := by
  cases x with
  | error e =>
    rw [exceptBindError] at h
    cases h
  | ok a => exact ⟨a, rfl, h⟩

theorem reviseRepFold_shape {stashMap : List (ℕ × StashInfo)}
    {xs₀ : List Xfer} :
    ∀ (rep : List ℕ) (b c : List Xfer × ℕ),
    reviseInv xs₀ b.1 →
    rep.foldlM (fun (acc : List Xfer × ℕ) cmdId => do
        let xs ← (getXf acc.1 cmdId).useStash.foldlM
          (fun xs (p : ℕ × RSet) => do
            match alookup stashMap p.1 with
            | none => throw PyErr.keyError
            | some info =>
              if p ∈ (getXf xs info.defCmd).stashBefore then
                pure (updAt xs info.defCmd
                  (fun d => { d with
                    stashBefore := (eraseFirst d.stashBefore p) }))
              else throw PyErr.assertionError)
          acc.1
        let cmd' ← convertToNew (getXf xs cmdId)
        pure (updAt xs cmdId (fun _ => cmd'),
          acc.2 + rsSize (getXf xs cmdId).tgt))
      b = .ok c → reviseInv xs₀ c.1 := by
  intro rep b c hinv hok
  refine foldlM_ok_ind (P := fun (acc : List Xfer × ℕ) =>
    reviseInv xs₀ acc.1) ?_ rep b c hinv hok
  intro b a b' hP hstep
  obtain ⟨bxs1, h4, hstep⟩ := bindOk hstep
  obtain ⟨cmd', h5, hstep⟩ := bindOk hstep
  cases hstep
  have hP1 : reviseInv xs₀ bxs1 := by
    refine foldlM_ok_ind (P := fun cur => reviseInv xs₀ cur) ?_
      (getXf b.1 a).useStash b.1 bxs1 hP h4
    intro c p c' hPc hstepc
    split at hstepc
    · cases hstepc
    · split at hstepc
      · cases hstepc
        exact reviseInv_updAt_keep hPc _ _ (fun x => ⟨rfl, rfl, rfl⟩)
      · cases hstepc
  obtain ⟨ht, hs, hu⟩ := convertToNew_ok h5
  exact reviseInv_updAt_clear hP1 a cmd' ht hs hu

theorem reviseStep_shape {version cache : ℕ} {thr : ℚ}
    {stashMap : List (ℕ × StashInfo)} {xs₀ : List Xfer}
    {st st' : List Xfer × ℤ × ℕ} {xfId : ℕ}
    (hok : reviseStep version cache thr stashMap st xfId = .ok st')
    (hinv : reviseInv xs₀ st.1) : reviseInv xs₀ st'.1 := by
  unfold reviseStep at hok
  obtain ⟨pr1, h1, hok⟩ := bindOk hok
  obtain ⟨rep, h2, hok⟩ := bindOk hok
  obtain ⟨pr2, h3, hok⟩ := bindOk hok
  cases hok
  exact reviseRepFold_shape _ _ _ hinv h3
theorem reviseStashSize_shape {version cache : ℕ} {thr : ℚ}
    {xs xs'' : List Xfer} {seq : List ℕ}
    (hok : reviseStashSize version cache thr xs seq = .ok xs'') :
    reviseInv xs xs'' := by
  unfold reviseStashSize at hok
  obtain ⟨stashMap, h1, hok⟩ := bindOk hok
  obtain ⟨tr, h2, hok⟩ := bindOk hok
  obtain ⟨xs2, sb2, nb2⟩ := tr
  cases hok
  exact foldlM_ok_ind (P := fun (st : List Xfer × ℤ × ℕ) =>
      reviseInv xs st.1)
    (fun b a b' hP hs => reviseStep_shape hs hP) seq (xs, (0 : ℤ), 0)
    _ (reviseInv_refl xs) h2
theorem getXf_out {cur : List Xfer} {i : ℕ} (h : cur.length ≤ i) :
    getXf cur i = default := by
  unfold getXf
  exact List.getD_eq_default _ _ h

theorem removeInner_shape (seq : List ℕ) (x₀ : ℕ) :
    ∀ (K : List ℕ) (cur cur₁ : List Xfer),
    K.foldlM (fun xs uId =>
      if posOf seq x₀ < posOf seq uId then pure xs
      else
        if (getXf xs x₀).src ∩ (getXf xs uId).tgt = ∅ then
          (throw PyErr.assertionError : Except PyErr (List Xfer))
        else
          pure (updAt xs x₀
            (fun x => { x with src := (x.src \ (getXf xs uId).tgt), intact := false })))
      cur = Except.ok cur₁ →
    cur₁.length = cur.length ∧
    (∀ j, (getXf cur₁ j).tgt = (getXf cur j).tgt ∧
      (getXf cur₁ j).useStash = (getXf cur j).useStash ∧
      (getXf cur₁ j).goesBefore = (getXf cur j).goesBefore ∧
      (getXf cur₁ j).src ⊆ (getXf cur j).src) ∧
    (∀ j, j ≠ x₀ → getXf cur₁ j = getXf cur j) ∧
    (∀ u ∈ K, ¬ posOf seq x₀ < posOf seq u →
      (getXf cur₁ x₀).src ∩ (getXf cur u).tgt = ∅) := by
  intro K
  induction K with
  | nil =>
    intro cur cur₁ hok
    cases hok
    exact ⟨rfl, fun j => ⟨rfl, rfl, rfl, fun b hb => hb⟩, fun j _ => rfl,
      fun u hu => absurd hu (by simp)⟩
  | cons u K ih =>
    intro cur cur₁ hok
    obtain ⟨c1, hstep, hrest⟩ := foldlM_ok_cons hok
    by_cases hord : posOf seq x₀ < posOf seq u
    · rw [if_pos hord] at hstep
      cases hstep
      obtain ⟨ilen, ifld, iunch, ifacts⟩ := ih cur cur₁ hrest
      refine ⟨ilen, ifld, iunch, ?_⟩
      intro v hv hvord
      rcases List.mem_cons.mp hv with h | h
      · exact absurd hord (h ▸ hvord)
      · exact ifacts v h hvord
    · rw [if_neg hord] at hstep
      by_cases hemp : (getXf cur x₀).src ∩ (getXf cur u).tgt = ∅
      · rw [if_pos hemp] at hstep
        cases hstep
      · rw [if_neg hemp] at hstep
        cases hstep
        have hx₀ : x₀ < cur.length := by
          by_contra hge
          apply hemp
          rw [getXf_out (by omega)]
          show (∅ : RSet) ∩ _ = ∅
          simp
        obtain ⟨ilen, ifld, iunch, ifacts⟩ := ih _ cur₁ hrest
        have hupd : getXf (updAt cur x₀
            (fun x => { x with src := (x.src \ (getXf cur u).tgt), intact := false })) x₀ =
            { getXf cur x₀ with
              src := ((getXf cur x₀).src \ (getXf cur u).tgt),
              intact := false } :=
          getXf_updAt_self _ _ _ hx₀
        have hfld : ∀ j, (getXf cur₁ j).tgt = (getXf cur j).tgt ∧
            (getXf cur₁ j).useStash = (getXf cur j).useStash ∧
            (getXf cur₁ j).goesBefore = (getXf cur j).goesBefore ∧
            (getXf cur₁ j).src ⊆ (getXf cur j).src := by
          intro j
          obtain ⟨f1, f2, f3, f4⟩ := ifld j
          by_cases hj : j = x₀
          · subst hj
            rw [hupd] at f1 f2 f3 f4
            refine ⟨f1, f2, f3, ?_⟩
            intro b hb
            exact (Finset.mem_sdiff.mp (f4 hb)).1
          · rw [getXf_updAt_ne _ _ _ _ hj] at f1 f2 f3 f4
            exact ⟨f1, f2, f3, f4⟩
        refine ⟨ilen.trans (length_updAt _ _ _), hfld, ?_, ?_⟩
        · intro j hj
          rw [iunch j hj, getXf_updAt_ne _ _ _ _ hj]
        · intro v hv hvord
          rcases List.mem_cons.mp hv with h | h
          · subst h
            obtain ⟨-, -, -, f4⟩ := ifld x₀
            rw [hupd] at f4
            rw [Finset.eq_empty_iff_forall_not_mem]
            intro b hb
            obtain ⟨hb1, hb2⟩ := Finset.mem_inter.mp hb
            exact (Finset.mem_sdiff.mp (f4 hb1)).2 hb2
          · have := ifacts v h hvord
            rwa [(show (getXf (updAt cur x₀
                (fun x => { x with src := (x.src \ (getXf cur u).tgt), intact := false })) v).tgt = (getXf cur v).tgt by
              by_cases hv' : v = x₀
              · subst hv'
                rw [hupd]
              · rw [getXf_updAt_ne _ _ _ _ hv'])] at this

theorem removeXfer_shape {seq : List ℕ} {cur cur₁ : List Xfer} {x₀ : ℕ}
    (hok : removeXfer seq cur x₀ = .ok cur₁) :
    cur₁.length = cur.length ∧
    (∀ j, (getXf cur₁ j).tgt = (getXf cur j).tgt ∧
      (getXf cur₁ j).useStash = (getXf cur j).useStash ∧
      (getXf cur₁ j).goesBefore = (getXf cur j).goesBefore ∧
      (getXf cur₁ j).src ⊆ (getXf cur j).src) ∧
    (∀ j, j ≠ x₀ → getXf cur₁ j = getXf cur j) ∧
    (∀ u ∈ keysOf (getXf cur x₀).goesBefore, ¬ posOf seq x₀ < posOf seq u →
      (getXf cur₁ x₀).src ∩ (getXf cur u).tgt = ∅) := by
  unfold removeXfer at hok
  obtain ⟨xs1, hfold, hok⟩ := bindOk hok
  obtain ⟨ilen, ifld, iunch, ifacts⟩ := removeInner_shape seq x₀ _ cur xs1 hfold
  split at hok
  · cases hok
    by_cases hx₀ : x₀ < xs1.length
    · have hupd := getXf_updAt_self xs1 x₀
        (fun x => { x with style := "new" }) hx₀
      refine ⟨(length_updAt _ _ _).trans ilen, ?_, ?_, ?_⟩
      · intro j
        by_cases hj : j = x₀
        · subst hj
          rw [hupd]
          exact ifld j
        · rw [getXf_updAt_ne _ _ _ _ hj]
          exact ifld j
      · intro j hj
        rw [getXf_updAt_ne _ _ _ _ hj]
        exact iunch j hj
      · intro u hu hord
        rw [hupd]
        exact ifacts u hu hord
    · rw [updAt_out _ _ _ (by omega)]
      exact ⟨ilen, ifld, iunch, ifacts⟩
  · cases hok
    exact ⟨ilen, ifld, iunch, ifacts⟩

theorem removeBE_fold_shape (seq : List ℕ) :
    ∀ (R : List ℕ) (cur xs'' : List Xfer),
    R.Nodup →
    R.foldlM (removeXfer seq) cur = .ok xs'' →
    xs''.length = cur.length ∧
    (∀ j, (getXf xs'' j).tgt = (getXf cur j).tgt ∧
      (getXf xs'' j).useStash = (getXf cur j).useStash ∧
      (getXf xs'' j).goesBefore = (getXf cur j).goesBefore ∧
      (getXf xs'' j).src ⊆ (getXf cur j).src) ∧
    (∀ j, j ∉ R → getXf xs'' j = getXf cur j) ∧
    (∀ x ∈ R, ∀ u ∈ keysOf (getXf cur x).goesBefore,
      ¬ posOf seq x < posOf seq u →
        (getXf xs'' x).src ∩ (getXf cur u).tgt = ∅) := by
  intro R
  induction R with
  | nil =>
    intro cur xs'' _ hok
    cases hok
    exact ⟨rfl, fun j => ⟨rfl, rfl, rfl, fun b hb => hb⟩, fun j _ => rfl,
      fun x hx => absurd hx (by simp)⟩
  | cons x₀ R ih =>
    intro cur xs'' hnd hok
    obtain ⟨cur₁, hstep, hrest⟩ := foldlM_ok_cons hok
    have hx₀R : x₀ ∉ R := (List.nodup_cons.mp hnd).1
    obtain ⟨slen, sfld, sunch, sfacts⟩ := removeXfer_shape hstep
    obtain ⟨rlen, rfld, runch, rfacts⟩ := ih cur₁ xs'' (List.nodup_cons.mp hnd).2
      hrest
    refine ⟨rlen.trans slen, ?_, ?_, ?_⟩
    · intro j
      obtain ⟨r1, r2, r3, r4⟩ := rfld j
      obtain ⟨s1, s2, s3, s4⟩ := sfld j
      exact ⟨r1.trans s1, r2.trans s2, r3.trans s3,
        fun b hb => s4 (r4 hb)⟩
    · intro j hj
      rw [runch j (fun hc => hj (by simp [hc])),
        sunch j (fun hc => hj (by simp [hc]))]
    · intro x hx u hu hord
      rcases List.mem_cons.mp hx with h | h
      · subst h
        have hxu : getXf xs'' x = getXf cur₁ x := runch x hx₀R
        rw [hxu]
        exact sfacts u hu hord
      · have hku : u ∈ keysOf (getXf cur₁ x).goesBefore := by
          rwa [(sfld x).2.2.1]
        have := rfacts x h u hku hord
        rwa [(sfld u).1] at this

theorem removeBE_shape {seq : List ℕ} {xs xs'' : List Xfer}
    (hnd : seq.Nodup)
    (hok : removeBackwardEdges xs seq = .ok xs'') :
    xs''.length = xs.length ∧
    (∀ j, (getXf xs'' j).tgt = (getXf xs j).tgt ∧
      (getXf xs'' j).useStash = (getXf xs j).useStash ∧
      (getXf xs'' j).goesBefore = (getXf xs j).goesBefore ∧
      (getXf xs'' j).src ⊆ (getXf xs j).src) ∧
    (∀ x ∈ seq, ∀ u ∈ keysOf (getXf xs x).goesBefore,
      ¬ posOf seq x < posOf seq u →
        (getXf xs'' x).src ∩ (getXf xs u).tgt = ∅) := by
  obtain ⟨a, b, c, d⟩ := removeBE_fold_shape seq seq xs xs'' hnd hok
  exact ⟨a, b, d⟩

theorem pickMin_mem {key : ℕ → ℤ × ℕ} :
    ∀ {l : List ℕ} {u : ℕ}, pickMin key l = some u → u ∈ l := by
  intro l
  induction l with
  | nil => intro u h; cases h
  | cons a rest ih =>
    intro u h
    unfold pickMin at h
    cases hp : pickMin key rest with
    | none =>
      rw [hp] at h
      cases h
      simp
    | some v =>
      rw [hp] at h
      have h' : (if lexLt (key v) (key a) = true then some v else some a) =
          some u := h
      by_cases hlt : lexLt (key v) (key a) = true
      · rw [if_pos hlt] at h'
        cases h'
        exact List.mem_cons.mpr (Or.inr (ih hp))
      · rw [if_neg hlt] at h'
        cases h'
        simp

theorem filter_ne_idem {l : List ℕ} {u : ℕ} :
    (l.filter (· ≠ u)).filter (· ≠ u) = l.filter (· ≠ u) := by
  rw [List.filter_filter]
  congr 1
  funext x
  rw [Bool.and_self]

theorem alookup_incUpdate {u₀ : ℕ} :
    ∀ (K : List ℕ) (inc : List (ℕ × List ℕ)) (w : ℕ),
    alookup (K.foldl (fun d v =>
      assocSet d v (((alookup d v).getD []).filter (· ≠ u₀))) inc) w =
    if w ∈ K then some (((alookup inc w).getD []).filter (· ≠ u₀))
    else alookup inc w := by
  intro K
  induction K with
  | nil =>
    intro inc w
    simp
  | cons v K ih =>
    intro inc w
    rw [List.foldl_cons, ih]
    by_cases hwK : w ∈ K
    · rw [if_pos hwK, if_pos (by simp [hwK])]
      by_cases hwv : w = v
      · rw [hwv, alookup_assocSet_self]
        simp [filter_ne_idem]
      · rw [alookup_assocSet_ne _ _ _ _ hwv]
    · rw [if_neg hwK]
      by_cases hwv : w = v
      · rw [hwv, alookup_assocSet_self, if_pos (by simp)]
      · rw [alookup_assocSet_ne _ _ _ _ hwv,
          if_neg (by simp [hwv, hwK])]

theorem improveLoop_ok (xs : List Xfer) (seq₀ : List ℕ)
    (hsym : ∀ w u, u ∈ keysOf (getXf xs w).goesAfter →
      w ∈ keysOf (getXf xs u).goesBefore) :
    ∀ (fuel : ℕ) (inc : List (ℕ × List ℕ)) (rem acc L : List ℕ),
    improveLoop xs seq₀ fuel inc rem acc = .ok L →
    (∀ u ∈ rem, ∀ v, v ∈ (alookup inc u).getD [] ↔
      (v ∈ keysOf (getXf xs u).goesAfter ∧ v ∉ acc)) →
    rem.Nodup → acc.Nodup → (∀ a ∈ acc, a ∉ rem) →
    (∀ k, k ∈ L ↔ k ∈ acc ∨ k ∈ rem) ∧
    L.Nodup ∧
    (∃ out, L = acc.reverse ++ out ∧ ∀ k ∈ out, k ∈ rem) ∧
    (∀ u ∈ L, u ∉ acc → ∀ v ∈ keysOf (getXf xs u).goesAfter,
      v ∈ acc ∨ (v ∈ L ∧ posOf L v < posOf L u)) := by
  intro fuel
  induction fuel with
  | zero =>
    intro inc rem acc L hok hinv hndr hnda hdis
    simp only [improveLoop] at hok
    by_cases hrem : rem = []
    · rw [if_pos hrem] at hok
      cases hok
      subst hrem
      refine ⟨fun k => by simp, by simp [hnda], ⟨[], by simp, by simp⟩, ?_⟩
      intro u hu hua
      exact absurd (List.mem_reverse.mp hu) hua
    · rw [if_neg hrem] at hok
      cases hok
  | succ fuel ih =>
    intro inc rem acc L hok hinv hndr hnda hdis
    simp only [improveLoop] at hok
    by_cases hrem : rem = []
    · rw [if_pos hrem] at hok
      cases hok
      subst hrem
      refine ⟨fun k => by simp, by simp [hnda], ⟨[], by simp, by simp⟩, ?_⟩
      intro u hu hua
      exact absurd (List.mem_reverse.mp hu) hua
    · rw [if_neg hrem] at hok
      cases hpick : pickMin (improveKey xs seq₀)
          (rem.filter (fun u => (alookup inc u).getD [] = [])) with
      | none =>
        rw [hpick] at hok
        cases hok
      | some u₀ =>
        rw [hpick] at hok
        have hu₀r : u₀ ∈ rem.filter (fun u => (alookup inc u).getD [] = []) :=
          pickMin_mem hpick
        have hu₀rem : u₀ ∈ rem := List.mem_of_mem_filter hu₀r
        have hu₀rdy : (alookup inc u₀).getD [] = [] := by
          have := (List.mem_filter.mp hu₀r).2
          exact of_decide_eq_true this
        have hu₀acc : u₀ ∉ acc := fun hc => hdis u₀ hc hu₀rem
        have hgaacc : ∀ v ∈ keysOf (getXf xs u₀).goesAfter, v ∈ acc := by
          intro v hv
          by_contra hvacc
          have := (hinv u₀ hu₀rem v).mpr ⟨hv, hvacc⟩
          rw [hu₀rdy] at this
          simp at this
        have hinv' : ∀ u ∈ rem.filter (· ≠ u₀), ∀ v,
            v ∈ (alookup ((keysOf (getXf xs u₀).goesBefore).foldl
              (fun d v => assocSet d v
                (((alookup d v).getD []).filter (· ≠ u₀))) inc) u).getD [] ↔
            (v ∈ keysOf (getXf xs u).goesAfter ∧ v ∉ u₀ :: acc) := by
          intro w hw v
          have hwrem : w ∈ rem := List.mem_of_mem_filter hw
          have hwne : w ≠ u₀ := by
            have := (List.mem_filter.mp hw).2
            exact of_decide_eq_true this
          rw [alookup_incUpdate]
          by_cases hwK : w ∈ keysOf (getXf xs u₀).goesBefore
          · rw [if_pos hwK]
            simp only [Option.getD_some, List.mem_filter]
            rw [hinv w hwrem v]
            constructor
            · rintro ⟨⟨h1, h2⟩, h3⟩
              refine ⟨h1, ?_⟩
              intro hc
              rcases List.mem_cons.mp hc with h | h
              · exact absurd (decide_eq_true (show v ≠ u₀ from fun hh => by
                  rw [hh] at h3
                  simp at h3)) (fun _ => by
                    rw [h] at h3
                    simp at h3)
              · exact h2 h
            · rintro ⟨h1, h2⟩
              refine ⟨⟨h1, fun hc => h2 (by simp [hc])⟩, ?_⟩
              simp
              intro hc
              exact h2 (by simp [hc])
          · rw [if_neg hwK]
            rw [hinv w hwrem v]
            constructor
            · rintro ⟨h1, h2⟩
              refine ⟨h1, ?_⟩
              intro hc
              rcases List.mem_cons.mp hc with h | h
              · rw [h] at h1
                exact hwK (hsym w u₀ h1)
              · exact h2 h
            · rintro ⟨h1, h2⟩
              exact ⟨h1, fun hc => h2 (by simp [hc])⟩
        obtain ⟨c1, c2, ⟨out', hL, hout'⟩, c4⟩ :=
          ih _ (rem.filter (· ≠ u₀)) (u₀ :: acc) L hok hinv'
            (List.Nodup.filter _ hndr)
            (List.nodup_cons.mpr ⟨hu₀acc, hnda⟩)
            (by
              intro a ha
              rcases List.mem_cons.mp ha with h | h
              · intro hc
                rw [h] at hc
                have := (List.mem_filter.mp hc).2
                simp at this
              · intro hc
                exact hdis a h (List.mem_of_mem_filter hc))
        have hmemrem' : ∀ k, k ∈ rem.filter (· ≠ u₀) ↔ (k ∈ rem ∧ k ≠ u₀) := by
          intro k
          rw [List.mem_filter]
          simp
        have hc1 : ∀ k, k ∈ L ↔ k ∈ acc ∨ k ∈ rem := by
          intro k
          rw [c1 k]
          constructor
          · rintro (h | h)
            · rcases List.mem_cons.mp h with h | h
              · exact Or.inr (h ▸ hu₀rem)
              · exact Or.inl h
            · exact Or.inr ((hmemrem' k).mp h).1
          · rintro (h | h)
            · exact Or.inl (by simp [h])
            · by_cases hk : k = u₀
              · exact Or.inl (by simp [hk])
              · exact Or.inr ((hmemrem' k).mpr ⟨h, hk⟩)
        have hLshape : L = acc.reverse ++ u₀ :: out' := by
          rw [hL, List.reverse_cons, List.append_assoc]
          rfl
        refine ⟨hc1, c2, ⟨u₀ :: out', hLshape, ?_⟩, ?_⟩
        · intro k hk
          rcases List.mem_cons.mp hk with h | h
          · exact h ▸ hu₀rem
          · exact List.mem_of_mem_filter (hout' k h)
        · intro u hu hua v hv
          by_cases huu₀ : u = u₀
          · exact Or.inl (by
              rw [huu₀] at hv
              exact hgaacc v hv)
          · have := c4 u hu (by
              intro hc
              rcases List.mem_cons.mp hc with h | h
              · exact huu₀ h
              · exact hua h) v hv
            rcases this with h | h
            · rcases List.mem_cons.mp h with h | h
              · -- v = u₀: strictly earlier by position
                refine Or.inr ⟨by rw [hc1]; exact Or.inr (h ▸ hu₀rem), ?_⟩
                have hu₀L : posOf L v = acc.reverse.length := by
                  rw [hLshape, h, posOf_append_right _
                    (fun hc => hu₀acc (List.mem_reverse.mp hc))]
                  simp [posOf]
                have huout : u ∈ out' := by
                  have huL := hu
                  rw [hLshape] at huL
                  rcases List.mem_append.mp huL with hh | hh
                  · exact absurd (List.mem_reverse.mp hh) hua
                  · rcases List.mem_cons.mp hh with hh | hh
                    · exact absurd hh huu₀
                    · exact hh
                have hupos : acc.reverse.length < posOf L u := by
                  rw [hLshape, posOf_append_right _
                    (fun hc => hua (List.mem_reverse.mp hc)),
                    posOf_cons_ne (fun hc => huu₀ hc.symm)]
                  omega
                omega
              · exact Or.inl h
            · exact Or.inr h

theorem alookup_map_self {f : ℕ → List ℕ} :
    ∀ {l : List ℕ} {u : ℕ}, u ∈ l →
    alookup (l.map (fun i => (i, f i))) u = some (f u) := by
  intro l
  induction l with
  | nil => intro u h; cases h
  | cons a l ih =>
    intro u h
    by_cases hau : a = u
    · simp [alookup, hau]
    · rcases List.mem_cons.mp h with h' | h'
      · exact absurd h'.symm hau
      · simp [alookup, hau, ih h']

theorem improveVertexSequence_ok {xs : List Xfer} {seq₀ L : List ℕ}
    (hsym : ∀ w u, u ∈ keysOf (getXf xs w).goesAfter →
      w ∈ keysOf (getXf xs u).goesBefore)
    (hnd : seq₀.Nodup)
    (hok : improveVertexSequence xs seq₀ = .ok L) :
    (∀ k, k ∈ L ↔ k ∈ seq₀) ∧
    L.Nodup ∧
    (∀ u ∈ L, ∀ v ∈ keysOf (getXf xs u).goesAfter,
      v ∈ L ∧ posOf L v < posOf L u) := by
  unfold improveVertexSequence at hok
  obtain ⟨c1, c2, -, c4⟩ := improveLoop_ok xs seq₀ hsym seq₀.length
    (seq₀.map (fun i => (i, keysOf (getXf xs i).goesAfter))) seq₀ [] L hok
    (by
      intro u hu v
      rw [alookup_map_self hu]
      simp)
    hnd List.nodup_nil (by simp)
  refine ⟨fun k => by rw [c1 k]; simp, c2, ?_⟩
  intro u hu v hv
  have := c4 u hu (by simp) v hv
  rcases this with h | h
  · simp at h
  · exact h

/-- Claim C2: for every store whose transfers' target ranges cover the
care map and are pairwise disjoint (the file-map partition guarantee), with
the dependency digraph recorded symmetrically (`GenerateDigraph`'s state),
every heuristic order `seq` enumerating the transfers, and every version in
1..4, whenever the cycle-breaking / order-refinement / stash-revision
phases of `Compute` succeed, the resulting store and sequence pass
`AssertSequenceGood`: no source, target or coverage assertion fires. -/
theorem C2_planPhases_assertSequenceGood (version : ℕ) (cache : Option ℕ)
    (thr : ℚ) (total : ℕ) (care : RSet) (xs xs'' : List Xfer)
    (seq seq'' : List ℕ)
    (hver : 1 ≤ version ∧ version ≤ 4)
    (hnd : seq.Nodup)
    (hbs : ∀ x ∈ seq, x < xs.length)
    (hall : ∀ k < xs.length, k ∈ seq)
    (hkgb : ∀ x < xs.length, ∀ u ∈ keysOf (getXf xs x).goesBefore,
      u < xs.length)
    (hkga : ∀ x < xs.length, ∀ u ∈ keysOf (getXf xs x).goesAfter,
      u < xs.length)
    (hselfgb : ∀ x < xs.length, x ∉ keysOf (getXf xs x).goesBefore)
    (hsymd : ∀ w < xs.length, ∀ u < xs.length,
      ((alookup (getXf xs w).goesAfter u).isSome ↔
        (alookup (getXf xs u).goesBefore w).isSome))
    (hedge : ∀ x < xs.length, ∀ w < xs.length, x ≠ w →
      interW xs w x ≠ ∅ → (alookup (getXf xs x).goesBefore w).isSome)
    (hovall : ∀ x ∈ seq, ∀ u ∈ keysOf (getXf xs x).goesBefore,
      ¬ posOf seq x < posOf seq u → ovl xs x u ≠ ∅)
    (hcov : ∀ b ∈ care, ∃ j < xs.length, b ∈ (getXf xs j).tgt)
    (hdis : ∀ i < xs.length, ∀ j < xs.length, i ≠ j →
      (getXf xs i).tgt ∩ (getXf xs j).tgt = ∅)
    (hok : planPhases version cache thr xs seq = .ok (xs'', seq'')) :
    assertSequenceGood version total care xs'' seq'' = true := by
  have hkb' : ∀ x : ℕ, ∀ u ∈ keysOf (getXf xs x).goesBefore,
      u < xs.length := by
    intro x u hu
    by_cases hx : x < xs.length
    · exact hkgb x hx u hu
    · rw [getXf_out (by omega)] at hu
      exact absurd hu (by
        rw [show (default : Xfer).goesBefore = [] from rfl]
        simp [keysOf])
  have hself' : ∀ x : ℕ, x ∉ keysOf (getXf xs x).goesBefore := by
    intro x
    by_cases hx : x < xs.length
    · exact hselfgb x hx
    · rw [getXf_out (by omega), show (default : Xfer).goesBefore = [] from rfl]
      simp [keysOf]
  have hanti : ∀ a b, (a, b) ∈ violPairs xs seq seq →
      (b, a) ∈ violPairs xs seq seq → False := by
    intro a b h1 h2
    obtain ⟨ha, hk1⟩ := mem_violPairs.mp h1
    obtain ⟨hb, hk2⟩ := mem_violPairs.mp h2
    obtain ⟨hk1m, hord1⟩ := mem_violKeys.mp hk1
    obtain ⟨hk2m, hord2⟩ := mem_violKeys.mp hk2
    have : posOf seq a = posOf seq b := by omega
    have hab : a = b := posOf_inj ha hb this
    exact hself' a (hab ▸ hk1m)
  unfold planPhases at hok
  by_cases hv1 : version = 1
  · -- version 1: RemoveBackwardEdges path
    rw [if_pos hv1] at hok
    obtain ⟨xs', hrem, hok⟩ := bindOk hok
    rw [if_neg (fun hc : 2 ≤ version ∧ cache.isSome => absurd hc.1 (by omega))] at hok
    cases hok
    obtain ⟨rlen, rfld, rfacts⟩ := removeBE_shape hnd hrem
    have hv2 : ¬ 2 ≤ version := by omega
    obtain ⟨T, hT, hTmem⟩ := asg_of_safety version total xs'' seq ∅
      (by
        intro x hx i hi hit
        rw [if_neg hv2] at hi
        refine ⟨by simp, ?_⟩
        intro w hw hpos
        intro hiw
        have hxw : w ≠ x := by
          intro hc
          rw [hc] at hpos
          omega
        have hxb : x < xs.length := hbs x hx
        have hwb : w < xs.length := hbs w hw
        have hisrc : i ∈ (getXf xs x).src := (rfld x).2.2.2 hi
        have hitgt : i ∈ (getXf xs w).tgt := by
          rwa [(rfld w).1] at hiw
        have hint : interW xs w x ≠ ∅ := by
          intro hc
          have : i ∈ interW xs w x :=
            Finset.mem_inter.mpr ⟨hitgt, hisrc⟩
          rw [hc] at this
          simp at this
        have hkey : w ∈ keysOf (getXf xs x).goesBefore :=
          (mem_keysOf_iff_alookup _ _).mpr
            (hedge x hxb w hwb (fun hc => hxw hc.symm) hint)
        have hordv : ¬ posOf seq x < posOf seq w := by omega
        have hmem : i ∈ (getXf xs'' x).src ∩ (getXf xs w).tgt :=
          Finset.mem_inter.mpr ⟨hi, hitgt⟩
        rw [rfacts x hx w hkey hordv] at hmem
        simp at hmem)
      (by
        intro x hx i hi
        refine ⟨by simp, ?_⟩
        intro w hw hwx hiw
        have hxb : x < xs.length := hbs x hx
        have hwb : w < xs.length := hbs w hw
        have hix : i ∈ (getXf xs x).tgt := by rwa [(rfld x).1] at hi
        have hiw' : i ∈ (getXf xs w).tgt := by rwa [(rfld w).1] at hiw
        have : i ∈ (getXf xs w).tgt ∩ (getXf xs x).tgt :=
          Finset.mem_inter.mpr ⟨hiw', hix⟩
        rw [hdis w hwb x hxb hwx] at this
        simp at this)
      hnd
    unfold assertSequenceGood
    rw [hT]
    refine decide_eq_true ?_
    intro b hb
    rw [hTmem b]
    obtain ⟨j, hj, hbj⟩ := hcov b hb
    refine Or.inr ⟨j, hall j hj, ?_⟩
    rwa [(rfld j).1]
  · -- version ≥ 2: ReverseBackwardEdges, ImproveVertexSequence, revision
    rw [if_neg hv1] at hok
    have h2v : 2 ≤ version := by omega
    obtain ⟨rs, hrev, hok⟩ := bindOk hok
    obtain ⟨seq', himp, hok⟩ := bindOk hok
    -- characterize the reverse pass
    obtain ⟨st', hfold, hctr, hlog, hlen', hrev', hsb, hus, hgbf, hgaf⟩ :=
      revOuter_spec xs seq hnd hbs hkb' hself' hovall seq []
        { xs := xs, ctr := 0, log := [] } rfl rfl
        (fun j => revEq_refl _) (fun j _ => rfl)
    have hrseq : st' = rs := by
      have : (.ok st' : Except PyErr RevSt) = .ok rs := by
        rw [← hfold]
        exact hrev
      exact Except.ok.inj this
    subst hrseq
    -- symmetry of the reversed digraph, for the topological sort
    have hsymrs : ∀ w u, u ∈ keysOf (getXf st'.xs w).goesAfter →
        w ∈ keysOf (getXf st'.xs u).goesBefore := by
      intro w u hu
      rw [mem_keysOf_iff_alookup] at hu
      rw [mem_keysOf_iff_alookup]
      rw [hgaf w u] at hu
      rw [hgbf u w]
      by_cases h1 : (w, u) ∈ violPairs xs seq seq
      · rw [if_neg (fun hc => hanti u w hc h1), if_pos h1]
        simp
      · rw [if_neg h1] at hu
        by_cases h2 : (u, w) ∈ violPairs xs seq seq
        · rw [if_pos h2] at hu
          simp at hu
        · rw [if_neg h2] at hu
          rw [if_neg h2, if_neg h1]
          have hu' : (alookup (getXf xs w).goesAfter u).isSome = true := hu
          have hwb : w < xs.length := by
            by_contra hge
            rw [getXf_out (show xs.length ≤ w by omega)] at hu'
            rw [show (default : Xfer).goesAfter = [] from rfl] at hu'
            simp [alookup] at hu'
          have hub : u < xs.length := by
            refine hkga w hwb u ?_
            rw [mem_keysOf_iff_alookup]
            exact hu'
          exact (hsymd w hwb u hub).mp hu'
    obtain ⟨c1, c2, c4⟩ := improveVertexSequence_ok hsymrs hnd himp
    -- the revision phase (or its absence) only clears sources and uses
    have hshape : reviseInv st'.xs xs'' ∧ seq'' = seq' := by
      by_cases hc : 2 ≤ version ∧ cache.isSome
      · rw [if_pos hc] at hok
        obtain ⟨xs2, hrevise, hok⟩ := bindOk hok
        cases hok
        exact ⟨reviseStashSize_shape hrevise, rfl⟩
      · rw [if_neg hc] at hok
        cases hok
        exact ⟨⟨rfl, fun j => ⟨rfl, Or.inl ⟨rfl, rfl⟩⟩⟩, rfl⟩
    obtain ⟨hshp, hseq''⟩ := hshape
    rw [← hseq''] at c1 c2 c4
    have htgt'' : ∀ j, (getXf xs'' j).tgt = (getXf xs j).tgt := by
      intro j
      rw [(hshp.2 j).1, (hrev' j).2.2.1]
    -- the simulation passes
    obtain ⟨T, hT, hTmem⟩ := asg_of_safety version total xs'' seq'' ∅
      (by
        intro x hx i hi hit
        rw [if_pos h2v] at hi
        refine ⟨by simp, ?_⟩
        intro w hw hpos hiw
        have hxw : w ≠ x := by
          intro hc
          rw [hc] at hpos
          omega
        have hxseq : x ∈ seq := (c1 x).mp hx
        have hwseq : w ∈ seq := (c1 w).mp hw
        have hxb : x < xs.length := hbs x hxseq
        have hwb : w < xs.length := hbs w hwseq
        have hitgt : i ∈ (getXf xs w).tgt := by rwa [htgt'' w] at hiw
        rcases (hshp.2 x).2 with ⟨hsrcx, husx⟩ | ⟨hsrcx, husx⟩
        · -- x kept its source and stash uses
          obtain ⟨hisrc'', hstash⟩ := mem_unstashedSrc.mp hi
          rw [hsrcx, (hrev' x).2.2.2.1] at hisrc''
          have hint : interW xs w x ≠ ∅ := by
            intro hc
            have : i ∈ interW xs w x :=
              Finset.mem_inter.mpr ⟨hitgt, hisrc''⟩
            rw [hc] at this
            simp at this
          have hkey : w ∈ keysOf (getXf xs x).goesBefore :=
            (mem_keysOf_iff_alookup _ _).mpr
              (hedge x hxb w hwb (fun hc => hxw hc.symm) hint)
          by_cases hviol : posOf seq x < posOf seq w
          · -- the demand edge survived: contradicts the topological order
            have hgaw : x ∈ keysOf (getXf st'.xs w).goesAfter := by
              rw [mem_keysOf_iff_alookup, hgaf w x]
              by_cases h1 : (w, x) ∈ violPairs xs seq seq
              · rw [if_pos h1]
                simp
              · rw [if_neg h1]
                have h2 : (x, w) ∉ violPairs xs seq seq := by
                  intro hc
                  have := (mem_violKeys.mp (mem_violPairs.mp hc).2).2
                  omega
                rw [if_neg h2]
                exact (hsymd w hwb x hxb).mpr
                  ((mem_keysOf_iff_alookup _ _).mp hkey)
            have := (c4 w hw x hgaw).2
            omega
          · -- violated pair: the overlap was stashed into x.use_stash
            have hmemV : (x, w) ∈ violPairs xs seq seq :=
              mem_violPairs.mpr ⟨hxseq, mem_violKeys.mpr ⟨hkey, hviol⟩⟩
            obtain ⟨sid, hsidmem⟩ := mem_enumFrom_of_mem hmemV 0
            have hstent : (sid, ovl xs x w) ∈ (getXf st'.xs x).useStash := by
              rw [hus x]
              refine List.mem_append.mpr (Or.inr ?_)
              exact List.mem_map.mpr ⟨(sid, (x, w)),
                List.mem_filter.mpr ⟨hsidmem, by simp⟩, rfl⟩
            have : i ∉ ovl xs x w := by
              have := hstash (sid, ovl xs x w) (by rwa [husx])
              exact this
            exact this (by
              unfold ovl
              exact Finset.mem_inter.mpr ⟨hisrc'', hitgt⟩)
        · -- x was converted to `new`: no unstashed source at all
          rw [mem_unstashedSrc] at hi
          rw [hsrcx] at hi
          simp at hi)
      (by
        intro x hx i hi
        refine ⟨by simp, ?_⟩
        intro w hw hwx hiw
        have hxb : x < xs.length := hbs x ((c1 x).mp hx)
        have hwb : w < xs.length := hbs w ((c1 w).mp hw)
        have hix : i ∈ (getXf xs x).tgt := by rwa [htgt'' x] at hi
        have hiw' : i ∈ (getXf xs w).tgt := by rwa [htgt'' w] at hiw
        have : i ∈ (getXf xs w).tgt ∩ (getXf xs x).tgt :=
          Finset.mem_inter.mpr ⟨hiw', hix⟩
        rw [hdis w hwb x hxb hwx] at this
        simp at this)
      c2
    unfold assertSequenceGood
    rw [hT]
    refine decide_eq_true ?_
    intro b hb
    rw [hTmem b]
    obtain ⟨j, hj, hbj⟩ := hcov b hb
    refine Or.inr ⟨j, (c1 j).mpr (hall j hj), ?_⟩
    rwa [htgt'' j]

/-- Claim C2, witness: the concrete two-transfer cycle at version 2 (no
cache configured) is planned successfully and the resulting store and
sequence pass `AssertSequenceGood` for a care map covering both blocks. -/
theorem C2_planPhases_assertSequenceGood_witness :
    ∃ pr : List Xfer × List ℕ,
      planPhases 2 none 0 [xfC2A, xfC2B] [0, 1] = .ok pr ∧
      assertSequenceGood 2 2 ({0, 1} : RSet) pr.1 pr.2 = true := by
  cases hok : planPhases 2 none 0 [xfC2A, xfC2B] [0, 1] with
  | error e =>
    have hlive : (match planPhases 2 none 0 [xfC2A, xfC2B] [0, 1] with
      | .error _ => False
      | .ok _ => True) := trivial
    rw [hok] at hlive
    exact hlive.elim
  | ok pr =>
    refine ⟨pr, rfl, ?_⟩
    obtain ⟨xs'', seq''⟩ := pr
    exact C2_planPhases_assertSequenceGood 2 none 0 2 ({0, 1} : RSet)
      [xfC2A, xfC2B] xs'' [0, 1] seq''
      (by decide) (by decide) (by decide) (by decide)
      (by decide) (by decide) (by decide) (by decide) (by decide)
      (by decide) (by decide) (by decide) hok

theorem mem_writesUnion {l : List Cmd} {w : RSet} {b : ℕ} :
    b ∈ writesUnion l w ↔ b ∈ w ∨ ∃ c ∈ l, b ∈ c.writes := by
  induction l generalizing w with
  | nil => simp [writesUnion]
  | cons c l ih =>
    unfold writesUnion at ih ⊢
    rw [List.foldl_cons, ih]
    constructor
    · rintro (hb | ⟨d, hd, hb⟩)
      · rcases Finset.mem_union.mp hb with h | h
        · exact Or.inl h
        · exact Or.inr ⟨c, by simp, h⟩
      · exact Or.inr ⟨d, by simp [hd], hb⟩
    · rintro (hb | ⟨d, hd, hb⟩)
      · exact Or.inl (Finset.mem_union.mpr (Or.inl hb))
      · rcases List.mem_cons.mp hd with h | h
        · exact Or.inl (Finset.mem_union.mpr (Or.inr (h ▸ hb)))
        · exact Or.inr ⟨d, h, hb⟩

theorem writesUnion_of_empty {l : List Cmd} {w : RSet}
    (h : ∀ c ∈ l, c.writes = ∅) : writesUnion l w = w := by
  induction l generalizing w with
  | nil => rfl
  | cons c l ih =>
    unfold writesUnion at ih ⊢
    rw [List.foldl_cons, h c (by simp)]
    rw [Finset.union_empty]
    exact ih (fun d hd => h d (by simp [hd]))

theorem rawOk_append (care : RSet) :
    ∀ (l₁ l₂ : List Cmd) (w : RSet),
    readAfterWriteOk care (l₁ ++ l₂) w =
      (readAfterWriteOk care l₁ w &&
        readAfterWriteOk care l₂ (writesUnion l₁ w)) := by
  intro l₁
  induction l₁ with
  | nil =>
    intro l₂ w
    simp [readAfterWriteOk, writesUnion]
  | cons c l₁ ih =>
    intro l₂ w
    have e1 : readAfterWriteOk care ((c :: l₁) ++ l₂) w =
        (decide (c.reads ∩ (w ∩ care) = ∅) &&
          readAfterWriteOk care (l₁ ++ l₂) (w ∪ c.writes)) := rfl
    have e2 : readAfterWriteOk care (c :: l₁) w =
        (decide (c.reads ∩ (w ∩ care) = ∅) &&
          readAfterWriteOk care l₁ (w ∪ c.writes)) := rfl
    have e3 : writesUnion (c :: l₁) w = writesUnion l₁ (w ∪ c.writes) := rfl
    rw [e1, e2, e3, ih, Bool.and_assoc]

theorem rawOk_of_noreads (care : RSet) :
    ∀ (l : List Cmd) (w : RSet), (∀ c ∈ l, c.reads = ∅) →
    readAfterWriteOk care l w = true := by
  intro l
  induction l with
  | nil => intro w _; rfl
  | cons c l ih =>
    intro w h
    unfold readAfterWriteOk
    rw [h c (by simp)]
    rw [ih (w ∪ c.writes) (fun d hd => h d (by simp [hd]))]
    simp

theorem rawOk_of_reads_avoid (care : RSet) :
    ∀ (l : List Cmd) (w : RSet) (B : RSet),
    w ∩ care ⊆ B →
    (∀ c ∈ l, c.reads ∩ B = ∅) →
    (∀ c ∈ l, c.writes ∩ care ⊆ B) →
    readAfterWriteOk care l w = true := by
  intro l
  induction l with
  | nil => intro w B _ _ _; rfl
  | cons c l ih =>
    intro w B hwB hr hw
    unfold readAfterWriteOk
    have h1 : c.reads ∩ (w ∩ care) = ∅ := by
      rw [Finset.eq_empty_iff_forall_not_mem]
      intro b hb
      obtain ⟨hb1, hb2⟩ := Finset.mem_inter.mp hb
      have : b ∈ c.reads ∩ B :=
        Finset.mem_inter.mpr ⟨hb1, hwB hb2⟩
      rw [hr c (by simp)] at this
      simp at this
    rw [decide_eq_true h1]
    rw [ih (w ∪ c.writes) B ?_ (fun d hd => hr d (by simp [hd]))
      (fun d hd => hw d (by simp [hd]))]
    · simp
    · intro b hb
      obtain ⟨hb1, hb2⟩ := Finset.mem_inter.mp hb
      rcases Finset.mem_union.mp hb1 with h | h
      · exact hwB (Finset.mem_inter.mpr ⟨h, hb2⟩)
      · exact hw c (by simp) (Finset.mem_inter.mpr ⟨h, hb2⟩)

theorem countP_zero_of_empty_writes {l : List Cmd} {b : ℕ}
    (h : ∀ c ∈ l, c.writes = ∅) :
    l.countP (fun c => b ∈ c.writes) = 0 := by
  rw [List.countP_eq_zero]
  intro c hc
  rw [h c hc]
  simp

theorem wtz_shape :
    ∀ (fuel : ℕ) (s : RSet), rsSize s ≤ fuel →
    (∀ c ∈ writeTransfersZero fuel s, c.writes ⊆ s ∧ c.reads = ∅) ∧
    (∀ b, (writeTransfersZero fuel s).countP (fun c => b ∈ c.writes) =
      if b ∈ s then 1 else 0) := by
  intro fuel
  induction fuel with
  | zero =>
    intro s hs
    have : s = ∅ := by
      rw [← Finset.card_eq_zero]
      unfold rsSize at hs
      omega
    subst this
    refine ⟨fun c hc => absurd hc (by simp [writeTransfersZero]), ?_⟩
    intro b
    simp [writeTransfersZero]
  | succ fuel ih =>
    intro s hs
    by_cases hpos : rsSize s > 0
    · have hzb : rsFirst s 1024 ⊆ s := rsFirst_subset s 1024
      have hzbne : rsSize (rsFirst s 1024) ≠ 0 := by
        rw [rsSize_rsFirst]
        omega
      have hrec : rsSize (s \ rsFirst s 1024) ≤ fuel := by
        rw [rsSize_sdiff_rsFirst]
        omega
      obtain ⟨ish, icnt⟩ := ih (s \ rsFirst s 1024) hrec
      constructor
      · intro c hc
        unfold writeTransfersZero at hc
        rw [if_pos hpos] at hc
        rcases List.mem_cons.mp hc with h | h
        · rw [h]
          exact ⟨hzb, rfl⟩
        · obtain ⟨h1, h2⟩ := ish c h
          exact ⟨fun b hb => (Finset.mem_sdiff.mp (h1 hb)).1, h2⟩
      · intro b
        unfold writeTransfersZero
        rw [if_pos hpos, List.countP_cons, icnt b]
        by_cases hbz : b ∈ rsFirst s 1024
        · rw [if_neg (fun hc : b ∈ s \ rsFirst s 1024 =>
              (Finset.mem_sdiff.mp hc).2 hbz),
            if_pos (hzb hbz)]
          simp [hbz]
        · by_cases hbs : b ∈ s
          · rw [if_pos (Finset.mem_sdiff.mpr ⟨hbs, hbz⟩), if_pos hbs]
            simp [hbz]
          · rw [if_neg (fun hc : b ∈ s \ rsFirst s 1024 =>
                hbs (Finset.mem_sdiff.mp hc).1), if_neg hbs]
            simp [hbz]
    · have : s = ∅ := by
        rw [← Finset.card_eq_zero]
        unfold rsSize at hpos
        omega
      subst this
      constructor
      · intro c hc
        unfold writeTransfersZero at hc
        rw [if_neg hpos] at hc
        cases hc
      · intro b
        unfold writeTransfersZero
        rw [if_neg hpos]
        simp

theorem emitStash_ok {version : ℕ} {h : RSet → ℕ} {st st' : EmitSt}
    {p : ℕ × RSet} (hok : emitStash version h st p = .ok st') :
    ∃ new, st'.out = st.out ++ new ∧
      ∀ c ∈ new, c.writes = ∅ ∧ c.reads = p.2 := by
  unfold emitStash at hok
  split at hok
  · cases hok
  · split at hok
    · split at hok
      · cases hok
        refine ⟨[{ writes := ∅, reads := p.2 }], rfl, ?_⟩
        intro c hc
        rcases List.mem_cons.mp hc with h | h
        · rw [h]
          exact ⟨rfl, rfl⟩
        · cases h
      · dsimp only at hok
        split at hok
        · cases hok
          exact ⟨[], (List.append_nil _).symm, fun c hc => absurd hc (by simp)⟩
        · cases hok
          refine ⟨[{ writes := ∅, reads := p.2 }], rfl, ?_⟩
          intro c hc
          rcases List.mem_cons.mp hc with h | h
          · rw [h]
            exact ⟨rfl, rfl⟩
          · cases h
    · split at hok
      · cases hok
        refine ⟨[{ writes := ∅, reads := p.2 }], rfl, ?_⟩
        intro c hc
        rcases List.mem_cons.mp hc with h | h
        · rw [h]
          exact ⟨rfl, rfl⟩
        · cases h
      · dsimp only at hok
        split at hok
        · cases hok
          exact ⟨[], (List.append_nil _).symm, fun c hc => absurd hc (by simp)⟩
        · cases hok
          refine ⟨[{ writes := ∅, reads := p.2 }], rfl, ?_⟩
          intro c hc
          rcases List.mem_cons.mp hc with h | h
          · rw [h]
            exact ⟨rfl, rfl⟩
          · cases h

theorem emitUse_ok {version : ℕ} {h : RSet → ℕ} {src : RSet}
    {acc acc' : EmitSt × List Cmd × ℕ} {p : ℕ × RSet}
    (hok : emitUse version h src acc p = .ok acc') :
    acc'.1.out = acc.1.out ∧
      (∀ c ∈ acc'.2.1, c ∈ acc.2.1 ∨ (c.writes = ∅ ∧ c.reads = ∅)) := by
  obtain ⟨st, fc, fs⟩ := acc
  unfold emitUse at hok
  dsimp only at hok
  split at hok
  · cases hok
  · split at hok
    · cases hok
      refine ⟨rfl, ?_⟩
      intro c hc
      rcases List.mem_append.mp hc with h | h
      · exact Or.inl h
      · rcases List.mem_cons.mp h with h | h
        · exact Or.inr (by rw [h]; exact ⟨rfl, rfl⟩)
        · cases h
    · split at hok
      · cases hok
      · split at hok
        · cases hok
          refine ⟨rfl, ?_⟩
          intro c hc
          rcases List.mem_append.mp hc with h | h
          · exact Or.inl h
          · rcases List.mem_cons.mp h with h | h
            · exact Or.inr (by rw [h]; exact ⟨rfl, rfl⟩)
            · cases h
        · cases hok
          exact ⟨rfl, fun c hc => Or.inl hc⟩

theorem emitStashFold_ok {version : ℕ} {h : RSet → ℕ} :
    ∀ (ps : List (ℕ × RSet)) (st st' : EmitSt),
    ps.foldlM (emitStash version h) st = .ok st' →
    ∃ new, st'.out = st.out ++ new ∧
      ∀ c ∈ new, c.writes = ∅ ∧ ∃ p ∈ ps, c.reads = p.2 := by
  intro ps
  induction ps with
  | nil =>
    intro st st' hok
    cases hok
    exact ⟨[], (List.append_nil _).symm, fun c hc => absurd hc (by simp)⟩
  | cons p ps ih =>
    intro st st' hok
    obtain ⟨st₁, hstep, hrest⟩ := foldlM_ok_cons hok
    obtain ⟨n1, h1, hc1⟩ := emitStash_ok hstep
    obtain ⟨n2, h2, hc2⟩ := ih st₁ st' hrest
    refine ⟨n1 ++ n2, by rw [h2, h1, List.append_assoc], ?_⟩
    intro c hc
    rcases List.mem_append.mp hc with h | h
    · obtain ⟨hw, hr⟩ := hc1 c h
      exact ⟨hw, p, by simp, hr⟩
    · obtain ⟨hw, q, hq, hr⟩ := hc2 c h
      exact ⟨hw, q, by simp [hq], hr⟩

theorem emitUseFold_ok {version : ℕ} {h : RSet → ℕ} {src : RSet} :
    ∀ (us : List (ℕ × RSet)) (acc acc' : EmitSt × List Cmd × ℕ),
    us.foldlM (emitUse version h src) acc = .ok acc' →
    acc'.1.out = acc.1.out ∧
      (∀ c ∈ acc'.2.1, c ∈ acc.2.1 ∨ (c.writes = ∅ ∧ c.reads = ∅)) := by
  intro us
  induction us with
  | nil =>
    intro acc acc' hok
    cases hok
    exact ⟨rfl, fun c hc => Or.inl hc⟩
  | cons p us ih =>
    intro acc acc' hok
    obtain ⟨acc₁, hstep, hrest⟩ := foldlM_ok_cons hok
    obtain ⟨h1, hc1⟩ := emitUse_ok hstep
    obtain ⟨h2, hc2⟩ := ih acc₁ acc' hrest
    refine ⟨h2.trans h1, ?_⟩
    intro c hc
    rcases hc2 c hc with h | h
    · rcases hc1 c h with h' | h'
      · exact Or.inl h'
      · exact Or.inr h'
    · exact Or.inr h

theorem count_single_main {xf : Xfer} {m : Cmd} (hw : m.writes = xf.tgt)
    (hmv : ¬(xf.style = "move" ∧ xf.src = xf.tgt))
    (hz : xf.style ≠ "zero") :
    ∀ b : ℕ, [m].countP (fun c => b ∈ c.writes) =
      if b ∈ xf.tgt ∧ ¬((xf.style = "move" ∧ xf.src = xf.tgt) ∨
          (xf.style = "zero" ∧ b ∈ xf.src)) then 1 else 0 := by
  intro b
  by_cases hb : b ∈ xf.tgt
  · rw [if_pos ⟨hb, fun hcon => by
      rcases hcon with h | h
      · exact hmv h
      · exact hz h.1⟩]
    simp [List.countP_cons, hw, hb]
  · rw [if_neg (fun hcon => hb hcon.1)]
    simp [List.countP_cons, hw, hb]

theorem rawOk_single {care : RSet} {m : Cmd} {w : RSet}
    (hr : m.reads ∩ (w ∩ care) = ∅) :
    readAfterWriteOk care [m] w = true := by
  unfold readAfterWriteOk
  rw [decide_eq_true hr]
  rfl

theorem emitMain_ok {version : ℕ} {st₃ st₅ : EmitSt} {xf : Xfer}
    (hok : emitMain version st₃ xf = .ok st₅) :
    ∃ mains, st₅.out = st₃.out ++ mains ∧
      (∀ c ∈ mains, c.writes ⊆ xf.tgt ∧
        (c.reads = ∅ ∨ c.reads = (if 2 ≤ version then unstashedSrc xf else xf.src))) ∧
      (∀ b : ℕ, mains.countP (fun c => b ∈ c.writes) =
        if b ∈ xf.tgt ∧ ¬((xf.style = "move" ∧ xf.src = xf.tgt) ∨
            (xf.style = "zero" ∧ b ∈ xf.src)) then 1 else 0) ∧
      (∀ (care w : RSet), (∀ c ∈ mains, c.reads ∩ (w ∩ care) = ∅) →
        readAfterWriteOk care mains w = true) := by
  unfold emitMain at hok
  dsimp only at hok
  by_cases hnew : xf.style = "new"
  · rw [if_pos hnew] at hok
    by_cases htgt : xf.tgt = ∅
    · rw [if_pos htgt] at hok
      cases hok
    · rw [if_neg htgt] at hok
      cases hok
      refine ⟨[{ writes := xf.tgt, reads := ∅ }], rfl, ?_, ?_, ?_⟩
      · intro c hc
        rcases List.mem_cons.mp hc with h | h
        · rw [h]
          exact ⟨Finset.Subset.refl _, Or.inl rfl⟩
        · exact absurd h (List.not_mem_nil c)
      · exact count_single_main rfl
          (fun hcon => by rw [hnew] at hcon; exact absurd hcon.1 (by decide))
          (by rw [hnew]; decide)
      · intro care w hr
        exact rawOk_single (hr _ (List.mem_cons_self _ _))
  · rw [if_neg hnew] at hok
    by_cases hmov : xf.style = "move"
    · rw [if_pos hmov] at hok
      by_cases htgt : xf.tgt = ∅
      · rw [if_pos htgt] at hok
        cases hok
      · rw [if_neg htgt] at hok
        by_cases hsz : rsSize xf.src ≠ rsSize xf.tgt
        · rw [if_pos hsz] at hok
          cases hok
        · rw [if_neg hsz] at hok
          by_cases hne : xf.src ≠ xf.tgt
          · rw [if_pos hne] at hok
            by_cases hv3 : 3 ≤ version
            · rw [if_pos hv3] at hok
              by_cases hov : xf.src ∩ xf.tgt ≠ ∅
              · rw [if_pos hov] at hok
                cases hok
                refine ⟨[{ writes := xf.tgt, reads := if 2 ≤ version then unstashedSrc xf else xf.src }], rfl, ?_, ?_, ?_⟩
                · intro c hc
                  rcases List.mem_cons.mp hc with h | h
                  · rw [h]
                    exact ⟨Finset.Subset.refl _, Or.inr rfl⟩
                  · exact absurd h (List.not_mem_nil c)
                · exact count_single_main rfl (fun hcon => hne hcon.2) (by rw [hmov]; decide)
                · intro care w hr
                  exact rawOk_single (hr _ (List.mem_cons_self _ _))
              · rw [if_neg hov] at hok
                cases hok
                refine ⟨[{ writes := xf.tgt, reads := if 2 ≤ version then unstashedSrc xf else xf.src }], rfl, ?_, ?_, ?_⟩
                · intro c hc
                  rcases List.mem_cons.mp hc with h | h
                  · rw [h]
                    exact ⟨Finset.Subset.refl _, Or.inr rfl⟩
                  · exact absurd h (List.not_mem_nil c)
                · exact count_single_main rfl (fun hcon => hne hcon.2) (by rw [hmov]; decide)
                · intro care w hr
                  exact rawOk_single (hr _ (List.mem_cons_self _ _))
            · rw [if_neg hv3] at hok
              cases hok
              refine ⟨[{ writes := xf.tgt, reads := if 2 ≤ version then unstashedSrc xf else xf.src }], rfl, ?_, ?_, ?_⟩
              · intro c hc
                rcases List.mem_cons.mp hc with h | h
                · rw [h]
                  exact ⟨Finset.Subset.refl _, Or.inr rfl⟩
                · exact absurd h (List.not_mem_nil c)
              · exact count_single_main rfl (fun hcon => hne hcon.2) (by rw [hmov]; decide)
              · intro care w hr
                exact rawOk_single (hr _ (List.mem_cons_self _ _))
          · rw [if_neg hne] at hok
            cases hok
            refine ⟨[], (List.append_nil _).symm, ?_, ?_, ?_⟩
            · intro c hc
              exact absurd hc (List.not_mem_nil c)
            · intro b
              rw [List.countP_nil]
              rw [if_neg (fun hcon => hcon.2 (Or.inl ⟨hmov, not_not.mp hne⟩))]
            · intro care w hr
              rfl
    · rw [if_neg hmov] at hok
      by_cases hdif : xf.style = "bsdiff" ∨ xf.style = "imgdiff"
      · rw [if_pos hdif] at hok
        by_cases htgt : xf.tgt = ∅
        · rw [if_pos htgt] at hok
          cases hok
        · rw [if_neg htgt] at hok
          by_cases hsrc : xf.src = ∅
          · rw [if_pos hsrc] at hok
            cases hok
          · rw [if_neg hsrc] at hok
            by_cases hv3 : 3 ≤ version
            · rw [if_pos hv3] at hok
              by_cases hov : xf.src ∩ xf.tgt ≠ ∅
              · rw [if_pos hov] at hok
                cases hok
                refine ⟨[{ writes := xf.tgt, reads := if 2 ≤ version then unstashedSrc xf else xf.src }], rfl, ?_, ?_, ?_⟩
                · intro c hc
                  rcases List.mem_cons.mp hc with h | h
                  · rw [h]
                    exact ⟨Finset.Subset.refl _, Or.inr rfl⟩
                  · exact absurd h (List.not_mem_nil c)
                · exact count_single_main rfl (fun hcon => hmov hcon.1) (by rcases hdif with h | h <;> rw [h] <;> decide)
                · intro care w hr
                  exact rawOk_single (hr _ (List.mem_cons_self _ _))
              · rw [if_neg hov] at hok
                cases hok
                refine ⟨[{ writes := xf.tgt, reads := if 2 ≤ version then unstashedSrc xf else xf.src }], rfl, ?_, ?_, ?_⟩
                · intro c hc
                  rcases List.mem_cons.mp hc with h | h
                  · rw [h]
                    exact ⟨Finset.Subset.refl _, Or.inr rfl⟩
                  · exact absurd h (List.not_mem_nil c)
                · exact count_single_main rfl (fun hcon => hmov hcon.1) (by rcases hdif with h | h <;> rw [h] <;> decide)
                · intro care w hr
                  exact rawOk_single (hr _ (List.mem_cons_self _ _))
            · rw [if_neg hv3] at hok
              cases hok
              refine ⟨[{ writes := xf.tgt, reads := if 2 ≤ version then unstashedSrc xf else xf.src }], rfl, ?_, ?_, ?_⟩
              · intro c hc
                rcases List.mem_cons.mp hc with h | h
                · rw [h]
                  exact ⟨Finset.Subset.refl _, Or.inr rfl⟩
                · exact absurd h (List.not_mem_nil c)
              · exact count_single_main rfl (fun hcon => hmov hcon.1) (by rcases hdif with h | h <;> rw [h] <;> decide)
              · intro care w hr
                exact rawOk_single (hr _ (List.mem_cons_self _ _))
      · rw [if_neg hdif] at hok
        by_cases hzero : xf.style = "zero"
        · rw [if_pos hzero] at hok
          by_cases htgt : xf.tgt = ∅
          · rw [if_pos htgt] at hok
            cases hok
          · rw [if_neg htgt] at hok
            cases hok
            refine ⟨writeTransfersZero (rsSize (xf.tgt \ xf.src)) (xf.tgt \ xf.src), rfl, ?_, ?_, ?_⟩
            · intro c hc
              obtain ⟨hw, hr⟩ :=
                (wtz_shape (rsSize (xf.tgt \ xf.src)) (xf.tgt \ xf.src) (le_refl _)).1 c hc
              exact ⟨hw.trans Finset.sdiff_subset, Or.inl hr⟩
            · intro b
              rw [(wtz_shape (rsSize (xf.tgt \ xf.src)) (xf.tgt \ xf.src) (le_refl _)).2 b]
              by_cases hb : b ∈ xf.tgt \ xf.src
              · rw [if_pos hb]
                obtain ⟨h1, h2⟩ := Finset.mem_sdiff.mp hb
                rw [if_pos ⟨h1, fun hcon => by
                  rcases hcon with h | h
                  · rw [hzero] at h
                    exact absurd h.1 (by decide)
                  · exact h2 h.2⟩]
              · rw [if_neg hb]
                rw [if_neg (fun hcon => hb (Finset.mem_sdiff.mpr
                  ⟨hcon.1, fun hs => hcon.2 (Or.inr ⟨hzero, hs⟩)⟩))]
            · intro care w hr
              exact rawOk_of_noreads care _ w (fun c hc =>
                ((wtz_shape (rsSize (xf.tgt \ xf.src)) (xf.tgt \ xf.src) (le_refl _)).1 c hc).2)
        · rw [if_neg hzero] at hok
          cases hok

theorem emitTail_ok {version : ℕ} {cache : Option ℕ} {thr : ℚ}
    {st₅ st' : EmitSt} {fc : List Cmd} {fs : ℕ}
    (hok : (let st₆ := if fc ≠ [] then { st₅ with out := (st₅.out ++ fc), stashedBlocks := (st₅.stashedBlocks - fs) } else st₅; if 2 ≤ version ∧ cache.isSome then (if withinStashBudget st₆.maxStashed (cache.getD 0) thr then pure st₆ else throw PyErr.stashLimit) else pure st₆) = (Except.ok st' : Except PyErr EmitSt)) :
    st'.out = st₅.out ++ fc := by
  dsimp only at hok
  by_cases hfc : fc ≠ []
  · rw [if_pos hfc] at hok
    split at hok
    · split at hok
      · cases hok
        rfl
      · cases hok
    · cases hok
      rfl
  · rw [if_neg hfc] at hok
    rw [not_not] at hfc
    subst hfc
    split at hok
    · split at hok
      · cases hok
        exact (List.append_nil _).symm
      · cases hok
    · cases hok
      exact (List.append_nil _).symm

theorem emitXfer_ok {version : ℕ} {cache : Option ℕ} {thr : ℚ}
    {h : RSet → ℕ} {st st' : EmitSt} {xf : Xfer}
    (hok : emitXfer version cache thr h st xf = .ok st') :
    ∃ pre mains post,
      st'.out = st.out ++ (pre ++ (mains ++ post)) ∧
      (∀ c ∈ pre, c.writes = ∅ ∧ ∃ p ∈ xf.stashBefore, c.reads = p.2) ∧
      (∀ c ∈ post, c.writes = ∅ ∧ c.reads = ∅) ∧
      (∀ c ∈ mains, c.writes ⊆ xf.tgt ∧
        (c.reads = ∅ ∨ c.reads = (if 2 ≤ version then unstashedSrc xf else xf.src))) ∧
      (∀ b : ℕ, mains.countP (fun c => b ∈ c.writes) =
        if b ∈ xf.tgt ∧ ¬((xf.style = "move" ∧ xf.src = xf.tgt) ∨
            (xf.style = "zero" ∧ b ∈ xf.src)) then 1 else 0) ∧
      (∀ (care w : RSet), (∀ c ∈ mains, c.reads ∩ (w ∩ care) = ∅) →
        readAfterWriteOk care mains w = true) := by
  unfold emitXfer at hok
  split at hok
  · cases hok
  · obtain ⟨st₁, hfold, hok⟩ := bindOk hok
    obtain ⟨pre, hpre, hcpre⟩ := emitStashFold_ok xf.stashBefore st st₁ hfold
    obtain ⟨trip, htrip, hok⟩ := bindOk hok
    have htrip' : (if 2 ≤ version then (do
        let acc ← xf.useStash.foldlM (emitUse version h xf.src) ({ st₁ with maxStashed := max st₁.maxStashed st₁.stashedBlocks }, ([] : List Cmd), (0 : ℕ))
        let _ ← srcStrForm xf
        pure acc)
      else pure ({ st₁ with maxStashed := max st₁.maxStashed st₁.stashedBlocks }, ([] : List Cmd), (0 : ℕ))) = Except.ok trip := htrip
    have hkey : trip.1.out = st₁.out ∧ ∀ c ∈ trip.2.1, c.writes = ∅ ∧ c.reads = ∅ := by
      split at htrip'
      · obtain ⟨acc, hacc, hrest⟩ := bindOk htrip'
        obtain ⟨u, hsrc, hpure⟩ := bindOk hrest
        cases hpure
        obtain ⟨h1, h2⟩ := emitUseFold_ok xf.useStash _ _ hacc
        refine ⟨h1, fun c hc => ?_⟩
        rcases h2 c hc with h' | h'
        · exact absurd h' (List.not_mem_nil c)
        · exact h'
      · cases htrip'
        exact ⟨rfl, fun c hc => absurd hc (List.not_mem_nil c)⟩
    obtain ⟨st₅, hmain, hok⟩ := bindOk hok
    obtain ⟨mains, hout5, hcm, hcount, hraw⟩ := emitMain_ok hmain
    have hout6 : st'.out = st₅.out ++ trip.2.1 := emitTail_ok hok
    refine ⟨pre, mains, trip.2.1, ?_, hcpre, hkey.2, hcm, hcount, hraw⟩
    rw [hout6, hout5, hkey.1, hpre]
    simp [List.append_assoc]

theorem tgtUnion_aux {xs : List Xfer} : ∀ (l : List ℕ) (w : RSet) (b : ℕ),
    (b ∈ l.foldl (fun acc i => acc ∪ (getXf xs i).tgt) w ↔
      b ∈ w ∨ ∃ i ∈ l, b ∈ (getXf xs i).tgt) := by
  intro l
  induction l with
  | nil =>
    intro w b
    simp
  | cons i l ih =>
    intro w b
    rw [List.foldl_cons, ih]
    constructor
    · rintro (hb | ⟨j, hj, hbj⟩)
      · rcases Finset.mem_union.mp hb with h | h
        · exact Or.inl h
        · exact Or.inr ⟨i, List.mem_cons_self _ _, h⟩
      · exact Or.inr ⟨j, List.mem_cons_of_mem _ hj, hbj⟩
    · rintro (hb | ⟨j, hj, hbj⟩)
      · exact Or.inl (Finset.mem_union.mpr (Or.inl hb))
      · rcases List.mem_cons.mp hj with h | h
        · exact Or.inl (Finset.mem_union.mpr (Or.inr (h ▸ hbj)))
        · exact Or.inr ⟨j, h, hbj⟩

theorem mem_tgtUnion {xs : List Xfer} {l : List ℕ} {b : ℕ} :
    b ∈ tgtUnion xs l ↔ ∃ i ∈ l, b ∈ (getXf xs i).tgt := by
  unfold tgtUnion
  rw [tgtUnion_aux]
  simp

theorem emitFold_ok {version : ℕ} {cache : Option ℕ} {thr : ℚ}
    {h : RSet → ℕ} {xs : List Xfer} {care : RSet} :
    ∀ (R P : List ℕ) (st stF : EmitSt),
    R.foldlM (fun s i => emitXfer version cache thr h s (getXf xs i)) st = .ok stF →
    (∀ j ∈ P, ∀ i ∈ R, (getXf xs j).tgt ∩ (getXf xs i).tgt = ∅ ∧
      (getXf xs j).tgt ∩ (if 2 ≤ version then unstashedSrc (getXf xs i) else (getXf xs i).src) = ∅) →
    R.Pairwise (fun j i => (getXf xs j).tgt ∩ (getXf xs i).tgt = ∅ ∧
      (getXf xs j).tgt ∩ (if 2 ≤ version then unstashedSrc (getXf xs i) else (getXf xs i).src) = ∅) →
    (∀ i ∈ R, ∀ p ∈ (getXf xs i).stashBefore, p.2 ⊆ (getXf xs i).tgt) →
    ∃ new, stF.out = st.out ++ new ∧
      (∀ b : ℕ, new.countP (fun c => b ∈ c.writes) = countWant xs b R) ∧
      (∀ c ∈ new, c.writes ⊆ tgtUnion xs R) ∧
      (∀ w : RSet, w ∩ care ⊆ tgtUnion xs P →
        readAfterWriteOk care new w = true) := by
  intro R
  induction R with
  | nil =>
    intro P st stF hok hPR hRR hstb
    cases hok
    refine ⟨[], (List.append_nil _).symm, ?_, ?_, ?_⟩
    · intro b
      rfl
    · intro c hc
      exact absurd hc (List.not_mem_nil c)
    · intro w hw
      rfl
  | cons i tail ih =>
    intro P st stF hok hPR hRR hstb
    obtain ⟨st₁, hstep, hrest⟩ := foldlM_ok_cons hok
    obtain ⟨pre, mains, post, hout1, hcpre, hcpost, hcm, hcount, hraw⟩ :=
      emitXfer_ok hstep
    have hRRc := List.pairwise_cons.mp hRR
    have hPR' : ∀ j ∈ P ++ [i], ∀ i' ∈ tail,
        (getXf xs j).tgt ∩ (getXf xs i').tgt = ∅ ∧
        (getXf xs j).tgt ∩ (if 2 ≤ version then unstashedSrc (getXf xs i') else (getXf xs i').src) = ∅ := by
      intro j hj i' hi'
      rcases List.mem_append.mp hj with hj' | hj'
      · exact hPR j hj' i' (List.mem_cons_of_mem _ hi')
      · have hji : j = i := List.mem_singleton.mp hj'
        subst hji
        exact hRRc.1 i' hi'
    obtain ⟨new2, hout2, hcount2, hwr2, hraw2⟩ :=
      ih (P ++ [i]) st₁ stF hrest hPR' hRRc.2
        (fun i' hi' => hstb i' (List.mem_cons_of_mem _ hi'))
    refine ⟨(pre ++ (mains ++ post)) ++ new2, ?_, ?_, ?_, ?_⟩
    · rw [hout2, hout1, List.append_assoc]
    · intro b
      rw [List.countP_append, hcount2 b, List.countP_append, List.countP_append]
      rw [countP_zero_of_empty_writes (fun c hc => (hcpre c hc).1)]
      rw [countP_zero_of_empty_writes (fun c hc => (hcpost c hc).1)]
      rw [hcount b]
      simp only [countWant, Nat.zero_add, Nat.add_zero]
    · intro c hc
      rcases List.mem_append.mp hc with h1 | h1
      · rcases List.mem_append.mp h1 with h2 | h2
        · rw [(hcpre c h2).1]
          exact Finset.empty_subset _
        · rcases List.mem_append.mp h2 with h3 | h3
          · intro b hb
            rw [mem_tgtUnion]
            exact ⟨i, List.mem_cons_self _ _, (hcm c h3).1 hb⟩
          · rw [(hcpost c h3).1]
            exact Finset.empty_subset _
      · intro b hb
        have hmem := hwr2 c h1 hb
        rw [mem_tgtUnion] at hmem ⊢
        obtain ⟨i', hi', hbi⟩ := hmem
        exact ⟨i', List.mem_cons_of_mem _ hi', hbi⟩
    · intro w hw
      rw [rawOk_append, Bool.and_eq_true]
      constructor
      · rw [rawOk_append, Bool.and_eq_true]
        constructor
        · apply rawOk_of_reads_avoid care pre w (tgtUnion xs P) hw
          · intro c hc
            obtain ⟨hwri, p, hp, hrd⟩ := hcpre c hc
            rw [hrd]
            rw [Finset.eq_empty_iff_forall_not_mem]
            intro b hb
            obtain ⟨hb1, hb2⟩ := Finset.mem_inter.mp hb
            obtain ⟨j, hj, hbj⟩ := mem_tgtUnion.mp hb2
            have hd := (hPR j hj i (List.mem_cons_self _ _)).1
            have hbi : b ∈ (getXf xs i).tgt :=
              hstb i (List.mem_cons_self _ _) p hp hb1
            have hmem : b ∈ (getXf xs j).tgt ∩ (getXf xs i).tgt :=
              Finset.mem_inter.mpr ⟨hbj, hbi⟩
            rw [hd] at hmem
            exact absurd hmem (Finset.not_mem_empty b)
          · intro c hc
            rw [(hcpre c hc).1]
            rw [Finset.empty_inter]
            exact Finset.empty_subset _
        · rw [writesUnion_of_empty (fun c hc => (hcpre c hc).1)]
          rw [rawOk_append, Bool.and_eq_true]
          constructor
          · apply hraw
            intro c hc
            rcases (hcm c hc).2 with hr | hr
            · rw [hr, Finset.empty_inter]
            · rw [hr]
              rw [Finset.eq_empty_iff_forall_not_mem]
              intro b hb
              obtain ⟨hb1, hb2⟩ := Finset.mem_inter.mp hb
              obtain ⟨j, hj, hbj⟩ := mem_tgtUnion.mp (hw hb2)
              have hs := (hPR j hj i (List.mem_cons_self _ _)).2
              have hmem : b ∈ (getXf xs j).tgt ∩
                  (if 2 ≤ version then unstashedSrc (getXf xs i) else (getXf xs i).src) :=
                Finset.mem_inter.mpr ⟨hbj, hb1⟩
              rw [hs] at hmem
              exact absurd hmem (Finset.not_mem_empty b)
          · exact rawOk_of_noreads care post _ (fun c hc => (hcpost c hc).2)
      · apply hraw2
        intro b hb
        obtain ⟨hb1, hb2⟩ := Finset.mem_inter.mp hb
        rcases mem_writesUnion.mp hb1 with hbw | ⟨c, hc, hbc⟩
        · obtain ⟨j, hj, hbj⟩ :=
            mem_tgtUnion.mp (hw (Finset.mem_inter.mpr ⟨hbw, hb2⟩))
          rw [mem_tgtUnion]
          exact ⟨j, List.mem_append.mpr (Or.inl hj), hbj⟩
        · rcases List.mem_append.mp hc with h1 | h1
          · rw [(hcpre c h1).1] at hbc
            exact absurd hbc (Finset.not_mem_empty b)
          · rcases List.mem_append.mp h1 with h2 | h2
            · rw [mem_tgtUnion]
              exact ⟨i, List.mem_append.mpr (Or.inr (List.mem_singleton.mpr rfl)),
                (hcm c h2).1 hbc⟩
            · rw [(hcpost c h2).1] at hbc
              exact absurd hbc (Finset.not_mem_empty b)

theorem countWant_eq_zero {xs : List Xfer} {b : ℕ} :
    ∀ (l : List ℕ), (∀ k ∈ l, b ∉ (getXf xs k).tgt) → countWant xs b l = 0 := by
  intro l
  induction l with
  | nil =>
    intro _
    rfl
  | cons i tail ih =>
    intro hno
    unfold countWant
    rw [if_neg (fun hcon => hno i (List.mem_cons_self _ _) hcon.1),
      ih (fun k hk => hno k (List.mem_cons_of_mem _ hk))]

theorem countWant_single {xs : List Xfer} {b x : ℕ} :
    ∀ (l : List ℕ), l.Nodup → x ∈ l → b ∈ (getXf xs x).tgt →
    (∀ k ∈ l, k ≠ x → b ∉ (getXf xs k).tgt) →
    countWant xs b l =
      if ((getXf xs x).style = "move" ∧ (getXf xs x).src = (getXf xs x).tgt) ∨
          ((getXf xs x).style = "zero" ∧ b ∈ (getXf xs x).src) then 0 else 1 := by
  intro l
  induction l with
  | nil =>
    intro _ hx
    exact absurd hx (List.not_mem_nil x)
  | cons i tail ih =>
    intro hnd hx hb hk
    unfold countWant
    rcases List.mem_cons.mp hx with hxi | hxt
    · subst hxi
      rw [countWant_eq_zero tail (fun k hk' hbk =>
        hk k (List.mem_cons_of_mem _ hk')
          (fun he => (List.nodup_cons.mp hnd).1 (he ▸ hk')) hbk)]
      by_cases hE : ((getXf xs x).style = "move" ∧ (getXf xs x).src = (getXf xs x).tgt) ∨
          ((getXf xs x).style = "zero" ∧ b ∈ (getXf xs x).src)
      · rw [if_neg (fun hcon => hcon.2 hE), if_pos hE]
      · rw [if_pos ⟨hb, hE⟩, if_neg hE]
    · have hix : i ≠ x := fun he => (List.nodup_cons.mp hnd).1 (he ▸ hxt)
      rw [if_neg (fun hcon => hk i (List.mem_cons_self _ _) hix hcon.1),
        ih (List.nodup_cons.mp hnd).2 hxt hb
          (fun k hk' hkx => hk k (List.mem_cons_of_mem _ hk') hkx),
        Nat.zero_add]

theorem ite_wrap_countP {b : ℕ} {out₀ : List Cmd} {E1 E2 : RSet}
    (h1 : b ∉ E1) (h2 : b ∉ E2) :
    ∀ (c1 c2 : Prop) [Decidable c1] [Decidable c2],
    (if c2 then (if c1 then ({ writes := E1, reads := ∅ } : Cmd) :: out₀ else out₀) ++ [({ writes := E2, reads := ∅ } : Cmd)] else (if c1 then ({ writes := E1, reads := ∅ } : Cmd) :: out₀ else out₀)).countP (fun c => b ∈ c.writes) = out₀.countP (fun c => b ∈ c.writes) := by
  intro c1 c2 inst1 inst2
  by_cases hc2 : c2 <;> by_cases hc1 : c1 <;>
    simp [hc1, hc2, List.countP_append, List.countP_cons, h1, h2]

theorem ite_wrap_rawOk {care : RSet} {out₀ : List Cmd} {E1 E2 : RSet}
    (hE1 : E1 ∩ care = ∅)
    (hok₀ : ∀ w : RSet, w ∩ care = ∅ → readAfterWriteOk care out₀ w = true) :
    ∀ (c1 c2 : Prop) [Decidable c1] [Decidable c2],
    readAfterWriteOk care
      (if c2 then (if c1 then ({ writes := E1, reads := ∅ } : Cmd) :: out₀ else out₀) ++ [({ writes := E2, reads := ∅ } : Cmd)] else (if c1 then ({ writes := E1, reads := ∅ } : Cmd) :: out₀ else out₀)) ∅ = true := by
  intro c1 c2 inst1 inst2
  have hbase : ∀ w : RSet, w ∩ care = ∅ →
      readAfterWriteOk care
        (if c1 then ({ writes := E1, reads := ∅ } : Cmd) :: out₀ else out₀) w = true := by
    intro w hw
    by_cases hc1 : c1
    · rw [if_pos hc1]
      have hu : (w ∪ E1) ∩ care = ∅ := by
        rw [Finset.union_inter_distrib_right, hw, hE1, Finset.union_empty]
      unfold readAfterWriteOk
      rw [decide_eq_true (Finset.empty_inter _), hok₀ (w ∪ E1) hu]
      rfl
    · rw [if_neg hc1]
      exact hok₀ w hw
  by_cases hc2 : c2
  · rw [if_pos hc2, rawOk_append, Bool.and_eq_true]
    exact ⟨hbase ∅ (Finset.empty_inter _), rawOk_single (Finset.empty_inter _)⟩
  · rw [if_neg hc2]
    exact hbase ∅ (Finset.empty_inter _)

/-- Claim C1 (amended). For every emitted command list and every block `b`
of `tgt.care_map`: at most one emitted command writes `b`; when `b` lies
in the target of a planned transfer, exactly one command writes it unless
that transfer is an identity `move` (`src == tgt`, no command emitted) or
a `zero` whose source already covers `b` (only `tgt - src` is zeroed), in
which cases no command writes it; and no command reads `b` from disk
after a command has written it (stash captures are emitted before the
overwriting command, and stash uses read the cache, not the disk).
Hypotheses: the planned sequence is duplicate-free with pairwise-disjoint
targets, each earlier target is disjoint from the disk
source of each later transfer (the planner establishes this by ordering and stashing), ranges
stashed by a transfer lie in its own target, and the `extended` zero-fill
blocks avoid the care map. -/
theorem C1_emitCommands_write_once {version total : ℕ} {cache : Option ℕ}
    {thr : ℚ} {h : RSet → ℕ} {care extended : RSet} {xs : List Xfer}
    {seq : List ℕ} {res : List Cmd × ℤ}
    (hnd : seq.Nodup)
    (hpair : seq.Pairwise (fun j k => (getXf xs j).tgt ∩ (getXf xs k).tgt = ∅ ∧
      (getXf xs j).tgt ∩ (if 2 ≤ version then unstashedSrc (getXf xs k) else (getXf xs k).src) = ∅))
    (hstb : ∀ i ∈ seq, ∀ p ∈ (getXf xs i).stashBefore, p.2 ⊆ (getXf xs i).tgt)
    (hext : extended ∩ care = ∅)
    (hok : emitCommands version cache thr h total care extended xs seq = .ok res) :
    (∀ b ∈ care, res.1.countP (fun c => b ∈ c.writes) ≤ 1) ∧
    (∀ b ∈ care, ∀ x ∈ seq, b ∈ (getXf xs x).tgt →
      res.1.countP (fun c => b ∈ c.writes) =
        if ((getXf xs x).style = "move" ∧ (getXf xs x).src = (getXf xs x).tgt) ∨
            ((getXf xs x).style = "zero" ∧ b ∈ (getXf xs x).src) then 0 else 1) ∧
    readAfterWriteOk care res.1 ∅ = true := by
  unfold emitCommands at hok
  obtain ⟨st, hfold, hok⟩ := bindOk hok
  obtain ⟨new, hout, hcnt, hwr, hrawAll⟩ :=
    @emitFold_ok version cache thr h xs care seq [] _ st hfold
      (fun j hj => absurd hj (List.not_mem_nil j)) hpair hstb
  have hstout : st.out = new := hout
  dsimp only at hok
  cases hok
  dsimp only
  have hbE : ∀ b ∈ care,
      b ∉ ((Finset.range total \ extended) \ care) \ st.touchedSrc ∧
      b ∉ ((Finset.range total \ extended) \ care) \
        (((Finset.range total \ extended) \ care) \ st.touchedSrc) := by
    intro b hb
    constructor
    · intro hmem
      exact (Finset.mem_sdiff.mp (Finset.mem_sdiff.mp hmem).1).2 hb
    · intro hmem
      exact (Finset.mem_sdiff.mp (Finset.mem_sdiff.mp hmem).1).2 hb
  have hcntout : ∀ b ∈ care,
      (if ((Finset.range total \ extended) \ care) \ (((Finset.range total \ extended) \ care) \ st.touchedSrc) ≠ ∅ then (if ((Finset.range total \ extended) \ care) \ st.touchedSrc ≠ ∅ then ({ writes := ((Finset.range total \ extended) \ care) \ st.touchedSrc, reads := ∅ } : Cmd) :: (st.out ++ writeTransfersZero (rsSize extended) extended) else st.out ++ writeTransfersZero (rsSize extended) extended) ++ [({ writes := ((Finset.range total \ extended) \ care) \ (((Finset.range total \ extended) \ care) \ st.touchedSrc), reads := ∅ } : Cmd)] else (if ((Finset.range total \ extended) \ care) \ st.touchedSrc ≠ ∅ then ({ writes := ((Finset.range total \ extended) \ care) \ st.touchedSrc, reads := ∅ } : Cmd) :: (st.out ++ writeTransfersZero (rsSize extended) extended) else st.out ++ writeTransfersZero (rsSize extended) extended)).countP (fun c => b ∈ c.writes) = countWant xs b seq := by
    intro b hb
    have hbz : b ∉ extended := by
      intro hbe
      have hmem : b ∈ extended ∩ care := Finset.mem_inter.mpr ⟨hbe, hb⟩
      rw [hext] at hmem
      exact absurd hmem (Finset.not_mem_empty b)
    rw [ite_wrap_countP (hbE b hb).1 (hbE b hb).2, List.countP_append, hstout,
      hcnt b, (wtz_shape (rsSize extended) extended (le_refl _)).2 b,
      if_neg hbz, Nat.add_zero]
  have hE1c : (((Finset.range total \ extended) \ care) \ st.touchedSrc) ∩ care = ∅ := by
    rw [Finset.eq_empty_iff_forall_not_mem]
    intro b hbm
    obtain ⟨hb1, hb2⟩ := Finset.mem_inter.mp hbm
    exact (hbE b hb2).1 hb1
  have hok₀ : ∀ w : RSet, w ∩ care = ∅ →
      readAfterWriteOk care (st.out ++ writeTransfersZero (rsSize extended) extended) w = true := by
    intro w hw
    rw [hstout, rawOk_append, Bool.and_eq_true]
    exact ⟨hrawAll w (by rw [hw]; exact Finset.empty_subset _),
      rawOk_of_noreads care _ _ (fun c hc =>
        ((wtz_shape (rsSize extended) extended (le_refl _)).1 c hc).2)⟩
  have hrawout := @ite_wrap_rawOk care
    (st.out ++ writeTransfersZero (rsSize extended) extended)
    (((Finset.range total \ extended) \ care) \ st.touchedSrc)
    (((Finset.range total \ extended) \ care) \ (((Finset.range total \ extended) \ care) \ st.touchedSrc))
    hE1c hok₀
    (((Finset.range total \ extended) \ care) \ st.touchedSrc ≠ ∅)
    (((Finset.range total \ extended) \ care) \ (((Finset.range total \ extended) \ care) \ st.touchedSrc) ≠ ∅)
    _ _
  have hsym : ∀ j ∈ seq, ∀ k ∈ seq, j ≠ k →
      (getXf xs j).tgt ∩ (getXf xs k).tgt = ∅ := by
    intro j hj k hk hjk
    exact List.Pairwise.forall
      (fun a b hab => by rw [Finset.inter_comm]; exact hab)
      (hpair.imp (fun hc => hc.1)) hj hk hjk
  have huniq : ∀ b : ℕ, ∀ x ∈ seq, b ∈ (getXf xs x).tgt →
      ∀ k ∈ seq, k ≠ x → b ∉ (getXf xs k).tgt := by
    intro b x hx hbx k hk hkx hbk
    have hd := hsym k hk x hx hkx
    have hmem : b ∈ (getXf xs k).tgt ∩ (getXf xs x).tgt :=
      Finset.mem_inter.mpr ⟨hbk, hbx⟩
    rw [hd] at hmem
    exact absurd hmem (Finset.not_mem_empty b)
  refine ⟨?_, ?_, hrawout⟩
  · intro b hb
    rw [hcntout b hb]
    by_cases hex : ∃ x ∈ seq, b ∈ (getXf xs x).tgt
    · obtain ⟨x, hx, hbx⟩ := hex
      rw [countWant_single seq hnd hx hbx (huniq b x hx hbx)]
      split
      · omega
      · omega
    · push_neg at hex
      rw [countWant_eq_zero seq hex]
      omega
  · intro b hb x hx hbx
    rw [hcntout b hb]
    exact countWant_single seq hnd hx hbx (huniq b x hx hbx)

/-- Claim C1, counterexample to the frozen statement: a `move` transfer whose
source equals its target emits no command at all, so the care-map block 0
is written by zero commands, not exactly one; the emission nevertheless
succeeds. -/
theorem C1_counterexample_identity_move :
    (0 : ℕ) ∈ ({0} : RSet) ∧
    emitCommands 1 none 0 (fun _ => 0) 1 {0} ∅
      [mkXfer (fun _ => true) "m" (some "s") {0} {0} "move"] [0] =
      .ok ([], 0) ∧
    ([] : List Cmd).countP (fun c => (0 : ℕ) ∈ c.writes) = 0 := by
  refine ⟨by decide, by rfl, rfl⟩

theorem C1_emitCommands_write_once_witness :
    [({ writes := ({0} : RSet), reads := (∅ : RSet) } : Cmd)].countP
        (fun c => (0 : ℕ) ∈ c.writes) ≤ 1 ∧
    readAfterWriteOk {0} [({ writes := ({0} : RSet), reads := (∅ : RSet) } : Cmd)] ∅ = true := by
  have hthm := @C1_emitCommands_write_once 1 1 none 0 (fun _ => 0) {0} ∅
    [mkXfer (fun _ => true) "n" none {0} ∅ "new"] [0]
    ([({ writes := ({0} : RSet), reads := (∅ : RSet) } : Cmd)], 0)
    (by decide) (by decide) (by decide) (by decide) (by rfl)
  exact ⟨hthm.1 0 (by decide), hthm.2.2⟩

end BlockImgDiff
